import Mathlib

/-!
# Xapian `common/bitstream.cc`: minimal-range bit codes and interpolative coding

A shallow embedding of `BitWriter` and `BitReader` of `xapian-core/common/bitstream.cc`,
followed by theorems about it.

Machine model (LP64): `int` and `unsigned` (hence `Xapian::termpos`) are 32 bits wide,
`size_t` is 64 bits wide.  Unsigned arithmetic is arithmetic on natural numbers reduced
modulo `2^32` or `2^64`; a value of type `int` is kept as its 32-bit two's complement
pattern.  Indices (`int j, k`) and bit counts (`int n_bits`, `int count`) are natural
numbers: they are non-negative and far below `2^31` in every state that can be reached
from a constructor.  A shift by the width of the type or more, an access outside a
vector and a read past the end of the input have no defined result (`Fault.undefined`).

`Assert(c)` comes from `omassert.h`: it raises an error when `c` is false in a build
with `XAPIAN_ASSERTIONS`, and expands to nothing otherwise.  Every operation takes the
build as its first argument (`dbg = true`: assertions are compiled in).

The class declarations are in `bitstream.h`; here the members follow their use in
`bitstream.cc`, and the constructors, `freeze()` and the methods of
a frame of the incremental decoder are modelled from the specification.

Loops and recursions are functions with a `fuel` argument; the method that contains
them supplies enough fuel, so every method is a total function of its arguments.
-/

namespace Xapian

/-- Ways in which a call fails to return. -/
inductive Fault where
  /-- An `Assert` failed (only in a build with assertions). -/
  | assertion
  /-- The language does not define what happens (shift count not below the width,
  read past the end of a sequence). -/
  | undefined
  deriving DecidableEq, Repr

/-- The macro `Assert(cond)` of `omassert.h` in the build `dbg`. -/
def Assert (dbg : Bool) (cond : Bool) : Except Fault Unit :=
  if dbg && !cond then .error .assertion else .ok ()

/-! ## Machine integers -/

/-- Conversion to `unsigned` / `Xapian::termpos`. -/
def u32 (x : Nat) : Nat := x % 4294967296

/-- Conversion to `size_t`. -/
def u64 (x : Nat) : Nat := x % 18446744073709551616

/-- Subtraction of `unsigned` values. -/
def sub32 (a b : Nat) : Nat := (u32 a + 4294967296 - u32 b) % 4294967296

/-- Addition of `unsigned` values. -/
def add32 (a b : Nat) : Nat := (a + b) % 4294967296

/-- Subtraction of `size_t` values. -/
def sub64 (a b : Nat) : Nat := (u64 a + 18446744073709551616 - u64 b) % 18446744073709551616

/-- Addition of `size_t` values. -/
def add64 (a b : Nat) : Nat := (a + b) % 18446744073709551616

/-- The expression `1 << n` of type `int`, as a 32-bit pattern: `2^n`, which for
`n = 31` is the pattern of `INT_MIN`; undefined for a shift count of 32 or more. -/
def shl1_int (n : Nat) : Except Fault Nat :=
  if n < 32 then .ok (2 ^ n) else .error .undefined

/-- Conversion of an `int` (given as its 32-bit pattern) to `size_t`: sign extension. -/
def int_to_size_t (x : Nat) : Nat :=
  if x < 2147483648 then x else x + 18446744069414584320

/-! ## `my_fls` -/

/-- The table `flstab`. -/
def flstab : List Nat := [
    0, 1, 2, 2, 3, 3, 3, 3, 4, 4, 4, 4, 4, 4, 4, 4,
    5, 5, 5, 5, 5, 5, 5, 5, 5, 5, 5, 5, 5, 5, 5, 5,
    6, 6, 6, 6, 6, 6, 6, 6, 6, 6, 6, 6, 6, 6, 6, 6,
    6, 6, 6, 6, 6, 6, 6, 6, 6, 6, 6, 6, 6, 6, 6, 6,
    7, 7, 7, 7, 7, 7, 7, 7, 7, 7, 7, 7, 7, 7, 7, 7,
    7, 7, 7, 7, 7, 7, 7, 7, 7, 7, 7, 7, 7, 7, 7, 7,
    7, 7, 7, 7, 7, 7, 7, 7, 7, 7, 7, 7, 7, 7, 7, 7,
    7, 7, 7, 7, 7, 7, 7, 7, 7, 7, 7, 7, 7, 7, 7, 7,
    8, 8, 8, 8, 8, 8, 8, 8, 8, 8, 8, 8, 8, 8, 8, 8,
    8, 8, 8, 8, 8, 8, 8, 8, 8, 8, 8, 8, 8, 8, 8, 8,
    8, 8, 8, 8, 8, 8, 8, 8, 8, 8, 8, 8, 8, 8, 8, 8,
    8, 8, 8, 8, 8, 8, 8, 8, 8, 8, 8, 8, 8, 8, 8, 8,
    8, 8, 8, 8, 8, 8, 8, 8, 8, 8, 8, 8, 8, 8, 8, 8,
    8, 8, 8, 8, 8, 8, 8, 8, 8, 8, 8, 8, 8, 8, 8, 8,
    8, 8, 8, 8, 8, 8, 8, 8, 8, 8, 8, 8, 8, 8, 8, 8,
    8, 8, 8, 8, 8, 8, 8, 8, 8, 8, 8, 8, 8, 8, 8, 8]

/-- The function `my_fls(unsigned mask)`; the caller converts the argument to
`unsigned`, so that the index into `flstab` is below 256. -/
def my_fls (mask : Nat) : Nat :=
  let result1 := if mask ≥ 0x10000 then 16 else 0
  let mask1 := if mask ≥ 0x10000 then mask >>> 16 else mask
  let result2 := if mask1 ≥ 0x100 then result1 + 8 else result1
  let mask2 := if mask1 ≥ 0x100 then mask1 >>> 8 else mask1
  result2 + flstab.getD mask2 0

/-! ## `BitWriter` -/

/-- The members of `BitWriter`: the output bytes `buf`, the number `n_bits` of pending
bits and the 32-bit accumulator `acc` that holds them. -/
structure BitWriter where
  buf : List Nat
  n_bits : Nat
  acc : Nat
  deriving DecidableEq, Repr

/-- Modelled from the spec: the constructor of `BitWriter` (declared in `bitstream.h`),
an empty output with no pending bit. -/
def BitWriter.init : BitWriter := { buf := [], n_bits := 0, acc := 0 }

/-- Modelled from the spec: the flush of the pending bits to the buffer, `freeze()` of
`bitstream.h`; a last partial byte is padded with zero bits. -/
def BitWriter.freeze (w : BitWriter) : List Nat :=
  if w.n_bits ≠ 0 then w.buf ++ [w.acc % 256] else w.buf

/-- Lines 130-139 of `BitWriter::encode`: the width `bits` and the code `value` that are
handed to the accumulator, as the pair `(value, bits)`. -/
def encode_code (value outof : Nat) : Except Fault (Nat × Nat) := do
  let bits := my_fls (u32 (sub64 outof 1))
  let one ← shl1_int bits
  let spare := sub64 (int_to_size_t one) outof
  if spare ≠ 0 then
    let mid_start := sub64 outof spare / 2
    if value ≥ add64 mid_start spare then
      let marker ← shl1_int (sub64 bits 1)
      .ok (sub64 value (add64 mid_start spare) ||| int_to_size_t marker, bits)
    else if value ≥ mid_start then
      .ok (value, sub64 bits 1)
    else
      .ok (value, bits)
  else
    .ok (value, bits)

/-- The loop `while (n_bits >= 8)` at the end of `BitWriter::encode`; `fuel` bounds the
number of iterations, `n_bits` is always enough. -/
def flush_bytes : Nat → BitWriter → BitWriter
  | 0, w => w
  | fuel + 1, w =>
    if w.n_bits ≥ 8 then
      flush_bytes fuel { buf := w.buf ++ [w.acc % 256], n_bits := w.n_bits - 8, acc := w.acc >>> 8 }
    else w

/-- Lines 141-158 of `BitWriter::encode`: `bits` bits of `value` go through the
32-bit accumulator into the buffer. -/
def put_bits (dbg : Bool) (value bits : Nat) (w : BitWriter) : Except Fault BitWriter := do
  let (value, bits, w) ←
    if add64 bits w.n_bits > 32 then do
      Assert dbg (decide (bits ≤ 32))
      let acc := u32 (w.acc ||| u64 (value <<< w.n_bits))
      pure (value >>> 8, sub64 bits 8, { w with buf := w.buf ++ [acc % 256], acc := acc >>> 8 })
    else
      pure (value, bits, w)
  let acc := u32 (w.acc ||| u64 (value <<< w.n_bits))
  let n_bits := w.n_bits + bits
  pure (flush_bytes n_bits { w with n_bits := n_bits, acc := acc })

/-- The method `BitWriter::encode(size_t value, size_t outof)`. -/
def BitWriter.encode (dbg : Bool) (value outof : Nat) (w : BitWriter) :
    Except Fault BitWriter := do
  let value := u64 value
  let outof := u64 outof
  Assert dbg (decide (value < outof))
  let (value, bits) ← encode_code value outof
  put_bits dbg value bits w

/-! ## `BitReader` -/

/-- Modelled from the spec: the frame type of `di_current` and `di_stack` (declared in
`bitstream.h`): two indices and the values known at them. -/
structure Frame where
  j : Nat
  k : Nat
  pos_j : Nat
  pos_k : Nat
  deriving DecidableEq, Repr

/-- Modelled from the spec: the method `set(j, k, pos_j, pos_k)` of a frame (declared
in `bitstream.h`); the values are of type `Xapian::termpos`. -/
def Frame.set (j k pos_j pos_k : Nat) : Frame :=
  { j := j, k := k, pos_j := u32 pos_j, pos_k := u32 pos_k }

/-- Modelled from the spec: the method `is_next()` of a frame (declared in
`bitstream.h`), the condition `high_index - low_index > 1`. -/
def Frame.is_next (f : Frame) : Bool := decide (f.k - f.j > 1)

/-- Modelled from the spec: the method `is_initialized()` of a frame (declared in
`bitstream.h`); the frame `set(0, 0, 0, 0)` is the marker of a cursor that is not
active. -/
def Frame.is_initialized (f : Frame) : Bool := decide (f ≠ Frame.set 0 0 0 0)

/-- The members of `BitReader`: the input bytes `buf`, the offset `idx` of the next
unread byte, the number `n_bits` of bits held in the 32-bit accumulator `acc`, and the
cursor of the incremental decoder (`di_stack`, back of the vector last, and
`di_current`). -/
structure BitReader where
  buf : List Nat
  idx : Nat
  n_bits : Nat
  acc : Nat
  di_stack : List Frame
  di_current : Frame
  deriving DecidableEq, Repr

/-- Modelled from the spec: the constructor of `BitReader` (declared in `bitstream.h`):
nothing read yet, no cursor. -/
def BitReader.init (buf : List Nat) : BitReader :=
  { buf := buf, idx := 0, n_bits := 0, acc := 0, di_stack := [], di_current := Frame.set 0 0 0 0 }

/-- The loop `while (n_bits < count)` of `BitReader::read_bits`; `fuel` bounds the
number of iterations, `count` is always enough.  Reading past the end of `buf` is
undefined where the assertion does not stop it. -/
def fill_acc : Nat → Bool → Nat → BitReader → Except Fault BitReader
  | 0, _, _, r => .ok r
  | fuel + 1, dbg, count, r =>
    if r.n_bits < count then do
      Assert dbg (decide (r.idx < r.buf.length))
      match r.buf[r.idx]? with
      | none => .error .undefined
      | some b =>
        fill_acc fuel dbg count
          { r with acc := u32 (r.acc ||| u32 ((b % 256) <<< r.n_bits)),
                   idx := r.idx + 1, n_bits := r.n_bits + 8 }
    else .ok r

/-- Lines 211-219 of `BitReader::read_bits`: a read of at most 25 bits. -/
def read_bits_small (dbg : Bool) (count : Nat) (r : BitReader) :
    Except Fault (Nat × BitReader) := do
  let r ← fill_acc count dbg count r
  let result := r.acc &&& (sub32 (1 <<< count) 1)
  pure (result, { r with acc := r.acc >>> count, n_bits := r.n_bits - count })

/-- The recursion of `BitReader::read_bits`: more than 25 bits are read as 16 bits
followed by the rest; `fuel` bounds the depth, `count` is always enough. -/
def read_bits_fuel : Nat → Bool → Nat → BitReader → Except Fault (Nat × BitReader)
  | 0, dbg, count, r => read_bits_small dbg count r
  | fuel + 1, dbg, count, r =>
    if count > 25 then do
      Assert dbg (decide (count ≤ 32))
      let (result, r) ← read_bits_small dbg 16 r
      let (high, r) ← read_bits_fuel fuel dbg (count - 16) r
      pure (result ||| u32 (high <<< 16), r)
    else read_bits_small dbg count r

/-- The method `BitReader::read_bits(int count)`. -/
def BitReader.read_bits (dbg : Bool) (count : Nat) (r : BitReader) :
    Except Fault (Nat × BitReader) :=
  read_bits_fuel count dbg count r

/-- The method `BitReader::decode(Xapian::termpos outof, bool force)`.  The width
`bits - 1` is only used when `spare` is not zero, and then `bits` is at least 1. -/
def BitReader.decode (dbg : Bool) (outof : Nat) (force : Bool) (r : BitReader) :
    Except Fault (Nat × BitReader) := do
  Assert dbg (!force && !r.di_current.is_initialized)
  let outof := u32 outof
  let bits := my_fls (sub32 outof 1)
  let one ← shl1_int bits
  let spare := sub32 one outof
  let mid_start := sub64 outof spare / 2
  if spare ≠ 0 then
    let (p, r) ← r.read_bits dbg (bits - 1)
    if p < mid_start then
      let (b, r) ← r.read_bits dbg 1
      let p := if b ≠ 0 then u32 (add64 p (add64 mid_start spare)) else p
      Assert dbg (decide (p < outof))
      pure (p, r)
    else
      Assert dbg (decide (p < outof))
      pure (p, r)
  else
    let (p, r) ← r.read_bits dbg bits
    Assert dbg (decide (p < outof))
    pure (p, r)

/-! ## Interpolative coding -/

/-- The element `pos[i]` of a vector; an index outside the vector is undefined. -/
def vec_at (pos : List Nat) (i : Nat) : Except Fault Nat :=
  match pos[i]? with
  | some v => .ok v
  | none => .error .undefined

/-- The expression `pos_k - pos_j + j - k + 1`, evaluated in `unsigned` arithmetic: the
number of values the entry midway between `j` and `k` can take. -/
def interp_outof (pos_j pos_k j k : Nat) : Nat :=
  add32 (sub32 (add32 (sub32 pos_k pos_j) j) k) 1

/-- The loop of `BitWriter::encode_interpolative`: one pass encodes `pos[mid]`, calls
itself for `(j, mid)` and goes on with `j = mid`.  `fuel` bounds the depth, `k - j` is
always enough. -/
def encode_interpolative_loop :
    Nat → Bool → List Nat → Nat → Nat → BitWriter → Except Fault BitWriter
  | 0, _, _, _, _, w => .ok w
  | fuel + 1, dbg, pos, j, k, w =>
    if j + 1 < k then do
      let mid := (j + k) / 2
      let pos_k ← vec_at pos k
      let pos_j ← vec_at pos j
      let outof := interp_outof pos_j pos_k j k
      let lowest := sub64 (add64 pos_j mid) j
      let pos_mid ← vec_at pos mid
      let w ← w.encode dbg (sub64 pos_mid lowest) outof
      let w ← encode_interpolative_loop fuel dbg pos j mid w
      encode_interpolative_loop fuel dbg pos mid k w
    else .ok w

/-- The method `BitWriter::encode_interpolative(pos, j, k)`. -/
def BitWriter.encode_interpolative (dbg : Bool) (pos : List Nat) (j k : Nat)
    (w : BitWriter) : Except Fault BitWriter :=
  encode_interpolative_loop (k - j) dbg pos j k w

/-- The loop of the recursive `BitReader::decode_interpolative(pos, j, k)`; the call for
`(j, mid)` passes the entry assertion of the method again.  `fuel` bounds the depth,
`k - j` is always enough. -/
def decode_interpolative_loop :
    Nat → Bool → List Nat → Nat → Nat → BitReader → Except Fault (List Nat × BitReader)
  | 0, _, pos, _, _, r => .ok (pos, r)
  | fuel + 1, dbg, pos, j, k, r =>
    if j + 1 < k then do
      let mid := (j + k) / 2
      let pos_k ← vec_at pos k
      let pos_j ← vec_at pos j
      let outof := interp_outof pos_j pos_k j k
      let (p, r) ← r.decode dbg outof false
      let pos_mid := u32 (add64 p (sub64 (add64 pos_j mid) j))
      if mid < pos.length then do
        let pos := pos.set mid pos_mid
        Assert dbg (!r.di_current.is_initialized)
        let (pos, r) ← decode_interpolative_loop fuel dbg pos j mid r
        decode_interpolative_loop fuel dbg pos mid k r
      else .error .undefined
    else .ok (pos, r)

/-- The method `BitReader::decode_interpolative(vector& pos, int j, int k)`. -/
def BitReader.decode_interpolative (dbg : Bool) (pos : List Nat) (j k : Nat)
    (r : BitReader) : Except Fault (List Nat × BitReader) := do
  Assert dbg (!r.di_current.is_initialized)
  decode_interpolative_loop (k - j) dbg pos j k r

/-- The method `BitReader::decode_interpolative(int j, int k, termpos pos_j, termpos
pos_k)` that starts a cursor.  The call of `di_stack.reserve` changes the capacity of
the vector only. -/
def BitReader.decode_interpolative_cursor (dbg : Bool) (j k pos_j pos_k : Nat)
    (r : BitReader) : Except Fault BitReader := do
  Assert dbg (!r.di_current.is_initialized)
  pure { r with di_current := Frame.set j k pos_j pos_k }

/-- The loop of `BitReader::decode_interpolative_next`.  Every pass that does not return
narrows `di_current`, so `fuel` above `di_current.k - di_current.j` is always enough.
The back of an empty `di_stack` is undefined. -/
def next_loop : Nat → Bool → BitReader → Except Fault (Nat × BitReader)
  | 0, _, _ => .error .undefined
  | fuel + 1, dbg, r =>
    if !r.di_stack.isEmpty || r.di_current.is_next then
      if r.di_current.is_next then do
        let cur := r.di_current
        let r := { r with di_stack := r.di_stack ++ [cur] }
        let mid := (cur.j + cur.k) / 2
        let (p, r) ← r.decode dbg (interp_outof cur.pos_j cur.pos_k cur.j cur.k) true
        let pos_mid := add32 p (sub32 (add32 cur.pos_j mid) cur.j)
        next_loop fuel dbg { r with di_current := Frame.set cur.j mid cur.pos_j pos_mid }
      else do
        let pos_ret := r.di_current.pos_k
        Assert dbg (r.di_stack.isEmpty && !r.di_current.is_next)
        match r.di_stack.getLast? with
        | none => .error .undefined
        | some top =>
          let di_stack := r.di_stack.dropLast
          let mid := (top.j + top.k) / 2
          let cur := Frame.set mid top.k pos_ret top.pos_k
          let cur := if di_stack.isEmpty && !cur.is_next then Frame.set 0 0 0 0 else cur
          pure (pos_ret, { r with di_stack := di_stack, di_current := cur })
    else do
      Assert dbg false
      pure (0, r)

/-- The method `BitReader::decode_interpolative_next()`. -/
def BitReader.decode_interpolative_next (dbg : Bool) (r : BitReader) :
    Except Fault (Nat × BitReader) := do
  Assert dbg r.di_current.is_initialized
  next_loop (r.di_current.k - r.di_current.j + 1) dbg r

/-- The values returned by `n` calls of `decode_interpolative_next()` in a row. -/
def next_n (dbg : Bool) : Nat → BitReader → Except Fault (List Nat × BitReader)
  | 0, r => .ok ([], r)
  | n + 1, r => do
    let (v, r) ← r.decode_interpolative_next dbg
    let (vs, r) ← next_n dbg n r
    pure (v :: vs, r)

/-! ## Bit streams and reference definitions -/

/-- The number whose binary digits, least significant first, are the bits of the bytes
of a buffer in order, bit 0 of each byte first. -/
def bytes_value : List Nat → Nat
  | [] => 0
  | b :: bs => b % 256 + 256 * bytes_value bs

/-- The invariant of a writer between calls: fewer than 8 pending bits, and no bit of
the accumulator above them. -/
def BitWriter.wf (w : BitWriter) : Prop := w.n_bits < 8 ∧ w.acc < 2 ^ w.n_bits

/-- The number of bits a writer has emitted. -/
def BitWriter.bit_len (w : BitWriter) : Nat := 8 * w.buf.length + w.n_bits

/-- The bits a writer has emitted, as a number (least significant bit first): the
bytes of the buffer followed by the pending bits. -/
def BitWriter.stream (w : BitWriter) : Nat := bytes_value w.buf + 2 ^ (8 * w.buf.length) * w.acc

/-- The invariant of a reader between calls: fewer than 8 bits in the accumulator, no
bit of the accumulator above them, and `idx` within the buffer. -/
def BitReader.valid (r : BitReader) : Prop :=
  r.n_bits < 8 ∧ r.acc < 2 ^ r.n_bits ∧ r.idx ≤ r.buf.length

/-- The number of unread bits of a reader: the bits in the accumulator plus 8 for every
unread byte. -/
def BitReader.unread (r : BitReader) : Nat := r.n_bits + 8 * (r.buf.length - r.idx)

/-- The unread bits of a reader, as a number (least significant bit first): the bits in
the accumulator followed by the unread bytes. -/
def BitReader.stream (r : BitReader) : Nat :=
  r.acc + 2 ^ r.n_bits * bytes_value (r.buf.drop r.idx)

/-- A reader that has consumed exactly the first `p` bits of its buffer. -/
def BitReader.at_pos (r : BitReader) (p : Nat) : Prop :=
  r.valid ∧ r.unread + p = 8 * r.buf.length ∧ r.stream = bytes_value r.buf / 2 ^ p

/-- No cursor of the incremental decoder is active. -/
def BitReader.no_cursor (r : BitReader) : Prop := r.di_current.is_initialized = false

/-- The same reader with another cursor. -/
def BitReader.with_cursor (r : BitReader) (stack : List Frame) (cur : Frame) : BitReader :=
  { r with di_stack := stack, di_current := cur }

/-- The width `bits` of section 4.1 of the spec: the bit length of `outof - 1`. -/
def spec_bits (outof : Nat) : Nat := Nat.size (outof - 1)

/-- The number `spare = 2^bits - outof` of section 4.1 of the spec. -/
def spec_spare (outof : Nat) : Nat := 2 ^ spec_bits outof - outof

/-- The number `mid_start = (outof - spare) / 2` of section 4.1 of the spec. -/
def spec_mid_start (outof : Nat) : Nat := (outof - spec_spare outof) / 2

/-- The code of section 4.1 of the spec, as the pair of the code word and its width:
the low band has the full width, the middle band one bit less, the high band the full
width with the marker bit `bits - 1` set. -/
def spec_code (value outof : Nat) : Nat × Nat :=
  if spec_spare outof = 0 then (value, spec_bits outof)
  else if value < spec_mid_start outof then (value, spec_bits outof)
  else if value < spec_mid_start outof + spec_spare outof then (value, spec_bits outof - 1)
  else ((value - spec_mid_start outof - spec_spare outof) ||| 2 ^ (spec_bits outof - 1),
        spec_bits outof)

/-- The value that `decode(outof)` computes from the unread bits `x` of the stream. -/
def spec_decode_value (outof x : Nat) : Nat :=
  if spec_spare outof = 0 then x % 2 ^ spec_bits outof
  else if x % 2 ^ (spec_bits outof - 1) < spec_mid_start outof then
    if x / 2 ^ (spec_bits outof - 1) % 2 = 1 then
      x % 2 ^ (spec_bits outof - 1) + spec_mid_start outof + spec_spare outof
    else x % 2 ^ (spec_bits outof - 1)
  else x % 2 ^ (spec_bits outof - 1)

/-- The number of bits that `decode(outof)` consumes from the unread bits `x`. -/
def spec_decode_width (outof x : Nat) : Nat :=
  if spec_spare outof = 0 then spec_bits outof
  else if x % 2 ^ (spec_bits outof - 1) < spec_mid_start outof then spec_bits outof
  else spec_bits outof - 1

/-- The bits of a byte, bit 0 first. -/
def byte_bits (b : Nat) : List Bool := (List.range 8).map fun i => b.testBit i

/-- The bits of a buffer: the bytes in order, bit 0 of each byte first. -/
def bits_of_bytes : List Nat → List Bool
  | [] => []
  | b :: bs => byte_bits b ++ bits_of_bytes bs

/-- The integer formed by a list of bits, least significant bit first. -/
def bits_value : List Bool → Nat
  | [] => 0
  | b :: bs => (if b then 1 else 0) + 2 * bits_value bs

/-- The unread bits of a reader: the `n_bits` low bits of the accumulator, then the
bits of the unread bytes. -/
def BitReader.unread_bits (r : BitReader) : List Bool :=
  ((List.range r.n_bits).map fun i => r.acc.testBit i) ++ bits_of_bytes (r.buf.drop r.idx)

/-- The reference read of `count` bits: the integer formed by the next `count` unread
bits, least significant bit first. -/
def ref_read_bits (count : Nat) (r : BitReader) : Nat :=
  bits_value (r.unread_bits.take count)

/-- The reader `r2` is the reader `r1` after `c` more bits have been consumed: the same
buffer and cursor, the unread bits without their first `c` bits. -/
def BitReader.advanced (r1 r2 : BitReader) (c : Nat) : Prop :=
  r2.valid ∧ r2.buf = r1.buf ∧ r2.di_stack = r1.di_stack ∧ r2.di_current = r1.di_current ∧
  r2.stream = r1.stream / 2 ^ c ∧ r2.unread + c = r1.unread

/-- The bits emitted by the writer `w` are the first bits of the buffer `buf`. -/
def BitWriter.written_in (w : BitWriter) (buf : List Nat) : Prop :=
  w.bit_len ≤ 8 * buf.length ∧ bytes_value buf % 2 ^ w.bit_len = w.stream

/-- The writer `w2` is the writer `w1` after more bits have been emitted. -/
def BitWriter.grows_to (w1 w2 : BitWriter) : Prop :=
  w2.wf ∧ w1.bit_len ≤ w2.bit_len ∧ w2.stream % 2 ^ w1.bit_len = w1.stream

/-- The number of bits that `encode(value, outof)` emits on the writer `w`, if the call
returns. -/
def BitWriter.emitted (dbg : Bool) (value outof : Nat) (w : BitWriter) : Option Nat :=
  match w.encode dbg value outof with
  | .ok w' => some (w'.bit_len - w.bit_len)
  | .error _ => none

/-- The values of the interior entries that the recursive decoder of section 4.3
computes for the indices between `j` and `k`, in the order of the indices (the in-order
traversal of the split tree), read in the order of the recursion: the entry midway
first, then the left half, then the right half.  `fuel` bounds the depth, `k - j` is
always enough. -/
def interp_values :
    Nat → Bool → Nat → Nat → Nat → Nat → BitReader → Except Fault (List Nat × BitReader)
  | 0, _, _, _, _, _, r => .ok ([], r)
  | fuel + 1, dbg, j, k, pos_j, pos_k, r =>
    if j + 1 < k then do
      let mid := (j + k) / 2
      let (p, r) ← r.decode dbg (interp_outof pos_j pos_k j k) false
      let pos_mid := u32 (add64 p (sub64 (add64 pos_j mid) j))
      let (left, r) ← interp_values fuel dbg j mid pos_j pos_mid r
      let (right, r) ← interp_values fuel dbg mid k pos_mid pos_k r
      pure (left ++ pos_mid :: right, r)
    else .ok ([], r)

/-! ## Sequences of calls and the reference writer -/

/-- A sequence of calls `encode(value, outof)` on a writer, in order; the sequence stops
at the first call that does not return. -/
def encode_all (dbg : Bool) : List (Nat × Nat) → BitWriter → Except Fault BitWriter
  | [], w => .ok w
  | call :: rest, w => do
    let w ← w.encode dbg call.1 call.2
    encode_all dbg rest w

/-- The bits of a code word of the given width, least significant bit first. -/
def code_bits (value bits : Nat) : List Bool := (List.range bits).map fun i => value.testBit i

/-- The packing of a sequence of codes `(code word, width)`: the bits of the codes, one
code after the other, each least significant bit first. -/
def pack_codes : List (Nat × Nat) → List Bool
  | [] => []
  | code :: rest => code_bits code.1 code.2 ++ pack_codes rest

/-- The bits a writer holds: the bits of the bytes of the buffer, in order, followed by
the `n_bits` pending bits of the accumulator. -/
def BitWriter.bits (w : BitWriter) : List Bool :=
  bits_of_bytes w.buf ++ (List.range w.n_bits).map fun i => w.acc.testBit i

/-- The reference writer of section 9 of the spec: its accumulator is unbounded, so a
code is added to it in one step, without the path that shifts out 8 bits first, and the
complete bytes are flushed afterwards. -/
def ref_put_bits (value bits : Nat) (w : BitWriter) : BitWriter :=
  flush_bytes (w.n_bits + bits)
    { w with acc := w.acc ||| (value <<< w.n_bits), n_bits := w.n_bits + bits }

/-- A call `encode(value, outof)` on the reference writer: the code of lines 130-139,
written by `ref_put_bits`. -/
def ref_encode (value outof : Nat) (w : BitWriter) : Except Fault BitWriter := do
  let (value, bits) ← encode_code (u64 value) (u64 outof)
  pure (ref_put_bits value bits w)

/-- A sequence of calls on the reference writer. -/
def ref_encode_all : List (Nat × Nat) → BitWriter → Except Fault BitWriter
  | [], w => .ok w
  | call :: rest, w => do
    let w ← ref_encode call.1 call.2 w
    ref_encode_all rest w

/-! ## The calls of the interpolative encoder -/

/-- The loop of `BitWriter::encode_interpolative` with the callee `encode` taken as the
argument `enc`: with `BitWriter.encode` it is `encode_interpolative_loop`, with
`log_call` it records the calls the loop makes. -/
def encode_interpolative_gen {σ : Type} (enc : Nat → Nat → σ → Except Fault σ) :
    Nat → List Nat → Nat → Nat → σ → Except Fault σ
  | 0, _, _, _, s => .ok s
  | fuel + 1, pos, j, k, s =>
    if j + 1 < k then do
      let mid := (j + k) / 2
      let pos_k ← vec_at pos k
      let pos_j ← vec_at pos j
      let outof := interp_outof pos_j pos_k j k
      let lowest := sub64 (add64 pos_j mid) j
      let pos_mid ← vec_at pos mid
      let s ← enc (sub64 pos_mid lowest) outof s
      let s ← encode_interpolative_gen enc fuel pos j mid s
      encode_interpolative_gen enc fuel pos mid k s
    else .ok s

/-- A callee that records the arguments `(value, outof)` of a call at the end of a log. -/
def log_call (value outof : Nat) (log : List (Nat × Nat)) : Except Fault (List (Nat × Nat)) :=
  .ok (log ++ [(value, outof)])

/-- The calls `encode(value, outof)` that `encode_interpolative(pos, j, k)` makes, in the
order in which it makes them. -/
def encode_interpolative_calls (pos : List Nat) (j k : Nat) : Except Fault (List (Nat × Nat)) :=
  encode_interpolative_gen log_call (k - j) pos j k []

/-- The arguments of the call `encode(pos[mid] - (pos[j] + mid - j), pos[k] - pos[j] + j -
k + 1)` for the entry `mid` of the range from `j` to `k`, in the arithmetic of the code. -/
def interp_call (pos : List Nat) (split : Nat × Nat × Nat) : Nat × Nat :=
  (sub64 (pos.getD split.2.1 0) (sub64 (add64 (pos.getD split.1 0) split.2.1) split.1),
   interp_outof (pos.getD split.1 0) (pos.getD split.2.2 0) split.1 split.2.2)

/-- The reference recursion of section 4.3 of the spec, as the list of the splits
`(j, mid, k)` in the order of the calls: if `k - j > 1`, the entry `mid = (j + k) / 2`,
then the splits of `(j, mid)`, then the splits of `(mid, k)`.  `fuel` bounds the depth,
`k - j` is always enough. -/
def ref_splits : Nat → Nat → Nat → List (Nat × Nat × Nat)
  | 0, _, _ => []
  | fuel + 1, j, k =>
    if k - j > 1 then
      (j, (j + k) / 2, k) :: (ref_splits fuel j ((j + k) / 2) ++ ref_splits fuel ((j + k) / 2) k)
    else []

/-! ## The passes of the incremental decoder -/

/-- One pass of the body of the loop of `BitReader::decode_interpolative_next` (lines
251-267): the descent into the left half, which returns nothing, or the emit branch,
which returns a value.  The loop `next_loop` is the iteration of this pass. -/
def next_pass (dbg : Bool) (r : BitReader) : Except Fault (Option Nat × BitReader) :=
  if r.di_current.is_next then do
    let cur := r.di_current
    let r := { r with di_stack := r.di_stack ++ [cur] }
    let mid := (cur.j + cur.k) / 2
    let (p, r) ← r.decode dbg (interp_outof cur.pos_j cur.pos_k cur.j cur.k) true
    let pos_mid := add32 p (sub32 (add32 cur.pos_j mid) cur.j)
    pure (none, { r with di_current := Frame.set cur.j mid cur.pos_j pos_mid })
  else do
    let pos_ret := r.di_current.pos_k
    Assert dbg (r.di_stack.isEmpty && !r.di_current.is_next)
    match r.di_stack.getLast? with
    | none => .error .undefined
    | some top =>
      let di_stack := r.di_stack.dropLast
      let mid := (top.j + top.k) / 2
      let cur := Frame.set mid top.k pos_ret top.pos_k
      let cur := if di_stack.isEmpty && !cur.is_next then Frame.set 0 0 0 0 else cur
      pure (some pos_ret, { r with di_stack := di_stack, di_current := cur })

/-- The state of the reader after `n` passes of the loop of `decode_interpolative_next`,
over any number of calls.  A pass takes place while the condition of the loop holds;
when it does not hold, a call leaves the state as it is. -/
def run_passes (dbg : Bool) : Nat → BitReader → Except Fault BitReader
  | 0, r => .ok r
  | n + 1, r =>
    if !r.di_stack.isEmpty || r.di_current.is_next then do
      let (_, r) ← next_pass dbg r
      run_passes dbg n r
    else .ok r

/-- The invariant of a frame in section 3 of the spec: `low_index < high_index`,
`low_value ≤ high_value`, and the values leave room for the entries in between. -/
def Frame.ordered (f : Frame) : Prop :=
  f.j < f.k ∧ f.pos_j ≤ f.pos_k ∧ f.k - f.j ≤ f.pos_k - f.pos_j

/-- The cursor is exhausted: the frame stack is empty and the current frame is the
marker `set(0, 0, 0, 0)`. -/
def BitReader.exhausted (r : BitReader) : Prop :=
  r.di_stack = [] ∧ r.di_current = Frame.set 0 0 0 0

/-- The frame `c` lies in the left half of the frame `p`: its high value leaves room for
the entries of the right half of `p`. -/
def Frame.inside (c p : Frame) : Prop := c.pos_k + (p.k - (p.j + p.k) / 2) ≤ p.pos_k

/-- The frames of a cursor, the current frame first, then the stack from its top. -/
def BitReader.frames (r : BitReader) : List Frame := r.di_current :: r.di_stack.reverse

/-- The invariant of the frames of a cursor: every frame is ordered, holds values of
type `Xapian::termpos` and an index of type `int`, and lies in the left half of the
frame below it. -/
def BitReader.frames_ok (r : BitReader) : Prop :=
  (∀ f ∈ r.frames, f.ordered ∧ f.pos_k < 4294967296 ∧ f.k < 4294967296) ∧
  List.Chain' Frame.inside r.frames

/-- The bound on the depth of the frames of a cursor: a frame with `n` frames below it
spans at most `2^(L - n + 1) - 1` indices. -/
def depth_ok (L : Nat) : List Frame → Prop
  | [] => True
  | f :: rest => rest.length + Nat.log 2 (f.k - f.j) ≤ L ∧ depth_ok L rest

/-- The number of values that a cursor has still to return: the interior entries of the
current frame and, for every frame on the stack, the entries from its middle to its
high index. -/
def BitReader.remaining (r : BitReader) : Nat :=
  (r.di_current.k - r.di_current.j - 1) + (r.di_stack.map fun f => f.k - (f.j + f.k) / 2).sum

/-! ## `highest_order_bit` -/

/-- The table `msb_lut`. -/
def msb_lut : List Nat := [
    0, 0, 1, 1, 2, 2, 2, 2,
    3, 3, 3, 3, 3, 3, 3, 3,
    4, 4, 4, 4, 4, 4, 4, 4,
    4, 4, 4, 4, 4, 4, 4, 4,
    5, 5, 5, 5, 5, 5, 5, 5,
    5, 5, 5, 5, 5, 5, 5, 5,
    5, 5, 5, 5, 5, 5, 5, 5,
    5, 5, 5, 5, 5, 5, 5, 5,
    6, 6, 6, 6, 6, 6, 6, 6,
    6, 6, 6, 6, 6, 6, 6, 6,
    6, 6, 6, 6, 6, 6, 6, 6,
    6, 6, 6, 6, 6, 6, 6, 6,
    6, 6, 6, 6, 6, 6, 6, 6,
    6, 6, 6, 6, 6, 6, 6, 6,
    6, 6, 6, 6, 6, 6, 6, 6,
    6, 6, 6, 6, 6, 6, 6, 6,
    7, 7, 7, 7, 7, 7, 7, 7,
    7, 7, 7, 7, 7, 7, 7, 7,
    7, 7, 7, 7, 7, 7, 7, 7,
    7, 7, 7, 7, 7, 7, 7, 7,
    7, 7, 7, 7, 7, 7, 7, 7,
    7, 7, 7, 7, 7, 7, 7, 7,
    7, 7, 7, 7, 7, 7, 7, 7,
    7, 7, 7, 7, 7, 7, 7, 7,
    7, 7, 7, 7, 7, 7, 7, 7,
    7, 7, 7, 7, 7, 7, 7, 7,
    7, 7, 7, 7, 7, 7, 7, 7,
    7, 7, 7, 7, 7, 7, 7, 7,
    7, 7, 7, 7, 7, 7, 7, 7,
    7, 7, 7, 7, 7, 7, 7, 7,
    7, 7, 7, 7, 7, 7, 7, 7,
    7, 7, 7, 7, 7, 7, 7, 7]

/-- The loop of `highest_order_bit(int x)`, for `byte_cnt` from `n - 1` down to 0.  The
argument is the 32-bit pattern of `x`; `(x >> (byte_cnt * 8)) & 0xff` is the byte
`byte_cnt` of the pattern, also for a negative `x`, whose shift is arithmetic. -/
def highest_order_bit_loop (x : Nat) : Nat → Nat
  | 0 => 0
  | byte_cnt + 1 =>
    let byte := (x >>> (byte_cnt * 8)) &&& 0xff
    if byte ≠ 0 then msb_lut.getD byte 0 + byte_cnt * 8
    else highest_order_bit_loop x byte_cnt

/-- The function `highest_order_bit(int x)`; `sizeof(int)` is 4. -/
def highest_order_bit (x : Nat) : Nat := highest_order_bit_loop x 4

/-- The argument of `di_stack.reserve` in line 242: the capacity that
`decode_interpolative(j, k, pos_j, pos_k)` reserves for the frame stack. -/
def di_reserve (pos_j pos_k : Nat) : Nat := highest_order_bit (sub32 pos_k pos_j) + 1

/-! # Theorems

## The width function -/

set_option maxRecDepth 100000 in
theorem flstab_spec : ∀ m, m < 256 →
    m < 2 ^ flstab.getD m 0 ∧ (m ≠ 0 → 2 ^ (flstab.getD m 0 - 1) ≤ m) ∧ flstab.getD m 0 ≤ 8 := by
  decide

/-- Scaling a bracket `2^(t-1) ≤ m / 2^s < 2^t` by `2^s`. -/
theorem bracket_scale (m s t : Nat) (h1 : m / 2 ^ s < 2 ^ t) (h2 : 2 ^ (t - 1) ≤ m / 2 ^ s)
    (ht : 0 < t) : m < 2 ^ (s + t) ∧ 2 ^ (s + t - 1) ≤ m := by
  have hs : 0 < 2 ^ s := Nat.pow_pos (by norm_num)
  constructor
  · rw [Nat.pow_add, Nat.mul_comm]
    exact (Nat.div_lt_iff_lt_mul hs).mp h1
  · have : s + t - 1 = (t - 1) + s := by omega
    rw [this, Nat.pow_add]
    exact (Nat.le_div_iff_mul_le hs).mp h2

theorem my_fls_spec (m : Nat) (hm : m < 4294967296) :
    m < 2 ^ my_fls m ∧ (m ≠ 0 → 2 ^ (my_fls m - 1) ≤ m) ∧ my_fls m ≤ 32 := by
  unfold my_fls
  by_cases h1 : m ≥ 0x10000
  · by_cases h2 : m >>> 16 ≥ 0x100
    · simp only [h1, h2, if_true]
      have hlt : m >>> 16 >>> 8 < 256 := by
        simp only [Nat.shiftRight_eq_div_pow]; omega
      have hne : m >>> 16 >>> 8 ≠ 0 := by
        simp only [Nat.shiftRight_eq_div_pow] at h2 ⊢; omega
      obtain ⟨a, b, c⟩ := flstab_spec _ hlt
      have b := b hne
      have hpos : 0 < flstab.getD (m >>> 16 >>> 8) 0 := by
        rcases Nat.eq_zero_or_pos (flstab.getD (m >>> 16 >>> 8) 0) with h | h
        · rw [h] at a; simp at a; omega
        · exact h
      have e : m >>> 16 >>> 8 = m / 2 ^ 24 := by
        simp only [Nat.shiftRight_eq_div_pow]; rw [Nat.div_div_eq_div_mul]; norm_num
      rw [e] at a b c hpos ⊢
      have := bracket_scale m 24 _ a b hpos
      refine ⟨?_, ?_, ?_⟩
      · have e2 : 16 + 8 + flstab.getD (m / 2 ^ 24) 0 = 24 + flstab.getD (m / 2 ^ 24) 0 := by omega
        rw [e2]; exact this.1
      · intro _
        have e2 : 16 + 8 + flstab.getD (m / 2 ^ 24) 0 = 24 + flstab.getD (m / 2 ^ 24) 0 := by omega
        rw [e2]; exact this.2
      · omega
    · simp only [h1, h2, if_true, if_false]
      have hlt : m >>> 16 < 256 := by omega
      have hne : m >>> 16 ≠ 0 := by
        simp only [Nat.shiftRight_eq_div_pow]; omega
      obtain ⟨a, b, c⟩ := flstab_spec _ hlt
      have b := b hne
      have hpos : 0 < flstab.getD (m >>> 16) 0 := by
        rcases Nat.eq_zero_or_pos (flstab.getD (m >>> 16) 0) with h | h
        · rw [h] at a; simp at a; omega
        · exact h
      have e : m >>> 16 = m / 2 ^ 16 := by
        simp only [Nat.shiftRight_eq_div_pow]
      rw [e] at a b c hpos ⊢
      have := bracket_scale m 16 _ a b hpos
      exact ⟨this.1, fun _ => this.2, by omega⟩
  · by_cases h2 : m ≥ 0x100
    · simp only [h1, h2, if_true, if_false]
      have hlt : m >>> 8 < 256 := by
        simp only [Nat.shiftRight_eq_div_pow]; omega
      have hne : m >>> 8 ≠ 0 := by
        simp only [Nat.shiftRight_eq_div_pow]; omega
      obtain ⟨a, b, c⟩ := flstab_spec _ hlt
      have b := b hne
      have hpos : 0 < flstab.getD (m >>> 8) 0 := by
        rcases Nat.eq_zero_or_pos (flstab.getD (m >>> 8) 0) with h | h
        · rw [h] at a; simp at a; omega
        · exact h
      have e : m >>> 8 = m / 2 ^ 8 := by
        simp only [Nat.shiftRight_eq_div_pow]
      rw [e] at a b c hpos ⊢
      have := bracket_scale m 8 _ a b hpos
      refine ⟨?_, ?_, ?_⟩
      · have e2 : 0 + 8 + flstab.getD (m / 2 ^ 8) 0 = 8 + flstab.getD (m / 2 ^ 8) 0 := by omega
        rw [e2]; exact this.1
      · intro _
        have e2 : 0 + 8 + flstab.getD (m / 2 ^ 8) 0 = 8 + flstab.getD (m / 2 ^ 8) 0 := by omega
        rw [e2]; exact this.2
      · omega
    · simp only [h1, h2, if_false]
      have hlt : m < 256 := by omega
      obtain ⟨a, b, c⟩ := flstab_spec _ hlt
      refine ⟨?_, ?_, ?_⟩
      · simpa using a
      · simpa using b
      · omega
theorem my_fls_eq_size (m : Nat) (hm : m < 4294967296) : my_fls m = Nat.size m := by
  obtain ⟨a, b, _⟩ := my_fls_spec m hm
  apply Nat.le_antisymm
  · by_cases h0 : m = 0
    · subst h0
      have : my_fls 0 = 0 := by decide
      omega
    · have := Nat.lt_size.mpr (b h0)
      omega
  · exact Nat.size_le.mpr a

/-- The bracket of `outof` between two powers of two given by `spec_bits`. -/
theorem spec_bits_bracket (outof : Nat) (h1 : 1 ≤ outof) :
    outof ≤ 2 ^ spec_bits outof ∧
    (2 ≤ outof → 1 ≤ spec_bits outof ∧ 2 ^ (spec_bits outof - 1) < outof ∧
      2 ^ spec_bits outof = 2 * 2 ^ (spec_bits outof - 1)) := by
  unfold spec_bits
  constructor
  · have := Nat.lt_size_self (outof - 1)
    omega
  · intro h2
    have hpos : 0 < Nat.size (outof - 1) := Nat.size_pos.mpr (by omega)
    have h3 : Nat.size (outof - 1) - 1 < Nat.size (outof - 1) := by omega
    have := Nat.lt_size.mp h3
    refine ⟨hpos, by omega, ?_⟩
    conv_lhs => rw [show Nat.size (outof - 1) = (Nat.size (outof - 1) - 1) + 1 by omega]
    rw [Nat.pow_succ]; omega

theorem spec_bits_le (outof n : Nat) (h1 : 1 ≤ outof) (h : outof ≤ 2 ^ n) :
    spec_bits outof ≤ n := by
  unfold spec_bits
  exact Nat.size_le.mpr (by omega)

theorem spec_bits_one : spec_bits 1 = 0 := by
  unfold spec_bits; simp

/-! ## The code of `BitWriter::encode` -/


theorem ok_bind {ε α β : Type} (a : α) (f : α → Except ε β) :
    (Except.ok a >>= f) = f a := rfl

theorem error_bind {ε α β : Type} (e : ε) (f : α → Except ε β) :
    ((Except.error e : Except ε α) >>= f) = Except.error e := rfl

theorem pow_le_pow_30 (b : Nat) (h : b ≤ 30) : 2 ^ b ≤ 1073741824 := by
  have : 2 ^ b ≤ 2 ^ 30 := Nat.pow_le_pow_right (by norm_num) h
  norm_num at this; exact this

/-- The marker bit is added to a number below it. -/
theorem or_two_pow (x i : Nat) (h : x < 2 ^ i) : x ||| 2 ^ i = x + 2 ^ i := by
  have := Nat.mul_add_lt_is_or h 1
  rw [Nat.mul_one] at this
  rw [Nat.or_comm, ← this, Nat.add_comm]

/-- Lines 130-139 of `BitWriter::encode` compute the code of section 4.1 of the spec. -/
theorem encode_code_eq (value outof : Nat) (h1 : 1 ≤ outof) (h2 : outof ≤ 1073741824)
    (hv : value < outof) : encode_code value outof = .ok (spec_code value outof) := by
  have hb30 : spec_bits outof ≤ 30 := spec_bits_le outof 30 h1 (by norm_num; exact h2)
  have hfls : my_fls (u32 (sub64 outof 1)) = spec_bits outof := by
    have e : u32 (sub64 outof 1) = outof - 1 := by unfold u32 sub64 u64; omega
    rw [e, my_fls_eq_size _ (by omega)]; rfl
  obtain ⟨hle, hge⟩ := spec_bits_bracket outof h1
  have hP := pow_le_pow_30 _ hb30
  unfold encode_code spec_code
  rw [hfls]
  unfold spec_mid_start spec_spare
  dsimp only
  have hshl : shl1_int (spec_bits outof) = .ok (2 ^ spec_bits outof) := by
    unfold shl1_int; rw [if_pos (by omega)]
  rw [hshl]
  rw [ok_bind]
  have hconv : int_to_size_t (2 ^ spec_bits outof) = 2 ^ spec_bits outof := by
    unfold int_to_size_t; rw [if_pos (by omega)]
  rw [hconv]
  have hspare : sub64 (2 ^ spec_bits outof) outof = 2 ^ spec_bits outof - outof := by
    unfold sub64 u64; omega
  rw [hspare]
  by_cases hs : 2 ^ spec_bits outof - outof = 0
  · simp [hs]
  · have h2' : 2 ≤ outof := by
      by_contra hc
      have : outof = 1 := by omega
      subst this
      rw [spec_bits_one] at hs; simp at hs
    obtain ⟨hb1, hQ, hPQ⟩ := hge h2'
    have hb29 : spec_bits outof - 1 ≤ 30 := by omega
    have hQ30 := pow_le_pow_30 _ hb29
    rw [if_neg hs, if_pos hs]
    generalize hPdef : 2 ^ spec_bits outof = P at *
    generalize hQdef : 2 ^ (spec_bits outof - 1) = Q at *
    have hms : sub64 outof (P - outof) / 2 = (outof - (P - outof)) / 2 := by
      unfold sub64 u64; omega
    rw [hms]
    have hadd : add64 ((outof - (P - outof)) / 2) (P - outof) =
        (outof - (P - outof)) / 2 + (P - outof) := by
      unfold add64; omega
    rw [hadd]
    by_cases c1 : value < (outof - (P - outof)) / 2
    · rw [if_neg (by omega), if_neg (by omega), if_pos c1]
    · rw [if_neg c1]
      by_cases c2 : value < (outof - (P - outof)) / 2 + (P - outof)
      · rw [if_neg (by omega), if_pos (by omega), if_pos c2]
        have : sub64 (spec_bits outof) 1 = spec_bits outof - 1 := by
          unfold sub64 u64; omega
        rw [this]
      · rw [if_pos (by omega), if_neg c2]
        have e1 : sub64 (spec_bits outof) 1 = spec_bits outof - 1 := by
          unfold sub64 u64; omega
        rw [e1]
        have hshl2 : shl1_int (spec_bits outof - 1) = .ok (2 ^ (spec_bits outof - 1)) := by
          unfold shl1_int; rw [if_pos (by omega)]
        rw [hshl2, hQdef, ok_bind]
        have e2 : int_to_size_t Q = Q := by
          unfold int_to_size_t; rw [if_pos (by omega)]
        have e3 : sub64 value ((outof - (P - outof)) / 2 + (P - outof)) =
            value - (outof - (P - outof)) / 2 - (P - outof) := by
          unfold sub64 u64; omega
        rw [e2, e3]

/-! ## The accumulator of the writer -/


theorem bytes_value_append (l : List Nat) (b : Nat) :
    bytes_value (l ++ [b]) = bytes_value l + 2 ^ (8 * l.length) * (b % 256) := by
  induction l with
  | nil => simp [bytes_value]
  | cons a l ih =>
    show a % 256 + 256 * bytes_value (l ++ [b]) =
      a % 256 + 256 * bytes_value l + 2 ^ (8 * (l.length + 1)) * (b % 256)
    have : 2 ^ (8 * (l.length + 1)) = 256 * 2 ^ (8 * l.length) := by
      rw [Nat.mul_add, Nat.pow_add]; norm_num; ring
    rw [this, ih]; ring

theorem bytes_value_lt (l : List Nat) : bytes_value l < 2 ^ (8 * l.length) := by
  induction l with
  | nil => simp [bytes_value]
  | cons a l ih =>
    show a % 256 + 256 * bytes_value l < 2 ^ (8 * (l.length + 1))
    have : 2 ^ (8 * (l.length + 1)) = 256 * 2 ^ (8 * l.length) := by
      rw [Nat.mul_add, Nat.pow_add]; norm_num; ring
    rw [this]
    have := Nat.mod_lt a (show 256 > 0 by norm_num)
    omega

/-- Bits above a number are added to it by `|||`. -/
theorem or_shiftLeft (acc v n : Nat) (h : acc < 2 ^ n) : acc ||| v <<< n = acc + 2 ^ n * v := by
  rw [Nat.shiftLeft_eq, Nat.or_comm, Nat.mul_comm, ← Nat.mul_add_lt_is_or h, Nat.add_comm]

theorem add_shift_lt (acc v n b : Nat) (h : acc < 2 ^ n) (hv : v < 2 ^ b) :
    acc + 2 ^ n * v < 2 ^ (n + b) := by
  rw [Nat.pow_add]
  have : 2 ^ n * (v + 1) ≤ 2 ^ n * 2 ^ b := Nat.mul_le_mul_left _ hv
  rw [Nat.mul_add] at this
  omega

theorem flush_bytes_spec (fuel : Nat) : ∀ (w : BitWriter), w.n_bits ≤ fuel →
    w.acc < 2 ^ w.n_bits →
    (flush_bytes fuel w).wf ∧ (flush_bytes fuel w).stream = w.stream ∧
    (flush_bytes fuel w).bit_len = w.bit_len := by
  induction fuel with
  | zero =>
    intro w hf hacc
    have h0 : w.n_bits = 0 := by omega
    refine ⟨⟨?_, ?_⟩, rfl, rfl⟩
    · show w.n_bits < 8
      omega
    · exact hacc
  | succ fuel ih =>
    intro w hf hacc
    unfold flush_bytes
    by_cases h8 : w.n_bits ≥ 8
    · rw [if_pos h8]
      have hacc2 : w.acc >>> 8 < 2 ^ (w.n_bits - 8) := by
        rw [Nat.shiftRight_eq_div_pow]
        apply Nat.div_lt_of_lt_mul
        rw [← Nat.pow_add]
        have : 8 + (w.n_bits - 8) = w.n_bits := by omega
        rw [this]; exact hacc
      obtain ⟨a, b, c⟩ := ih { buf := w.buf ++ [w.acc % 256], n_bits := w.n_bits - 8,
                               acc := w.acc >>> 8 } (by simp only []; omega) hacc2
      refine ⟨a, ?_, ?_⟩
      · rw [b]
        unfold BitWriter.stream
        simp only [bytes_value_append, List.length_append, List.length_singleton]
        rw [Nat.shiftRight_eq_div_pow]
        have e : 2 ^ (8 * (w.buf.length + 1)) = 2 ^ (8 * w.buf.length) * 256 := by
          rw [Nat.mul_add, Nat.pow_add]
        rw [e, Nat.mod_mod, Nat.add_assoc, Nat.mul_assoc, ← Nat.mul_add]
        congr 2
        have := Nat.div_add_mod w.acc 256
        norm_num
        omega
      · rw [c]
        unfold BitWriter.bit_len
        simp only [List.length_append, List.length_singleton]
        omega
    · rw [if_neg h8]
      exact ⟨⟨by omega, hacc⟩, rfl, rfl⟩

/-- The split write: after the low byte has left the accumulator, adding the code
shifted down by 8 bits gives the bits above the low byte. -/
theorem split_write_acc (acc v n : Nat) (hn : n < 8) (hacc : acc < 2 ^ n) :
    ((acc ||| v <<< n) % 2 ^ 32) >>> 8 ||| (v >>> 8) <<< n = (acc ||| v <<< n) >>> 8 := by
  apply Nat.eq_of_testBit_eq
  intro i
  simp only [Nat.testBit_or, Nat.testBit_shiftRight, Nat.testBit_shiftLeft,
    Nat.testBit_mod_two_pow]
  have hacc0 : acc.testBit (8 + i) = false := by
    apply Nat.testBit_lt_two_pow
    calc acc < 2 ^ n := hacc
      _ ≤ 2 ^ (8 + i) := Nat.pow_le_pow_right (by norm_num) (by omega)
  rw [hacc0]
  have hge : decide (8 + i ≥ n) = true := by simp; omega
  rw [hge]
  simp only [Bool.false_or, Bool.true_and]
  by_cases hi : i ≥ n
  · have e : 8 + (i - n) = 8 + i - n := by omega
    simp [hi, e]
  · have : 8 + i < 32 := by omega
    simp [hi, this]

theorem put_bits_spec (dbg : Bool) (v bits : Nat) (w : BitWriter) (hw : w.wf)
    (hb : bits ≤ 32) (hv : v < 2 ^ bits) :
    ∃ w', put_bits dbg v bits w = .ok w' ∧ w'.wf ∧
      w'.stream = w.stream + 2 ^ w.bit_len * v ∧ w'.bit_len = w.bit_len + bits := by
  obtain ⟨hn, hacc⟩ := hw
  have hv32 : v < 2 ^ 32 := lt_of_lt_of_le hv (Nat.pow_le_pow_right (by norm_num) hb)
  have hT := add_shift_lt w.acc v w.n_bits bits hacc hv
  have hor := or_shiftLeft w.acc v w.n_bits hacc
  have hT40 : w.acc + 2 ^ w.n_bits * v < 2 ^ 40 :=
    lt_of_lt_of_le hT (Nat.pow_le_pow_right (by norm_num) (by omega))
  have hu64 : u64 (v <<< w.n_bits) = v <<< w.n_bits := by
    unfold u64
    apply Nat.mod_eq_of_lt
    rw [Nat.shiftLeft_eq]
    have : v * 2 ^ w.n_bits ≤ w.acc + 2 ^ w.n_bits * v := by rw [Nat.mul_comm]; omega
    norm_num at hT40 ⊢; omega
  unfold put_bits
  by_cases hc : add64 bits w.n_bits > 32
  · rw [if_pos hc]
    have hA : Assert dbg (decide (bits ≤ 32)) = .ok () := by
      unfold Assert; simp [hb]
    simp only [bind_assoc, hA, ok_bind, pure_bind, hu64, hor]
    generalize hTdef : w.acc + 2 ^ w.n_bits * v = T at *
    have hc' : bits + w.n_bits > 32 := by unfold add64 at hc; omega
    have hsub : sub64 bits 8 = bits - 8 := by unfold sub64 u64; omega
    have hu64b : u64 ((v >>> 8) <<< w.n_bits) = (v >>> 8) <<< w.n_bits := by
      unfold u64
      apply Nat.mod_eq_of_lt
      rw [Nat.shiftLeft_eq, Nat.shiftRight_eq_div_pow]
      have h1 : v / 2 ^ 8 ≤ v := Nat.div_le_self _ _
      have h2 : 2 ^ w.n_bits ≤ 2 ^ 8 := Nat.pow_le_pow_right (by norm_num) (by omega)
      have h3 : v / 2 ^ 8 * 2 ^ w.n_bits ≤ v * 2 ^ 8 := Nat.mul_le_mul h1 h2
      norm_num at hv32 h3 ⊢; omega
    have hsplit := split_write_acc w.acc v w.n_bits hn hacc
    rw [hor] at hsplit
    have hacc3 : u32 (u32 T >>> 8 ||| u64 ((v >>> 8) <<< w.n_bits)) = T / 256 := by
      rw [hu64b]
      have e32 : u32 T = T % 2 ^ 32 := by unfold u32; norm_num
      rw [e32, hsplit, Nat.shiftRight_eq_div_pow]
      unfold u32
      apply Nat.mod_eq_of_lt
      norm_num at hT40 ⊢; omega
    rw [hsub, hacc3]
    have hbyte : u32 T % 256 = T % 256 := by unfold u32; omega
    rw [hbyte]
    have hacc4 : T / 256 < 2 ^ (w.n_bits + (bits - 8)) := by
      apply Nat.div_lt_of_lt_mul
      have : (256 : Nat) = 2 ^ 8 := by norm_num
      rw [this, ← Nat.pow_add]
      have : 8 + (w.n_bits + (bits - 8)) = w.n_bits + bits := by omega
      rw [this]; exact hT
    obtain ⟨a, b, c⟩ := flush_bytes_spec (w.n_bits + (bits - 8))
      { buf := w.buf ++ [T % 256], n_bits := w.n_bits + (bits - 8), acc := T / 256 }
      (Nat.le_refl _) hacc4
    refine ⟨_, rfl, a, ?_, ?_⟩
    · rw [b]
      unfold BitWriter.stream BitWriter.bit_len
      simp only [bytes_value_append, List.length_append, List.length_singleton]
      have e : 2 ^ (8 * (w.buf.length + 1)) = 2 ^ (8 * w.buf.length) * 256 := by
        rw [Nat.mul_add, Nat.pow_add]
      have e2 : 2 ^ (8 * w.buf.length + w.n_bits) = 2 ^ (8 * w.buf.length) * 2 ^ w.n_bits := by
        rw [Nat.pow_add]
      rw [e, e2, Nat.mod_mod, Nat.add_assoc, Nat.add_assoc, Nat.mul_assoc, Nat.mul_assoc,
        ← Nat.mul_add, ← Nat.mul_add]
      rw [hTdef, Nat.mod_add_div]
    · rw [c]
      unfold BitWriter.bit_len
      simp only [List.length_append, List.length_singleton]
      omega
  · rw [if_neg hc]
    simp only [pure_bind, hu64, hor]
    have hc' : bits + w.n_bits ≤ 32 := by unfold add64 at hc; omega
    have hT32 : w.acc + 2 ^ w.n_bits * v < 2 ^ 32 :=
      lt_of_lt_of_le hT (Nat.pow_le_pow_right (by norm_num) (by omega))
    have hacc1 : u32 (w.acc + 2 ^ w.n_bits * v) = w.acc + 2 ^ w.n_bits * v := by
      unfold u32; apply Nat.mod_eq_of_lt; norm_num at hT32 ⊢; omega
    rw [hacc1]
    obtain ⟨a, b, c⟩ := flush_bytes_spec (w.n_bits + bits)
      { w with n_bits := w.n_bits + bits, acc := w.acc + 2 ^ w.n_bits * v }
      (Nat.le_refl _) hT
    refine ⟨_, rfl, a, ?_, ?_⟩
    · rw [b]
      unfold BitWriter.stream BitWriter.bit_len
      simp only []
      rw [Nat.pow_add]; ring
    · rw [c]
      unfold BitWriter.bit_len
      simp only []
      omega

theorem spec_code_lt (value outof : Nat) (h1 : 1 ≤ outof) (hv : value < outof) :
    (spec_code value outof).1 < 2 ^ (spec_code value outof).2 ∧
    (spec_code value outof).2 ≤ spec_bits outof := by
  obtain ⟨hle, hge⟩ := spec_bits_bracket outof h1
  unfold spec_code spec_mid_start spec_spare
  by_cases hs : 2 ^ spec_bits outof - outof = 0
  · rw [if_pos hs]
    exact ⟨by dsimp only; omega, Nat.le_refl _⟩
  · rw [if_neg hs]
    have h2' : 2 ≤ outof := by
      by_contra hc
      have : outof = 1 := by omega
      subst this
      rw [spec_bits_one] at hs; simp at hs
    obtain ⟨hb1, hQ, hPQ⟩ := hge h2'
    by_cases c1 : value < (outof - (2 ^ spec_bits outof - outof)) / 2
    · rw [if_pos c1]
      exact ⟨by dsimp only; omega, Nat.le_refl _⟩
    · rw [if_neg c1]
      by_cases c2 : value < (outof - (2 ^ spec_bits outof - outof)) / 2 +
          (2 ^ spec_bits outof - outof)
      · rw [if_pos c2]
        exact ⟨by dsimp only; omega, by dsimp only; omega⟩
      · rw [if_neg c2]
        refine ⟨?_, Nat.le_refl _⟩
        dsimp only
        rw [or_two_pow _ _ (by omega)]
        omega

theorem assert_true (dbg : Bool) (c : Bool) (h : c = true) : Assert dbg c = .ok () := by
  unfold Assert; simp [h]

theorem assert_release (c : Bool) : Assert false c = .ok () := rfl

/-- The method `BitWriter::encode` appends the code of section 4.1 of the spec to the stream. -/
theorem encode_spec (dbg : Bool) (value outof : Nat) (w : BitWriter) (hw : w.wf)
    (h1 : 1 ≤ outof) (h2 : outof ≤ 1073741824) (hv : value < outof) :
    ∃ w', w.encode dbg value outof = .ok w' ∧ w'.wf ∧
      w'.stream = w.stream + 2 ^ w.bit_len * (spec_code value outof).1 ∧
      w'.bit_len = w.bit_len + (spec_code value outof).2 := by
  obtain ⟨hlt, hwd⟩ := spec_code_lt value outof h1 hv
  have hb30 : spec_bits outof ≤ 30 := spec_bits_le outof 30 h1 (by norm_num; exact h2)
  have hu1 : u64 value = value := by unfold u64; omega
  have hu2 : u64 outof = outof := by unfold u64; omega
  unfold BitWriter.encode
  dsimp only
  rw [hu1, hu2, assert_true dbg _ (by simp [hv]), ok_bind,
    encode_code_eq value outof h1 h2 hv, ok_bind]
  have hw32 : (spec_code value outof).2 ≤ 32 := by omega
  exact put_bits_spec dbg _ _ w hw hw32 hlt

/-! ## The accumulator of the reader -/


theorem bytes_value_drop (buf : List Nat) (idx : Nat) (h : idx < buf.length) :
    bytes_value (buf.drop idx) = buf[idx] % 256 + 256 * bytes_value (buf.drop (idx + 1)) := by
  rw [List.drop_eq_getElem_cons h]
  rfl

/-- The loop of `read_bits` pulls whole bytes into the accumulator until it holds
`count` bits; the unread bits stay the same. -/
theorem fill_acc_spec (dbg : Bool) (count : Nat) (hc : count ≤ 25) (fuel : Nat) :
    ∀ r : BitReader, r.acc < 2 ^ r.n_bits → r.idx ≤ r.buf.length → r.n_bits < count + 8 →
      count ≤ r.unread → count ≤ r.n_bits + 8 * fuel →
      ∃ r', fill_acc fuel dbg count r = .ok r' ∧ r'.acc < 2 ^ r'.n_bits ∧
        r'.idx ≤ r'.buf.length ∧ count ≤ r'.n_bits ∧ r'.n_bits < count + 8 ∧
        r'.stream = r.stream ∧ r'.unread = r.unread ∧ r'.buf = r.buf ∧
        r'.di_stack = r.di_stack ∧ r'.di_current = r.di_current := by
  induction fuel with
  | zero =>
    intro r hacc hidx hn hun hf
    exact ⟨r, rfl, hacc, hidx, by omega, hn, rfl, rfl, rfl, rfl, rfl⟩
  | succ fuel ih =>
    intro r hacc hidx hn hun hf
    unfold fill_acc
    by_cases hlt : r.n_bits < count
    · rw [if_pos hlt]
      have hi : r.idx < r.buf.length := by
        unfold BitReader.unread at hun; omega
      rw [assert_true dbg _ (by simp [hi]), ok_bind]
      rw [List.getElem?_eq_getElem hi]
      dsimp only
      have hb : r.buf[r.idx] % 256 < 2 ^ 8 := by
        have := Nat.mod_lt r.buf[r.idx] (show 256 > 0 by norm_num)
        norm_num; omega
      have hsum := add_shift_lt r.acc (r.buf[r.idx] % 256) r.n_bits 8 hacc hb
      have h32 : 2 ^ (r.n_bits + 8) ≤ 2 ^ 32 :=
        Nat.pow_le_pow_right (by norm_num) (by omega)
      have hshift : u32 ((r.buf[r.idx] % 256) <<< r.n_bits) = (r.buf[r.idx] % 256) <<< r.n_bits := by
        unfold u32
        apply Nat.mod_eq_of_lt
        rw [Nat.shiftLeft_eq, Nat.mul_comm]
        norm_num at h32 ⊢; omega
      have hacc' : u32 (r.acc ||| u32 ((r.buf[r.idx] % 256) <<< r.n_bits)) =
          r.acc + 2 ^ r.n_bits * (r.buf[r.idx] % 256) := by
        rw [hshift, or_shiftLeft _ _ _ hacc]
        unfold u32
        apply Nat.mod_eq_of_lt
        norm_num at h32 ⊢; omega
      rw [hacc']
      obtain ⟨r', e, a1, a2, a3, a4, a5, a6, a7, a8, a9⟩ :=
        ih { r with acc := r.acc + 2 ^ r.n_bits * (r.buf[r.idx] % 256),
                    idx := r.idx + 1, n_bits := r.n_bits + 8 }
          hsum (by dsimp only; omega) (by dsimp only; omega)
          (by unfold BitReader.unread at hun ⊢; dsimp only; omega)
          (by dsimp only; omega)
      refine ⟨r', e, a1, a2, a3, a4, ?_, ?_, a7, a8, a9⟩
      · rw [a5]
        unfold BitReader.stream
        dsimp only
        rw [bytes_value_drop r.buf r.idx hi, Nat.pow_add]
        ring
      · rw [a6]
        unfold BitReader.unread
        dsimp only
        omega
    · rw [if_neg hlt]
      exact ⟨r, rfl, hacc, hidx, by omega, hn, rfl, rfl, rfl, rfl, rfl⟩

/-- A read of at most 25 bits returns the next `count` unread bits. -/
theorem read_bits_small_spec (dbg : Bool) (count : Nat) (r : BitReader) (hc : count ≤ 25)
    (hr : r.valid) (hun : count ≤ r.unread) :
    ∃ r', read_bits_small dbg count r = .ok (r.stream % 2 ^ count, r') ∧
      r.advanced r' count := by
  obtain ⟨hn, hacc, hidx⟩ := hr
  obtain ⟨r1, e, a1, a2, a3, a4, a5, a6, a7, a8, a9⟩ :=
    fill_acc_spec dbg count hc count r hacc hidx (by omega) hun (by omega)
  unfold read_bits_small
  rw [e, ok_bind]
  have hmask : sub32 (1 <<< count) 1 = 2 ^ count - 1 := by
    rw [Nat.shiftLeft_eq, Nat.one_mul]
    have h1 : 2 ^ count ≤ 33554432 :=
      le_trans (Nat.pow_le_pow_right (by norm_num) hc) (by norm_num)
    have h2 : 0 < 2 ^ count := Nat.pow_pos (by norm_num)
    unfold sub32 u32
    omega
  have hsplit : 2 ^ r1.n_bits = 2 ^ count * 2 ^ (r1.n_bits - count) := by
    rw [← Nat.pow_add, Nat.add_sub_cancel' a3]
  have hpos : 0 < 2 ^ count := Nat.pow_pos (by norm_num)
  refine ⟨{ r1 with acc := r1.acc >>> count, n_bits := r1.n_bits - count },
    ?_, ⟨?_, ?_, ?_⟩, a7, a8, a9, ?_, ?_⟩
  · show pure _ = _
    rw [hmask, Nat.and_pow_two_sub_one_eq_mod, ← a5]
    unfold BitReader.stream
    rw [hsplit, Nat.mul_assoc, Nat.add_mul_mod_self_left]
    rfl
  · show r1.n_bits - count < 8
    omega
  · show r1.acc >>> count < 2 ^ (r1.n_bits - count)
    rw [Nat.shiftRight_eq_div_pow]
    apply Nat.div_lt_of_lt_mul
    rw [← hsplit]; exact a1
  · exact a2
  · show r1.acc >>> count + 2 ^ (r1.n_bits - count) * bytes_value (r1.buf.drop r1.idx) = _
    rw [← a5]
    unfold BitReader.stream
    rw [hsplit, Nat.mul_assoc, Nat.add_mul_div_left _ _ hpos, Nat.shiftRight_eq_div_pow]
  · rw [← a6]
    unfold BitReader.unread
    show r1.n_bits - count + 8 * (r1.buf.length - r1.idx) + count = _
    omega

theorem advanced_trans (r1 r2 r3 : BitReader) (a b : Nat) (h1 : r1.advanced r2 a)
    (h2 : r2.advanced r3 b) : r1.advanced r3 (a + b) := by
  obtain ⟨_, b1, c1, d1, e1, f1⟩ := h1
  obtain ⟨a2, b2, c2, d2, e2, f2⟩ := h2
  refine ⟨a2, by rw [b2, b1], by rw [c2, c1], by rw [d2, d1], ?_, by omega⟩
  rw [e2, e1, Nat.div_div_eq_div_mul, Nat.pow_add]

theorem read_bits_fuel_small (fuel : Nat) (dbg : Bool) (count : Nat) (r : BitReader)
    (hc : count ≤ 25) : read_bits_fuel fuel dbg count r = read_bits_small dbg count r := by
  cases fuel with
  | zero => rfl
  | succ fuel =>
    unfold read_bits_fuel
    rw [if_neg (by omega)]

/-- The method `BitReader::read_bits(count)` returns the next `count` unread bits, also when it
reads them in two steps. -/
theorem read_bits_spec (dbg : Bool) (count : Nat) (r : BitReader) (hc : count ≤ 32)
    (hr : r.valid) (hun : count ≤ r.unread) :
    ∃ r', r.read_bits dbg count = .ok (r.stream % 2 ^ count, r') ∧ r.advanced r' count := by
  unfold BitReader.read_bits
  by_cases h25 : count ≤ 25
  · rw [read_bits_fuel_small _ _ _ _ h25]
    exact read_bits_small_spec dbg count r h25 hr hun
  · obtain ⟨n, hn⟩ : ∃ n, count = n + 1 := ⟨count - 1, by omega⟩
    rw [hn]
    unfold read_bits_fuel
    rw [← hn, if_pos (by omega), assert_true dbg _ (by simp [hc]), ok_bind]
    obtain ⟨r1, e1, adv1⟩ := read_bits_small_spec dbg 16 r (by omega) hr (by omega)
    rw [e1, ok_bind]
    dsimp only
    rw [read_bits_fuel_small _ _ _ _ (show count - 16 ≤ 25 by omega)]
    obtain ⟨r2, e2, adv2⟩ := read_bits_small_spec dbg (count - 16) r1 (by omega) adv1.1
      (by have := adv1.2.2.2.2.2; omega)
    rw [e2, ok_bind]
    refine ⟨r2, ?_, ?_⟩
    · show Except.ok _ = _
      have hhi : r1.stream % 2 ^ (count - 16) < 2 ^ 16 :=
        lt_of_lt_of_le (Nat.mod_lt _ (Nat.pow_pos (by norm_num)))
          (Nat.pow_le_pow_right (by norm_num) (by omega))
      have hu : u32 ((r1.stream % 2 ^ (count - 16)) <<< 16) =
          (r1.stream % 2 ^ (count - 16)) <<< 16 := by
        unfold u32
        apply Nat.mod_eq_of_lt
        rw [Nat.shiftLeft_eq]
        norm_num at hhi ⊢; omega
      rw [hu, or_shiftLeft _ _ _ (Nat.mod_lt _ (Nat.pow_pos (by norm_num)))]
      rw [adv1.2.2.2.2.1]
      have hsplit : 2 ^ count = 2 ^ 16 * 2 ^ (count - 16) := by
        rw [← Nat.pow_add, Nat.add_sub_cancel' (by omega)]
      rw [hsplit, Nat.mod_mul]
    · have := advanced_trans r r1 r2 16 (count - 16) adv1 adv2
      rwa [Nat.add_sub_cancel' (by omega)] at this

/-! ## `BitReader::decode` -/


theorem pow_le_pow_31 (b : Nat) (h : b ≤ 31) : 2 ^ b ≤ 2147483648 :=
  le_trans (Nat.pow_le_pow_right (by norm_num) h) (by norm_num)

/-- The method `BitReader::decode(outof)` returns the value `spec_decode_value` of the unread bits,
which is below `outof`, and consumes `spec_decode_width` bits. -/
theorem decode_spec (dbg : Bool) (outof : Nat) (force : Bool) (r : BitReader) (hr : r.valid)
    (hchk : Assert dbg (!force && !r.di_current.is_initialized) = .ok ())
    (h1 : 1 ≤ outof) (h2 : outof ≤ 2147483648)
    (hun : spec_decode_width outof r.stream ≤ r.unread) :
    ∃ r', r.decode dbg outof force = .ok (spec_decode_value outof r.stream, r') ∧
      r.advanced r' (spec_decode_width outof r.stream) ∧
      spec_decode_value outof r.stream < outof := by
  have hb31 : spec_bits outof ≤ 31 := spec_bits_le outof 31 h1 (by norm_num; exact h2)
  have hu : u32 outof = outof := by unfold u32; omega
  have hfls : my_fls (sub32 outof 1) = spec_bits outof := by
    have e : sub32 outof 1 = outof - 1 := by unfold sub32 u32; omega
    rw [e, my_fls_eq_size _ (by omega)]; rfl
  obtain ⟨hle, hge⟩ := spec_bits_bracket outof h1
  have hP := pow_le_pow_31 _ hb31
  have hshl : shl1_int (spec_bits outof) = .ok (2 ^ spec_bits outof) := by
    unfold shl1_int; rw [if_pos (by omega)]
  have hspare : sub32 (2 ^ spec_bits outof) outof = 2 ^ spec_bits outof - outof := by
    unfold sub32 u32; omega
  unfold BitReader.decode
  rw [hchk, ok_bind]
  dsimp only
  rw [hu, hfls, hshl, ok_bind, hspare]
  unfold spec_decode_value spec_decode_width at *
  unfold spec_mid_start spec_spare at *
  by_cases hs : 2 ^ spec_bits outof - outof = 0
  · simp only [hs, ↓reduceIte, ne_eq, not_true_eq_false] at hun ⊢
    obtain ⟨r1, e1, adv1⟩ := read_bits_spec dbg (spec_bits outof) r (by omega) hr hun
    have hlt : r.stream % 2 ^ spec_bits outof < outof := by
      have := Nat.mod_lt r.stream (show 2 ^ spec_bits outof > 0 from Nat.pow_pos (by norm_num))
      omega
    rw [e1, ok_bind]
    dsimp only
    rw [assert_true dbg _ (by simpa using hlt), ok_bind]
    exact ⟨r1, rfl, adv1, hlt⟩
  · have h2' : 2 ≤ outof := by
      by_contra hc
      have : outof = 1 := by omega
      subst this
      rw [spec_bits_one] at hs; simp at hs
    obtain ⟨hb1, hQ, hPQ⟩ := hge h2'
    simp only [hs, ↓reduceIte, ne_eq, not_false_eq_true] at hun ⊢
    have hms : sub64 outof (2 ^ spec_bits outof - outof) / 2 =
        (outof - (2 ^ spec_bits outof - outof)) / 2 := by
      unfold sub64 u64; omega
    rw [hms]
    have hQpos : 0 < 2 ^ (spec_bits outof - 1) := Nat.pow_pos (by norm_num)
    have hp := Nat.mod_lt r.stream hQpos
    obtain ⟨r1, e1, adv1⟩ := read_bits_spec dbg (spec_bits outof - 1) r (by omega) hr
      (by split at hun <;> omega)
    rw [e1, ok_bind]
    dsimp only
    by_cases hlow : r.stream % 2 ^ (spec_bits outof - 1) <
        (outof - (2 ^ spec_bits outof - outof)) / 2
    · simp only [hlow, ↓reduceIte] at hun ⊢
      obtain ⟨r2, e2, adv2⟩ := read_bits_spec dbg 1 r1 (by omega) adv1.1
        (by have := adv1.2.2.2.2.2; omega)
      rw [e2, ok_bind]
      dsimp only
      have hadv := advanced_trans r r1 r2 _ _ adv1 adv2
      rw [Nat.sub_add_cancel hb1] at hadv
      rw [adv1.2.2.2.2.1, Nat.pow_one]
      have hbit := Nat.mod_lt (r.stream / 2 ^ (spec_bits outof - 1)) (show 2 > 0 by norm_num)
      by_cases hb : r.stream / 2 ^ (spec_bits outof - 1) % 2 = 1
      · have hb' : r.stream / 2 ^ (spec_bits outof - 1) % 2 ≠ 0 := by omega
        simp only [hb, hb', ↓reduceIte, ne_eq, not_false_eq_true]
        have hval : u32 (add64 (r.stream % 2 ^ (spec_bits outof - 1))
            (add64 ((outof - (2 ^ spec_bits outof - outof)) / 2)
              (2 ^ spec_bits outof - outof))) =
            r.stream % 2 ^ (spec_bits outof - 1) +
              (outof - (2 ^ spec_bits outof - outof)) / 2 + (2 ^ spec_bits outof - outof) := by
          unfold u32 add64; omega
        rw [hval]
        have hlt : r.stream % 2 ^ (spec_bits outof - 1) +
              (outof - (2 ^ spec_bits outof - outof)) / 2 + (2 ^ spec_bits outof - outof)
              < outof := by omega
        rw [assert_true dbg _ (by simpa using hlt), ok_bind]
        exact ⟨r2, rfl, hadv, hlt⟩
      · have hb' : r.stream / 2 ^ (spec_bits outof - 1) % 2 = 0 := by omega
        simp only [hb', ↓reduceIte, ne_eq, not_true_eq_false]
        have hlt : r.stream % 2 ^ (spec_bits outof - 1) < outof := by omega
        rw [assert_true dbg _ (by simpa using hlt), ok_bind]
        exact ⟨r2, rfl, hadv, hlt⟩
    · simp only [hlow, ↓reduceIte] at hun ⊢
      have hlt : r.stream % 2 ^ (spec_bits outof - 1) < outof := by omega
      rw [assert_true dbg _ (by simpa using hlt), ok_bind]
      exact ⟨r1, rfl, adv1, hlt⟩

/-- The abstract decoder inverts the code of the spec. -/
theorem spec_decode_code (value outof x : Nat) (h1 : 1 ≤ outof) (hv : value < outof)
    (hx : x % 2 ^ (spec_code value outof).2 = (spec_code value outof).1) :
    spec_decode_value outof x = value ∧
    spec_decode_width outof x = (spec_code value outof).2 := by
  obtain ⟨hle, hge⟩ := spec_bits_bracket outof h1
  unfold spec_decode_value spec_decode_width
  unfold spec_code at hx ⊢
  unfold spec_mid_start spec_spare at *
  by_cases hs : 2 ^ spec_bits outof - outof = 0
  · simp only [hs, ↓reduceIte] at hx ⊢
    exact ⟨hx, trivial⟩
  · have h2' : 2 ≤ outof := by
      by_contra hc
      have : outof = 1 := by omega
      subst this
      rw [spec_bits_one] at hs; simp at hs
    obtain ⟨hb1, hQ, hPQ⟩ := hge h2'
    have hQpos : 0 < 2 ^ (spec_bits outof - 1) := Nat.pow_pos (by norm_num)
    have hp := Nat.mod_lt x hQpos
    have hbit := Nat.mod_lt (x / 2 ^ (spec_bits outof - 1)) (show 2 > 0 by norm_num)
    have hsplit : x % 2 ^ spec_bits outof = x % 2 ^ (spec_bits outof - 1) +
        2 ^ (spec_bits outof - 1) * (x / 2 ^ (spec_bits outof - 1) % 2) := by
      rw [hPQ, Nat.mul_comm 2, Nat.mod_mul]
    simp only [hs, ↓reduceIte] at hx ⊢
    by_cases c1 : value < (outof - (2 ^ spec_bits outof - outof)) / 2
    · simp only [c1, ↓reduceIte] at hx ⊢
      rw [hsplit] at hx
      rcases Nat.lt_or_ge (x / 2 ^ (spec_bits outof - 1) % 2) 1 with h0 | h0
      · have h0 : x / 2 ^ (spec_bits outof - 1) % 2 = 0 := by omega
        rw [h0, Nat.mul_zero, Nat.add_zero] at hx
        rw [hx, h0]
        simp only [c1, ↓reduceIte]
        exact ⟨by simp, trivial⟩
      · have h0 : x / 2 ^ (spec_bits outof - 1) % 2 = 1 := by omega
        rw [h0, Nat.mul_one] at hx
        omega
    · simp only [c1, ↓reduceIte] at hx ⊢
      by_cases c2 : value < (outof - (2 ^ spec_bits outof - outof)) / 2 +
          (2 ^ spec_bits outof - outof)
      · simp only [c2, ↓reduceIte] at hx ⊢
        rw [hx]
        simp only [c1, ↓reduceIte]
        exact ⟨trivial, trivial⟩
      · simp only [c2, ↓reduceIte] at hx ⊢
        rw [or_two_pow _ _ (by omega), hsplit] at hx
        rcases Nat.lt_or_ge (x / 2 ^ (spec_bits outof - 1) % 2) 1 with h0 | h0
        · have h0 : x / 2 ^ (spec_bits outof - 1) % 2 = 0 := by omega
          rw [h0, Nat.mul_zero, Nat.add_zero] at hx
          omega
        · have h0 : x / 2 ^ (spec_bits outof - 1) % 2 = 1 := by omega
          rw [h0, Nat.mul_one] at hx
          have hxq : x % 2 ^ (spec_bits outof - 1) =
              value - (outof - (2 ^ spec_bits outof - outof)) / 2 -
                (2 ^ spec_bits outof - outof) := by omega
          have hlow : x % 2 ^ (spec_bits outof - 1) <
              (outof - (2 ^ spec_bits outof - outof)) / 2 := by omega
          simp only [hlow, h0, ↓reduceIte]
          exact ⟨by omega, trivial⟩

theorem writer_stream_lt (w : BitWriter) (hw : w.wf) : w.stream < 2 ^ w.bit_len := by
  unfold BitWriter.stream BitWriter.bit_len
  have h1 := bytes_value_lt w.buf
  have h2 := add_shift_lt (bytes_value w.buf) w.acc (8 * w.buf.length) w.n_bits h1 hw.2
  exact h2

theorem grows_to_refl (w : BitWriter) (hw : w.wf) : w.grows_to w :=
  ⟨hw, Nat.le_refl _, Nat.mod_eq_of_lt (writer_stream_lt w hw)⟩

theorem mod_pow_mod (x a b : Nat) (h : a ≤ b) : x % 2 ^ b % 2 ^ a = x % 2 ^ a :=
  Nat.mod_mod_of_dvd x (Nat.pow_dvd_pow 2 h)

theorem grows_to_trans (w1 w2 w3 : BitWriter) (h12 : w1.grows_to w2) (h23 : w2.grows_to w3) :
    w1.grows_to w3 := by
  obtain ⟨_, b1, c1⟩ := h12
  obtain ⟨a2, b2, c2⟩ := h23
  refine ⟨a2, by omega, ?_⟩
  rw [← c1, ← c2, mod_pow_mod _ _ _ b1]

theorem written_in_of_grows (w1 w2 : BitWriter) (buf : List Nat) (h : w1.grows_to w2)
    (hb : w2.written_in buf) : w1.written_in buf := by
  obtain ⟨_, b1, c1⟩ := h
  obtain ⟨a2, b2⟩ := hb
  refine ⟨by omega, ?_⟩
  rw [← c1, ← b2, mod_pow_mod _ _ _ b1]

theorem encode_grows (w w' : BitWriter) (c : Nat) (n : Nat) (hw : w.wf) (hw' : w'.wf)
    (hs : w'.stream = w.stream + 2 ^ w.bit_len * c) (hl : w'.bit_len = w.bit_len + n) :
    w.grows_to w' := by
  refine ⟨hw', by omega, ?_⟩
  rw [hs, Nat.add_mul_mod_self_left]
  exact Nat.mod_eq_of_lt (writer_stream_lt w hw)

theorem freeze_written (w : BitWriter) (hw : w.wf) : w.written_in w.freeze := by
  obtain ⟨hn, hacc⟩ := hw
  unfold BitWriter.written_in BitWriter.freeze
  by_cases h0 : w.n_bits = 0
  · have hacc0 : w.acc = 0 := by rw [h0] at hacc; simpa using hacc
    rw [if_neg (by simp [h0])]
    unfold BitWriter.bit_len BitWriter.stream
    rw [h0, hacc0]
    refine ⟨by omega, ?_⟩
    rw [Nat.mul_zero, Nat.add_zero, Nat.add_zero]
    exact Nat.mod_eq_of_lt (bytes_value_lt _)
  · rw [if_pos h0]
    have hacc8 : w.acc < 256 :=
      lt_of_lt_of_le hacc (le_trans (Nat.pow_le_pow_right (by norm_num) (by omega : w.n_bits ≤ 8))
        (by norm_num))
    have hval : bytes_value (w.buf ++ [w.acc % 256]) = w.stream := by
      rw [bytes_value_append, Nat.mod_mod, Nat.mod_eq_of_lt hacc8]
      rfl
    rw [hval]
    refine ⟨?_, Nat.mod_eq_of_lt (writer_stream_lt w ⟨hn, hacc⟩)⟩
    unfold BitWriter.bit_len
    simp only [List.length_append, List.length_singleton]
    omega

/-! ## C1: primitive round trip -/


theorem at_pos_advanced (r r' : BitReader) (p c : Nat) (h : r.at_pos p)
    (ha : r.advanced r' c) : r'.at_pos (p + c) := by
  obtain ⟨_, hu, hs⟩ := h
  obtain ⟨a, b, _, _, e, f⟩ := ha
  refine ⟨a, by rw [b]; omega, ?_⟩
  rw [e, hs, b, Nat.div_div_eq_div_mul, Nat.pow_add]

/-- One code written by `encode` and found in the buffer at the position of the reader
is decoded to the value that was encoded, and the reader ends behind the code. -/
theorem round_trip_step (dbg : Bool) (value outof : Nat) (force : Bool) (w w' : BitWriter)
    (r : BitReader) (hw : w.wf) (h1 : 1 ≤ outof) (h2 : outof ≤ 1073741824)
    (hv : value < outof) (he : w.encode dbg value outof = .ok w')
    (hb : w'.written_in r.buf) (hr : r.at_pos w.bit_len)
    (hchk : Assert dbg (!force && !r.di_current.is_initialized) = .ok ()) :
    ∃ r', r.decode dbg outof force = .ok (value, r') ∧ r'.at_pos w'.bit_len ∧
      r'.buf = r.buf ∧ r'.di_stack = r.di_stack ∧ r'.di_current = r.di_current := by
  obtain ⟨w'', he', _, hs, hl⟩ := encode_spec dbg value outof w hw h1 h2 hv
  rw [he] at he'
  cases he'
  obtain ⟨hlt, hwd⟩ := spec_code_lt value outof h1 hv
  have hpos : 0 < 2 ^ w.bit_len := Nat.pow_pos (by norm_num)
  have hx : r.stream % 2 ^ (spec_code value outof).2 = (spec_code value outof).1 := by
    rw [hr.2.2, ← Nat.mod_mul_right_div_self, ← Nat.pow_add, ← hl, hb.2, hs,
      Nat.add_mul_div_left _ _ hpos, Nat.div_eq_of_lt (writer_stream_lt w hw), Nat.zero_add]
  obtain ⟨hval, hwid⟩ := spec_decode_code value outof r.stream h1 hv hx
  obtain ⟨r', e, adv, _⟩ := decode_spec dbg outof force r hr.1 hchk h1 (by omega)
    (by rw [hwid]; have := hr.2.1; have := hb.1; omega)
  rw [hval] at e
  rw [hwid] at adv
  refine ⟨r', e, ?_, adv.2.1, adv.2.2.1, adv.2.2.2.1⟩
  rw [hl]
  exact at_pos_advanced r r' _ _ hr adv

theorem no_cursor_assert (dbg : Bool) (r : BitReader) (h : r.no_cursor) :
    Assert dbg (!false && !r.di_current.is_initialized) = .ok () := by
  unfold BitReader.no_cursor at h
  rw [h]
  exact assert_true dbg _ rfl

/-- The part of C1 that the code meets: for every `outof` with `1 ≤ outof ≤ 2^30`, every `value < outof` and
every writer that satisfies the writer invariant, `encode(value, outof)` returns, and
`decode(outof)` on the flushed buffer, by a reader with no active cursor that has
consumed the bits written before the code, returns `value` and leaves the reader right
behind the code: it consumes as many bits as `encode` emitted. -/
theorem encode_decode_round_trip (dbg : Bool) (value outof : Nat) (w : BitWriter)
    (hw : w.wf) (h1 : 1 ≤ outof) (h2 : outof ≤ 2 ^ 30) (hv : value < outof) :
    ∃ w', w.encode dbg value outof = .ok w' ∧
      ∀ r : BitReader, r.buf = w'.freeze → r.at_pos w.bit_len → r.no_cursor →
        ∃ r', r.decode dbg outof false = .ok (value, r') ∧ r'.at_pos w'.bit_len := by
  have h2' : outof ≤ 1073741824 := by norm_num at h2; exact h2
  obtain ⟨w', he, hw', _, _⟩ := encode_spec dbg value outof w hw h1 h2' hv
  refine ⟨w', he, ?_⟩
  intro r hbuf hpos hnc
  have hb : w'.written_in r.buf := by rw [hbuf]; exact freeze_written w' hw'
  obtain ⟨r', e, hp, _⟩ := round_trip_step dbg value outof false w w' r hw h1 h2' hv he hb hpos
    (no_cursor_assert dbg r hnc)
  exact ⟨r', e, hp⟩

/-- An instance of the round trip: `encode(3, 7)` on a fresh writer, then `decode(7)`. -/
theorem encode_decode_round_trip_witness :
    BitWriter.init.wf ∧ 1 ≤ 7 ∧ 7 ≤ 2 ^ 30 ∧ 3 < 7 ∧
    ∃ w', BitWriter.init.encode true 3 7 = .ok w' ∧
      ∀ r : BitReader, r.buf = w'.freeze → r.at_pos BitWriter.init.bit_len → r.no_cursor →
        ∃ r', r.decode true 7 false = .ok (3, r') ∧ r'.at_pos w'.bit_len :=
  ⟨⟨by decide, by decide⟩, by decide, by decide, by decide,
    encode_decode_round_trip true 3 7 BitWriter.init ⟨by decide, by decide⟩
      (by decide) (by decide) (by decide)⟩

/-- The round trip fails for large `outof`.  For `outof = 2^31 + 1` the width is 32 and
`1 << 32` is not defined for a 32-bit `int`: `encode` has no defined result.  For
`outof = 2^30 + 1` the width is 31, the `int` value `1 << 31` is sign-extended in
`(1 << bits) - outof`, and `encode(5, outof)` emits 31 bits, of which `decode(outof)`
consumes 30: it returns 5, but does not leave the reader behind the code. -/
theorem encode_decode_large_outof :
    (¬ ∃ w', BitWriter.init.encode true 0 2147483649 = .ok w') ∧
    ¬ ∃ w', BitWriter.init.encode true 5 1073741825 = .ok w' ∧
      ∀ r : BitReader, r.buf = w'.freeze → r.at_pos BitWriter.init.bit_len → r.no_cursor →
        ∃ r', r.decode true 1073741825 false = .ok (5, r') ∧ r'.at_pos w'.bit_len := by
  constructor
  · rintro ⟨w', h⟩
    have e : BitWriter.init.encode true 0 2147483649 = .error .undefined := by rfl
    rw [e] at h
    cases h
  · rintro ⟨w', he, h⟩
    have e : BitWriter.init.encode true 5 1073741825 = .ok ⟨[5, 0, 0], 7, 0⟩ := by rfl
    rw [e] at he
    cases he
    have hpos : (BitReader.init [5, 0, 0, 0]).at_pos BitWriter.init.bit_len :=
      ⟨⟨by decide, by decide, by decide⟩, by decide, by rfl⟩
    obtain ⟨r', hd, hp⟩ := h (BitReader.init [5, 0, 0, 0]) (by rfl) hpos (by rfl)
    have e2 : (BitReader.init [5, 0, 0, 0]).decode true 1073741825 false =
        .ok (5, ⟨[5, 0, 0, 0], 4, 2, 0, [], Frame.set 0 0 0 0⟩) := by rfl
    rw [e2] at hd
    cases hd
    have := hp.2.1
    revert this
    decide

/-! ## C5: minimality -/


theorem emitted_eq (dbg : Bool) (value outof : Nat) (w : BitWriter) (hw : w.wf)
    (h1 : 1 ≤ outof) (h2 : outof ≤ 1073741824) (hv : value < outof) :
    w.emitted dbg value outof = some (spec_code value outof).2 := by
  obtain ⟨w', he, _, _, hl⟩ := encode_spec dbg value outof w hw h1 h2 hv
  unfold BitWriter.emitted
  rw [he]
  dsimp only
  rw [hl, Nat.add_sub_cancel_left]

theorem spare_ne_zero_two_le (outof : Nat) (h1 : 1 ≤ outof)
    (hs : spec_spare outof ≠ 0) : 2 ≤ outof := by
  by_contra hc
  have : outof = 1 := by omega
  subst this
  unfold spec_spare at hs
  rw [spec_bits_one] at hs; simp at hs

theorem spec_bits_eq_clog (outof : Nat) (h1 : 1 ≤ outof) :
    spec_bits outof = Nat.clog 2 outof := by
  obtain ⟨hle, hge⟩ := spec_bits_bracket outof h1
  apply Nat.le_antisymm
  · by_cases h2 : 2 ≤ outof
    · obtain ⟨hb1, hQ, _⟩ := hge h2
      have := (Nat.pow_lt_iff_lt_clog (by norm_num : 1 < 2)).mp hQ
      omega
    · have : outof = 1 := by omega
      subst this
      rw [spec_bits_one]; exact Nat.zero_le _
  · exact (Nat.le_pow_iff_clog_le (by norm_num : 1 < 2)).mp hle

theorem spec_bits_of_bracket (outof b : Nat) (h1 : 2 ^ (b - 1) < outof) (h2 : outof ≤ 2 ^ b)
    (hb : 1 ≤ b) : spec_bits outof = b := by
  unfold spec_bits
  apply Nat.le_antisymm
  · have hp : 0 < 2 ^ b := Nat.pow_pos (by norm_num)
    exact Nat.size_le.mpr (by omega)
  · have : b - 1 < Nat.size (outof - 1) := Nat.lt_size.mpr (by omega)
    omega

theorem spec_spare_of_bits (outof b s : Nat) (h : spec_bits outof = b) (hs : 2 ^ b - outof = s) :
    spec_spare outof = s := by
  unfold spec_spare; rw [h, hs]

theorem spec_mid_start_of_spare (outof s m : Nat) (h : spec_spare outof = s)
    (hm : (outof - s) / 2 = m) : spec_mid_start outof = m := by
  unfold spec_mid_start; rw [h, hm]

theorem spec_code_width (value outof : Nat) :
    (spec_code value outof).2 =
      if spec_spare outof ≠ 0 ∧ spec_mid_start outof ≤ value ∧
          value < spec_mid_start outof + spec_spare outof
      then spec_bits outof - 1 else spec_bits outof := by
  unfold spec_code
  by_cases hs : spec_spare outof = 0
  · rw [if_pos hs, if_neg (fun h => h.1 hs)]
  · rw [if_neg hs]
    by_cases c1 : value < spec_mid_start outof
    · rw [if_pos c1, if_neg (fun h => Nat.lt_irrefl _ (lt_of_lt_of_le c1 h.2.1))]
    · rw [if_neg c1]
      by_cases c2 : value < spec_mid_start outof + spec_spare outof
      · rw [if_pos c2, if_pos ⟨hs, Nat.le_of_not_lt c1, c2⟩]
      · rw [if_neg c2, if_neg (fun h => c2 h.2.2)]

theorem spec_code_width_cases (value outof : Nat) (h1 : 1 ≤ outof) :
    Nat.log 2 outof ≤ (spec_code value outof).2 ∧
    (spec_code value outof).2 ≤ Nat.clog 2 outof ∧
    ((spec_code value outof).2 + 1 = spec_bits outof ↔
      (spec_spare outof ≠ 0 ∧ spec_mid_start outof ≤ value ∧
        value < spec_mid_start outof + spec_spare outof)) ∧
    ((spec_code value outof).2 + 1 = spec_bits outof ∨
      (spec_code value outof).2 = spec_bits outof) := by
  obtain ⟨hle, hge⟩ := spec_bits_bracket outof h1
  have hclog := spec_bits_eq_clog outof h1
  rw [← hclog, spec_code_width]
  by_cases hs : spec_spare outof = 0
  · rw [if_neg (fun h => h.1 hs)]
    have ho : outof = 2 ^ spec_bits outof := by unfold spec_spare at hs; omega
    have hlog : Nat.log 2 outof = spec_bits outof := by
      conv_lhs => rw [ho]
      exact Nat.log_pow (by norm_num) _
    refine ⟨by omega, Nat.le_refl _, ?_, Or.inr rfl⟩
    constructor
    · intro h; omega
    · intro h; exact absurd hs h.1
  · have h2 := spare_ne_zero_two_le outof h1 hs
    obtain ⟨hb1, hQ, hPQ⟩ := hge h2
    have hlog : Nat.log 2 outof = spec_bits outof - 1 := by
      apply Nat.log_eq_of_pow_le_of_lt_pow (by omega)
      rw [Nat.sub_add_cancel hb1]
      unfold spec_spare at hs
      omega
    rw [hlog]
    by_cases c : spec_spare outof ≠ 0 ∧ spec_mid_start outof ≤ value ∧
          value < spec_mid_start outof + spec_spare outof
    · rw [if_pos c]
      refine ⟨Nat.le_refl _, by omega, ?_, Or.inl (by omega)⟩
      constructor
      · intro _; exact c
      · intro _; omega
    · rw [if_neg c]
      refine ⟨by omega, Nat.le_refl _, ?_, Or.inr rfl⟩
      constructor
      · intro h; omega
      · intro h; exact absurd h c

theorem mid_band_in_range (outof : Nat) (h1 : 1 ≤ outof) :
    spec_mid_start outof + spec_spare outof ≤ outof := by
  obtain ⟨hle, _⟩ := spec_bits_bracket outof h1
  by_cases hs : spec_spare outof = 0
  · unfold spec_mid_start; omega
  · have h2 := spare_ne_zero_two_le outof h1 hs
    unfold spec_mid_start spec_spare
    obtain ⟨_, hge⟩ := spec_bits_bracket outof h1
    obtain ⟨hb1, hQ, hPQ⟩ := hge h2
    omega

/-- The part of C5 that the code meets: for every `outof` with `1 ≤ outof ≤ 2^30` and every `value < outof`,
`encode(value, outof)` emits at least `floor(log2(outof))` and at most
`ceil(log2(outof))` bits, either `bits` or `bits - 1` of them, and exactly
`spare = 2^bits - outof` of the `outof` values get the shorter code of `bits - 1`
bits, where `bits` is the bit length of `outof - 1`. -/
theorem encode_minimality (dbg : Bool) (outof : Nat) (w : BitWriter) (hw : w.wf)
    (h1 : 1 ≤ outof) (h2 : outof ≤ 2 ^ 30) :
    (∀ value, value < outof → ∃ n, w.emitted dbg value outof = some n ∧
      Nat.log 2 outof ≤ n ∧ n ≤ Nat.clog 2 outof ∧
      (n + 1 = spec_bits outof ∨ n = spec_bits outof)) ∧
    ((Finset.range outof).filter fun value =>
      (w.emitted dbg value outof).map (· + 1) = some (spec_bits outof)).card =
      spec_spare outof := by
  have h2' : outof ≤ 1073741824 := by norm_num at h2; exact h2
  constructor
  · intro value hv
    obtain ⟨a, b, _, d⟩ := spec_code_width_cases value outof h1
    exact ⟨_, emitted_eq dbg value outof w hw h1 h2' hv, a, b, d⟩
  · have hset : ((Finset.range outof).filter fun value =>
        (w.emitted dbg value outof).map (· + 1) = some (spec_bits outof)) =
        Finset.Ico (spec_mid_start outof) (spec_mid_start outof + spec_spare outof) := by
      ext value
      rw [Finset.mem_filter, Finset.mem_range, Finset.mem_Ico]
      constructor
      · rintro ⟨hv, h⟩
        rw [emitted_eq dbg value outof w hw h1 h2' hv] at h
        simp only [Option.map_some', Option.some.injEq] at h
        have := (spec_code_width_cases value outof h1).2.2.1.mp h
        exact ⟨this.2.1, this.2.2⟩
      · rintro ⟨ha, hb⟩
        have hv : value < outof := lt_of_lt_of_le hb (mid_band_in_range outof h1)
        refine ⟨hv, ?_⟩
        rw [emitted_eq dbg value outof w hw h1 h2' hv]
        simp only [Option.map_some', Option.some.injEq]
        exact (spec_code_width_cases value outof h1).2.2.1.mpr ⟨by omega, ha, hb⟩
    rw [hset, Nat.card_Ico, Nat.add_sub_cancel_left]

/-- An instance of minimality: the codes for `outof = 7` on a fresh writer. -/
theorem encode_minimality_witness :
    BitWriter.init.wf ∧ 1 ≤ 7 ∧ 7 ≤ 2 ^ 30 ∧
    ((∀ value, value < 7 → ∃ n, BitWriter.init.emitted true value 7 = some n ∧
      Nat.log 2 7 ≤ n ∧ n ≤ Nat.clog 2 7 ∧
      (n + 1 = spec_bits 7 ∨ n = spec_bits 7)) ∧
    ((Finset.range 7).filter fun value =>
      (BitWriter.init.emitted true value 7).map (· + 1) = some (spec_bits 7)).card =
      spec_spare 7) :=
  ⟨⟨by decide, by decide⟩, by decide, by decide,
    encode_minimality true 7 BitWriter.init ⟨by decide, by decide⟩ (by decide) (by decide)⟩

/-- Minimality fails for large `outof`: for `outof = 2^31 + 1` the call
`encode(0, outof)` has no defined result, so no number of bits is emitted; and for
`outof = 2^30 + 1` the value 5 lies in the middle band, which is to get the shorter
code, but `encode(5, outof)` emits the full `bits = 31` bits. -/
theorem encode_minimality_large_outof :
    (¬ ∃ n, BitWriter.init.emitted true 0 2147483649 = some n) ∧
    spec_mid_start 1073741825 ≤ 5 ∧
    5 < spec_mid_start 1073741825 + spec_spare 1073741825 ∧
    BitWriter.init.emitted true 5 1073741825 = some (spec_bits 1073741825) := by
  have hb : spec_bits 1073741825 = 31 :=
    spec_bits_of_bracket 1073741825 31 (by norm_num) (by norm_num) (by norm_num)
  have hs : spec_spare 1073741825 = 1073741823 :=
    spec_spare_of_bits _ 31 _ hb (by norm_num)
  have hm : spec_mid_start 1073741825 = 1 :=
    spec_mid_start_of_spare _ _ _ hs (by norm_num)
  refine ⟨?_, ?_, ?_, ?_⟩
  · rintro ⟨n, h⟩
    have e : BitWriter.init.emitted true 0 2147483649 = none := by rfl
    rw [e] at h
    cases h
  · rw [hm]; norm_num
  · rw [hm, hs]; norm_num
  · rw [hb]; rfl

/-! ## C6 and C7: band layout, boundary `outof = 1` -/


/-- The part of C6 that the code meets: for every `outof` with `1 ≤ outof ≤ 2^30`, every `value < outof` and
every writer that satisfies the invariant, `encode(value, outof)` appends to the
stream, least significant bit first, a code word `code` of `width` bits given by the
bands of section 4.1: with `bits` the bit length of `outof - 1`,
`spare = 2^bits - outof` and `mid_start = (outof - spare) / 2`, it is `value` in `bits`
bits when `spare = 0` or `value < mid_start`, `value` in `bits - 1` bits when
`mid_start ≤ value < mid_start + spare`, and `value - mid_start - spare`, a number of
`bits - 1` bits, with the marker bit `bits - 1` set, in `bits` bits, when
`value ≥ mid_start + spare`. -/
theorem encode_band_layout (dbg : Bool) (value outof : Nat) (w : BitWriter) (hw : w.wf)
    (h1 : 1 ≤ outof) (h2 : outof ≤ 2 ^ 30) (hv : value < outof) :
    ∃ w' code width, w.encode dbg value outof = .ok w' ∧
      w'.stream = w.stream + 2 ^ w.bit_len * code ∧ w'.bit_len = w.bit_len + width ∧
      code < 2 ^ width ∧
      (spec_spare outof = 0 → code = value ∧ width = spec_bits outof) ∧
      (0 < spec_spare outof → value < spec_mid_start outof →
        code = value ∧ width = spec_bits outof) ∧
      (0 < spec_spare outof → spec_mid_start outof ≤ value →
        value < spec_mid_start outof + spec_spare outof →
        code = value ∧ width = spec_bits outof - 1) ∧
      (0 < spec_spare outof → spec_mid_start outof + spec_spare outof ≤ value →
        code = (value - spec_mid_start outof - spec_spare outof) |||
          2 ^ (spec_bits outof - 1) ∧
        value - spec_mid_start outof - spec_spare outof < 2 ^ (spec_bits outof - 1) ∧
        width = spec_bits outof) := by
  have h2' : outof ≤ 1073741824 := by norm_num at h2; exact h2
  obtain ⟨w', he, _, hs, hl⟩ := encode_spec dbg value outof w hw h1 h2' hv
  obtain ⟨hlt, _⟩ := spec_code_lt value outof h1 hv
  refine ⟨w', (spec_code value outof).1, (spec_code value outof).2, he, hs, hl, hlt,
    ?_, ?_, ?_, ?_⟩
  · intro h0
    unfold spec_code
    rw [if_pos h0]
    exact ⟨rfl, rfl⟩
  · intro hp hlow
    unfold spec_code
    rw [if_neg (by omega), if_pos hlow]
    exact ⟨rfl, rfl⟩
  · intro hp hge hmid
    unfold spec_code
    rw [if_neg (by omega), if_neg (by omega), if_pos hmid]
    exact ⟨rfl, rfl⟩
  · intro hp hhigh
    unfold spec_code
    rw [if_neg (by omega), if_neg (by omega), if_neg (by omega)]
    refine ⟨rfl, ?_, rfl⟩
    have hs0 : spec_spare outof ≠ 0 := by omega
    have h2 := spare_ne_zero_two_le outof h1 hs0
    obtain ⟨_, hge⟩ := spec_bits_bracket outof h1
    obtain ⟨hb1, hQ, hPQ⟩ := hge h2
    unfold spec_mid_start spec_spare at *
    omega

/-- An instance of the band layout: `encode(3, 7)` on a fresh writer. -/
theorem encode_band_layout_witness :
    BitWriter.init.wf ∧ 1 ≤ 7 ∧ 7 ≤ 2 ^ 30 ∧ 3 < 7 ∧
    ∃ w' code width, BitWriter.init.encode true 3 7 = .ok w' ∧
      w'.stream = BitWriter.init.stream + 2 ^ BitWriter.init.bit_len * code ∧
      w'.bit_len = BitWriter.init.bit_len + width ∧
      code < 2 ^ width ∧
      (spec_spare 7 = 0 → code = 3 ∧ width = spec_bits 7) ∧
      (0 < spec_spare 7 → 3 < spec_mid_start 7 →
        code = 3 ∧ width = spec_bits 7) ∧
      (0 < spec_spare 7 → spec_mid_start 7 ≤ 3 →
        3 < spec_mid_start 7 + spec_spare 7 →
        code = 3 ∧ width = spec_bits 7 - 1) ∧
      (0 < spec_spare 7 → spec_mid_start 7 + spec_spare 7 ≤ 3 →
        code = (3 - spec_mid_start 7 - spec_spare 7) |||
          2 ^ (spec_bits 7 - 1) ∧
        3 - spec_mid_start 7 - spec_spare 7 < 2 ^ (spec_bits 7 - 1) ∧
        width = spec_bits 7) :=
  ⟨⟨by decide, by decide⟩, by decide, by decide, by decide,
    encode_band_layout true 3 7 BitWriter.init ⟨by decide, by decide⟩
      (by decide) (by decide) (by decide)⟩

/-- The band layout fails for large `outof`: for `outof = 2^30 + 1` the value 5 lies in
the middle band, but `encode(5, outof)` emits 31 bits, not a code of `bits - 1 = 30`
bits; for `outof = 2^31 + 1` the call `encode(0, outof)` has no defined result. -/
theorem encode_band_layout_large_outof :
    (spec_mid_start 1073741825 ≤ 5 ∧
      5 < spec_mid_start 1073741825 + spec_spare 1073741825 ∧
      ¬ ∃ w', BitWriter.init.encode true 5 1073741825 = .ok w' ∧
        w'.bit_len = BitWriter.init.bit_len + (spec_bits 1073741825 - 1)) ∧
    ¬ ∃ w', BitWriter.init.encode true 0 2147483649 = .ok w' := by
  have hb : spec_bits 1073741825 = 31 :=
    spec_bits_of_bracket 1073741825 31 (by norm_num) (by norm_num) (by norm_num)
  have hs : spec_spare 1073741825 = 1073741823 :=
    spec_spare_of_bits _ 31 _ hb (by norm_num)
  have hm : spec_mid_start 1073741825 = 1 :=
    spec_mid_start_of_spare _ _ _ hs (by norm_num)
  refine ⟨⟨?_, ?_, ?_⟩, ?_⟩
  · rw [hm]; norm_num
  · rw [hm, hs]; norm_num
  · rintro ⟨w', he, hl⟩
    have e : BitWriter.init.encode true 5 1073741825 = .ok ⟨[5, 0, 0], 7, 0⟩ := by rfl
    rw [e] at he
    cases he
    rw [hb] at hl
    revert hl
    decide
  · rintro ⟨w', h⟩
    have e : BitWriter.init.encode true 0 2147483649 = .error .undefined := by rfl
    rw [e] at h
    cases h

theorem read_bits_zero (dbg : Bool) (r : BitReader) : r.read_bits dbg 0 = .ok (0, r) := by
  show read_bits_small dbg 0 r = _
  unfold read_bits_small
  show (Except.ok r >>= _) = _
  rw [ok_bind]
  have hm : sub32 (1 <<< 0) 1 = 0 := by rfl
  rw [hm, Nat.and_zero]
  rfl

theorem decode_one (dbg : Bool) (force : Bool) (r : BitReader)
    (hchk : Assert dbg (!force && !r.di_current.is_initialized) = .ok ()) :
    r.decode dbg 1 force = .ok (0, r) := by
  unfold BitReader.decode
  rw [hchk, ok_bind]
  have h1 : u32 1 = 1 := by rfl
  have h2 : my_fls (sub32 1 1) = 0 := by rfl
  have h3 : shl1_int 0 = .ok 1 := by rfl
  have h4 : sub32 1 1 = 0 := by rfl
  dsimp only
  rw [h1, h2, h3, ok_bind, h4]
  rw [if_neg (by simp), read_bits_zero, ok_bind]
  dsimp only
  rw [assert_true dbg _ (by decide), ok_bind]
  rfl

/-- C7, amended: `encode(0, 1)` returns and leaves a writer that satisfies the invariant
unchanged, and `decode(1)`, on every reader on which no cursor is active and on every
reader at all in a build without assertions, returns 0 and leaves the reader unchanged:
no bit and no byte is consumed, whatever the input holds. -/
theorem outof_one_boundary :
    (∀ (dbg : Bool) (w : BitWriter), w.wf → w.encode dbg 0 1 = .ok w) ∧
    (∀ (dbg : Bool) (r : BitReader), r.no_cursor → r.decode dbg 1 false = .ok (0, r)) ∧
    (∀ (r : BitReader) (force : Bool), r.decode false 1 force = .ok (0, r)) := by
  refine ⟨?_, ?_, ?_⟩
  · intro dbg w hw
    obtain ⟨hn, hacc⟩ := hw
    have hacc32 : w.acc < 4294967296 :=
      lt_of_lt_of_le hacc (le_trans (Nat.pow_le_pow_right (by norm_num) (by omega : w.n_bits ≤ 32))
        (by norm_num))
    unfold BitWriter.encode
    dsimp only
    have hu0 : u64 0 = 0 := by rfl
    have hu1 : u64 1 = 1 := by rfl
    rw [hu0, hu1, assert_true dbg _ (by decide), ok_bind]
    have hc : encode_code 0 1 = .ok (0, 0) := by rfl
    rw [hc, ok_bind]
    unfold put_bits
    dsimp only
    rw [if_neg (by unfold add64; omega)]
    simp only [pure_bind, Nat.zero_shiftLeft, Nat.add_zero]
    have hu : u32 (w.acc ||| u64 0) = w.acc := by
      have : u64 0 = 0 := by rfl
      rw [this, Nat.or_zero]
      unfold u32; omega
    rw [hu]
    have hf : ∀ fuel, flush_bytes fuel w = w := by
      intro fuel
      cases fuel with
      | zero => rfl
      | succ fuel => unfold flush_bytes; rw [if_neg (by omega)]
    exact congrArg Except.ok (hf _)
  · intro dbg r hnc
    exact decode_one dbg false r (no_cursor_assert dbg r hnc)
  · intro r force
    exact decode_one false force r rfl

/-- Witness of C7: a fresh writer, and a fresh reader on the empty input. -/
theorem outof_one_boundary_witness :
    BitWriter.init.wf ∧ BitWriter.init.encode true 0 1 = .ok BitWriter.init ∧
    (BitReader.init []).no_cursor ∧
    (BitReader.init []).decode true 1 false = .ok (0, BitReader.init []) :=
  ⟨⟨by decide, by decide⟩, outof_one_boundary.1 true BitWriter.init ⟨by decide, by decide⟩,
    by rfl, outof_one_boundary.2.1 true (BitReader.init []) (by rfl)⟩

/-- C7 fails as stated on a reader state with an active cursor: in a build with
assertions `decode(1)` fails its entry assertion there and returns nothing. -/
theorem outof_one_active_cursor :
    ¬ ∀ r : BitReader, r.decode true 1 false = .ok (0, r) := by
  intro h
  have := h ((BitReader.init []).with_cursor [] (Frame.set 0 2 0 5))
  have e : ((BitReader.init []).with_cursor [] (Frame.set 0 2 0 5)).decode true 1 false =
      .error .assertion := by rfl
  rw [e] at this
  cases this

/-! ## C8: fixed-width read -/


theorem bits_value_append (a b : List Bool) :
    bits_value (a ++ b) = bits_value a + 2 ^ a.length * bits_value b := by
  induction a with
  | nil => simp [bits_value]
  | cons x a ih =>
    show (if x then 1 else 0) + 2 * bits_value (a ++ b) =
      (if x then 1 else 0) + 2 * bits_value a + 2 ^ (a.length + 1) * bits_value b
    rw [ih, Nat.pow_succ]; ring

theorem bits_value_lt (l : List Bool) : bits_value l < 2 ^ l.length := by
  induction l with
  | nil => simp [bits_value]
  | cons x l ih =>
    show (if x then 1 else 0) + 2 * bits_value l < 2 ^ (l.length + 1)
    rw [Nat.pow_succ]
    split <;> omega

theorem bits_value_testBits (x n : Nat) :
    bits_value ((List.range n).map fun i => x.testBit i) = x % 2 ^ n := by
  induction n with
  | zero => simp [bits_value, Nat.mod_one]
  | succ n ih =>
    rw [List.range_succ, List.map_append, bits_value_append, ih, List.length_map,
      List.length_range, Nat.pow_succ, Nat.mod_mul]
    congr 1
    show 2 ^ n * ((if x.testBit n then 1 else 0) + 2 * 0) = _
    rw [Nat.testBit_to_div_mod]
    have := Nat.mod_lt (x / 2 ^ n) (show 2 > 0 by norm_num)
    by_cases h : x / 2 ^ n % 2 = 1
    · simp [h]
    · have h0 : x / 2 ^ n % 2 = 0 := by omega
      simp [h0]

theorem bits_of_bytes_length (l : List Nat) : (bits_of_bytes l).length = 8 * l.length := by
  induction l with
  | nil => rfl
  | cons b l ih =>
    show (byte_bits b ++ bits_of_bytes l).length = 8 * (l.length + 1)
    rw [List.length_append, ih]
    unfold byte_bits
    rw [List.length_map, List.length_range]
    omega

theorem bits_of_bytes_value (l : List Nat) : bits_value (bits_of_bytes l) = bytes_value l := by
  induction l with
  | nil => rfl
  | cons b l ih =>
    show bits_value (byte_bits b ++ bits_of_bytes l) = b % 256 + 256 * bytes_value l
    rw [bits_value_append, ih]
    unfold byte_bits
    rw [bits_value_testBits, List.length_map, List.length_range]
    norm_num

theorem unread_bits_length (r : BitReader) : r.unread_bits.length = r.unread := by
  unfold BitReader.unread_bits BitReader.unread
  rw [List.length_append, List.length_map, List.length_range, bits_of_bytes_length,
    List.length_drop]

theorem unread_bits_value (r : BitReader) (h : r.acc < 2 ^ r.n_bits) :
    bits_value r.unread_bits = r.stream := by
  unfold BitReader.unread_bits BitReader.stream
  rw [bits_value_append, bits_value_testBits, List.length_map, List.length_range,
    bits_of_bytes_value, Nat.mod_eq_of_lt h]

theorem bits_value_take (c : Nat) : ∀ l : List Bool,
    bits_value (l.take c) = bits_value l % 2 ^ c := by
  induction c with
  | zero => intro l; simp [bits_value, Nat.mod_one]
  | succ c ih =>
    intro l
    cases l with
    | nil => simp [bits_value]
    | cons x l =>
      show (if x then 1 else 0) + 2 * bits_value (l.take c) =
        ((if x then 1 else 0) + 2 * bits_value l) % 2 ^ (c + 1)
      rw [ih, Nat.pow_succ, Nat.mul_comm (2 ^ c) 2, Nat.mod_mul]
      have hd : ((if x then 1 else 0) + 2 * bits_value l) / 2 = bits_value l := by
        split <;> omega
      have hm : ((if x then 1 else 0) + 2 * bits_value l) % 2 = (if x then 1 else 0) := by
        split <;> omega
      rw [hd, hm]

theorem bits_value_drop (c : Nat) : ∀ l : List Bool,
    bits_value (l.drop c) = bits_value l / 2 ^ c := by
  induction c with
  | zero => intro l; simp
  | succ c ih =>
    intro l
    cases l with
    | nil => simp [bits_value]
    | cons x l =>
      show bits_value (l.drop c) = ((if x then 1 else 0) + 2 * bits_value l) / 2 ^ (c + 1)
      have hd : ((if x then 1 else 0) + 2 * bits_value l) / 2 = bits_value l := by
        split <;> omega
      rw [ih, Nat.pow_succ, Nat.mul_comm (2 ^ c) 2, ← Nat.div_div_eq_div_mul, hd]

theorem bits_value_inj : ∀ a b : List Bool, a.length = b.length →
    bits_value a = bits_value b → a = b := by
  intro a
  induction a with
  | nil =>
    intro b hl _
    cases b with
    | nil => rfl
    | cons y b => simp at hl
  | cons x a ih =>
    intro b hl hv
    cases b with
    | nil => simp at hl
    | cons y b =>
      have hv' : (if x then 1 else 0) + 2 * bits_value a =
          (if y then 1 else 0) + 2 * bits_value b := hv
      have hl' : a.length = b.length := by simpa using hl
      have hxy : x = y := by
        cases x <;> cases y <;> simp at hv' <;> first | rfl | omega
      subst hxy
      have : bits_value a = bits_value b := by
        cases x <;> simp at hv' <;> omega
      rw [ih b hl' this]

theorem read_bits_ref_spec (dbg : Bool) (count : Nat) (r : BitReader) (hc : count ≤ 32)
    (hr : r.valid) (hun : count ≤ r.unread) :
    ∃ r', r.read_bits dbg count = .ok (ref_read_bits count r, r') ∧
      r'.unread_bits = r.unread_bits.drop count ∧ r'.unread + count = r.unread ∧
      r'.valid := by
  obtain ⟨r', e, adv⟩ := read_bits_spec dbg count r hc hr hun
  obtain ⟨hv, _, _, _, hs, hu⟩ := adv
  refine ⟨r', ?_, ?_, hu, hv⟩
  · rw [e]
    unfold ref_read_bits
    rw [bits_value_take, unread_bits_value r hr.2.1]
  · apply bits_value_inj
    · rw [unread_bits_length, List.length_drop, unread_bits_length]
      omega
    · rw [unread_bits_value r' hv.2.1, bits_value_drop, unread_bits_value r hr.2.1, hs]

/-- C8: for every `count` in `[0, 32]` and every valid reader state that holds at least
`count` unread bits, `read_bits(count)` returns the integer formed by the next `count`
bits of the stream, least significant bit first, and removes exactly these bits from the
unread bits; for `count > 25` this is the result of the two-step read. -/
theorem read_bits_reference (dbg : Bool) (count : Nat) (r : BitReader) (hc : count ≤ 32)
    (hr : r.valid) (hun : count ≤ r.unread) :
    ∃ r', r.read_bits dbg count = .ok (ref_read_bits count r, r') ∧
      r'.unread_bits = r.unread_bits.drop count ∧ r'.unread + count = r.unread ∧
      r'.valid :=
  read_bits_ref_spec dbg count r hc hr hun

/-- Witness of C8: a read of 28 bits, in two steps, from a reader that holds 3 bits in
its accumulator and four unread bytes. -/
theorem read_bits_reference_witness :
    28 ≤ 32 ∧ (BitReader.mk [255, 1, 2, 3, 4] 1 3 5 [] (Frame.set 0 0 0 0)).valid ∧
    28 ≤ (BitReader.mk [255, 1, 2, 3, 4] 1 3 5 [] (Frame.set 0 0 0 0)).unread ∧
    ∃ r', (BitReader.mk [255, 1, 2, 3, 4] 1 3 5 [] (Frame.set 0 0 0 0)).read_bits true 28 =
        .ok (ref_read_bits 28 (BitReader.mk [255, 1, 2, 3, 4] 1 3 5 [] (Frame.set 0 0 0 0)), r') ∧
      r'.unread_bits =
        (BitReader.mk [255, 1, 2, 3, 4] 1 3 5 [] (Frame.set 0 0 0 0)).unread_bits.drop 28 ∧
      r'.unread + 28 = (BitReader.mk [255, 1, 2, 3, 4] 1 3 5 [] (Frame.set 0 0 0 0)).unread ∧
      r'.valid :=
  ⟨by decide, ⟨by decide, by decide, by decide⟩, by decide,
    read_bits_reference true 28 _ (by decide) ⟨by decide, by decide, by decide⟩ (by decide)⟩

/-! ## C9: end of input -/


theorem assert_false (c : Bool) (h : c = false) : Assert true c = .error .assertion := by
  unfold Assert; simp [h]

/-- With assertions, the loop of `read_bits` stops at the end of the input. -/
theorem fill_acc_fault (count : Nat) (fuel : Nat) :
    ∀ r : BitReader, r.idx ≤ r.buf.length → r.unread < count → count ≤ r.n_bits + 8 * fuel →
      fill_acc fuel true count r = .error .assertion := by
  induction fuel with
  | zero =>
    intro r _ hun hf
    unfold BitReader.unread at hun
    omega
  | succ fuel ih =>
    intro r hidx hun hf
    have hlt : r.n_bits < count := by unfold BitReader.unread at hun; omega
    unfold fill_acc
    rw [if_pos hlt]
    by_cases hi : r.idx < r.buf.length
    · rw [assert_true true _ (by simp [hi]), ok_bind, List.getElem?_eq_getElem hi]
      dsimp only
      apply ih
      · dsimp only; omega
      · unfold BitReader.unread at hun ⊢; dsimp only; omega
      · dsimp only; omega
    · rw [assert_false _ (by simp [hi]), error_bind]

theorem read_bits_small_fault (count : Nat) (r : BitReader) (hidx : r.idx ≤ r.buf.length)
    (hun : r.unread < count) : read_bits_small true count r = .error .assertion := by
  unfold read_bits_small
  rw [fill_acc_fault count count r hidx hun (by omega), error_bind]

theorem read_bits_fault (count : Nat) (r : BitReader) (hc : count ≤ 32) (hr : r.valid)
    (hun : r.unread < count) : r.read_bits true count = .error .assertion := by
  unfold BitReader.read_bits
  by_cases h25 : count ≤ 25
  · rw [read_bits_fuel_small _ _ _ _ h25]
    exact read_bits_small_fault count r hr.2.2 hun
  · obtain ⟨n, hn⟩ : ∃ n, count = n + 1 := ⟨count - 1, by omega⟩
    rw [hn]
    unfold read_bits_fuel
    rw [← hn, if_pos (by omega), assert_true true _ (by simp [hc]), ok_bind]
    by_cases h16 : r.unread < 16
    · rw [read_bits_small_fault 16 r hr.2.2 h16, error_bind]
    · obtain ⟨r1, e1, adv1⟩ := read_bits_small_spec true 16 r (by omega) hr (by omega)
      rw [e1, ok_bind]
      dsimp only
      rw [read_bits_fuel_small _ _ _ _ (show count - 16 ≤ 25 by omega)]
      rw [read_bits_small_fault (count - 16) r1 adv1.1.2.2
        (by have := adv1.2.2.2.2.2; omega), error_bind]

theorem decode_fault (outof : Nat) (r : BitReader) (hr : r.valid) (hnc : r.no_cursor)
    (h1 : 1 ≤ outof) (h2 : outof ≤ 2147483648)
    (hun : r.unread < spec_decode_width outof r.stream) :
    r.decode true outof false = .error .assertion := by
  have hb31 : spec_bits outof ≤ 31 := spec_bits_le outof 31 h1 (by norm_num; exact h2)
  have hu : u32 outof = outof := by unfold u32; omega
  have hfls : my_fls (sub32 outof 1) = spec_bits outof := by
    have e : sub32 outof 1 = outof - 1 := by unfold sub32 u32; omega
    rw [e, my_fls_eq_size _ (by omega)]; rfl
  obtain ⟨hle, hge⟩ := spec_bits_bracket outof h1
  have hP := pow_le_pow_31 _ hb31
  have hshl : shl1_int (spec_bits outof) = .ok (2 ^ spec_bits outof) := by
    unfold shl1_int; rw [if_pos (by omega)]
  have hspare : sub32 (2 ^ spec_bits outof) outof = 2 ^ spec_bits outof - outof := by
    unfold sub32 u32; omega
  unfold BitReader.decode
  rw [no_cursor_assert true r hnc, ok_bind]
  dsimp only
  rw [hu, hfls, hshl, ok_bind, hspare]
  unfold spec_decode_width at hun
  unfold spec_mid_start spec_spare at hun
  by_cases hs : 2 ^ spec_bits outof - outof = 0
  · simp only [hs, ↓reduceIte, ne_eq, not_true_eq_false] at hun ⊢
    rw [read_bits_fault _ r (by omega) hr hun, error_bind]
  · have h2' : 2 ≤ outof := by
      by_contra hc
      have : outof = 1 := by omega
      subst this
      rw [spec_bits_one] at hs; simp at hs
    obtain ⟨hb1, hQ, hPQ⟩ := hge h2'
    simp only [hs, ↓reduceIte, ne_eq, not_false_eq_true] at hun ⊢
    have hms : sub64 outof (2 ^ spec_bits outof - outof) / 2 =
        (outof - (2 ^ spec_bits outof - outof)) / 2 := by
      unfold sub64 u64; omega
    rw [hms]
    by_cases hfirst : r.unread < spec_bits outof - 1
    · rw [read_bits_fault _ r (by omega) hr hfirst, error_bind]
    · obtain ⟨r1, e1, adv1⟩ := read_bits_spec true (spec_bits outof - 1) r (by omega) hr
        (by omega)
      rw [e1, ok_bind]
      dsimp only
      by_cases hlow : r.stream % 2 ^ (spec_bits outof - 1) <
          (outof - (2 ^ spec_bits outof - outof)) / 2
      · simp only [hlow, ↓reduceIte] at hun ⊢
        rw [read_bits_fault 1 r1 (by omega) adv1.1 (by have := adv1.2.2.2.2.2; omega),
          error_bind]
      · simp only [hlow, ↓reduceIte] at hun
        omega

/-- C9, amended: in a build with assertions, for every `count` in `[0, 32]` and every
valid reader state, `read_bits(count)` faults if and only if the reader holds fewer than
`count` unread bits, and a value it returns is the reference value of the next `count`
bits, with `idx` within the input; and `decode(outof)`, for `1 ≤ outof ≤ 2^31` on a
reader with no active cursor, faults if and only if the reader holds fewer unread bits
than the code at the head of the stream needs. -/
theorem read_bits_end_of_input (count outof : Nat) (r : BitReader) (hc : count ≤ 32)
    (hr : r.valid) (h1 : 1 ≤ outof) (h2 : outof ≤ 2 ^ 31) (hnc : r.no_cursor) :
    ((∃ e, r.read_bits true count = .error e) ↔ r.unread < count) ∧
    (∀ v r', r.read_bits true count = .ok (v, r') →
      v = ref_read_bits count r ∧ r'.idx ≤ r'.buf.length) ∧
    ((∃ e, r.decode true outof false = .error e) ↔
      r.unread < spec_decode_width outof r.stream) := by
  have h2' : outof ≤ 2147483648 := by norm_num at h2; exact h2
  refine ⟨⟨?_, ?_⟩, ?_, ⟨?_, ?_⟩⟩
  · rintro ⟨e, he⟩
    by_contra hge
    obtain ⟨r', e', _⟩ := read_bits_spec true count r hc hr (by omega)
    rw [e'] at he
    cases he
  · intro hlt
    exact ⟨_, read_bits_fault count r hc hr hlt⟩
  · intro v r' he
    by_cases hlt : r.unread < count
    · rw [read_bits_fault count r hc hr hlt] at he
      cases he
    · obtain ⟨r'', e', _, _, hv⟩ := read_bits_ref_spec true count r hc hr (by omega)
      rw [e'] at he
      cases he
      exact ⟨rfl, hv.2.2⟩
  · rintro ⟨e, he⟩
    by_contra hge
    obtain ⟨r', e', _⟩ := decode_spec true outof false r hr (no_cursor_assert true r hnc)
      h1 h2' (by omega)
    rw [e'] at he
    cases he
  · intro hlt
    exact ⟨_, decode_fault outof r hr hnc h1 h2' hlt⟩

/-- Witness of C9: a read of 12 bits and `decode(7)` on a fresh reader with one byte. -/
theorem read_bits_end_of_input_witness :
    12 ≤ 32 ∧ (BitReader.init [3]).valid ∧ 1 ≤ 7 ∧ 7 ≤ 2 ^ 31 ∧ (BitReader.init [3]).no_cursor ∧
    ((∃ e, (BitReader.init [3]).read_bits true 12 = .error e) ↔
      (BitReader.init [3]).unread < 12) ∧
    (∀ v r', (BitReader.init [3]).read_bits true 12 = .ok (v, r') →
      v = ref_read_bits 12 (BitReader.init [3]) ∧ r'.idx ≤ r'.buf.length) ∧
    ((∃ e, (BitReader.init [3]).decode true 7 false = .error e) ↔
      (BitReader.init [3]).unread < spec_decode_width 7 (BitReader.init [3]).stream) :=
  ⟨by decide, ⟨by decide, by decide, by decide⟩, by decide, by decide, by rfl,
    read_bits_end_of_input 12 7 (BitReader.init [3]) (by decide)
      ⟨by decide, by decide, by decide⟩ (by decide) (by decide) (by rfl)⟩

/-- C9 fails as stated for `count = 33`: `read_bits(33)` faults on the assertion
`count <= 32` although the reader holds 40 unread bits. -/
theorem read_bits_count_33 :
    (BitReader.init [1, 2, 3, 4, 5]).read_bits true 33 = .error .assertion ∧
    ¬ (BitReader.init [1, 2, 3, 4, 5]).unread < 33 := by
  constructor
  · rfl
  · decide

/-! ## C10: the entry check of `decode`; vectors -/


theorem forced_decode_faults (outof : Nat) (r : BitReader) :
    r.decode true outof true = .error .assertion := by
  unfold BitReader.decode
  rw [assert_false _ (by simp), error_bind]

/-- C10, the behaviour of the code: in a build with assertions the entry check of
`decode(outof, force)` fails whenever `force` is true, on every reader state, with or
without an active cursor. -/
theorem decode_entry_check (outof : Nat) (r : BitReader) :
    r.decode true outof true = .error .assertion :=
  forced_decode_faults outof r

theorem vec_at_ok (l : List Nat) (i : Nat) (h : i < l.length) :
    vec_at l i = .ok (l.getD i 0) := by
  unfold vec_at
  rw [List.getD_eq_getElem?_getD, List.getElem?_eq_getElem h]
  rfl

theorem getD_set_eq (l : List Nat) (i v : Nat) (h : i < l.length) :
    (l.set i v).getD i 0 = v := by
  rw [List.getD_eq_getElem?_getD, List.getElem?_set_self h]
  rfl

theorem getD_set_ne (l : List Nat) (i j v : Nat) (h : i ≠ j) :
    (l.set i v).getD j 0 = l.getD j 0 := by
  rw [List.getD_eq_getElem?_getD, List.getD_eq_getElem?_getD, List.getElem?_set_ne h]

/-- In a strictly increasing sequence two entries are at least as far apart as their
indices. -/
theorem increasing_gap (S : List Nat)
    (hinc : ∀ a b, a < b → b < S.length → S.getD a 0 < S.getD b 0) (a d : Nat) :
    a + d < S.length → S.getD a 0 + d ≤ S.getD (a + d) 0 := by
  induction d with
  | zero => intro _; exact Nat.le_refl _
  | succ d ih =>
    intro h
    have h1 := ih (by omega)
    have h2 := hinc (a + d) (a + (d + 1)) (by omega) h
    omega

/-- The arguments that the interpolative coder passes to `encode` and `decode`, without
wrap-around. -/
theorem interp_args (pj pm pk j mid k : Nat) (hjm : j < mid) (hmk : mid < k)
    (h1 : pj + (mid - j) ≤ pm) (h2 : pm + (k - mid) ≤ pk) (h32 : pk < 4294967296)
    (hk : k < 4294967296) :
    interp_outof pj pk j k = pk - pj - (k - j) + 1 ∧
    sub64 pm (sub64 (add64 pj mid) j) = pm - pj - (mid - j) ∧
    pm - pj - (mid - j) < pk - pj - (k - j) + 1 ∧
    u32 (add64 (pm - pj - (mid - j)) (sub64 (add64 pj mid) j)) = pm ∧
    add32 (pm - pj - (mid - j)) (sub32 (add32 pj mid) j) = pm := by
  unfold interp_outof add32 sub32 sub64 add64 u32 u64
  refine ⟨by omega, by omega, by omega, by omega, by omega⟩

/-! ## Interpolative coding: the recursive coder and decoder -/


/-- On a strictly increasing sequence of 32-bit values whose span is small enough,
`encode_interpolative` returns and only appends to the stream. -/
theorem encode_interpolative_loop_ok (dbg : Bool) (S : List Nat)
    (h32 : ∀ i, i < S.length → S.getD i 0 < 4294967296)
    (hinc : ∀ a b, a < b → b < S.length → S.getD a 0 < S.getD b 0) (fuel : Nat) :
    ∀ (j k : Nat) (w : BitWriter), k - j ≤ fuel → k < S.length →
      S.getD k 0 - S.getD j 0 - (k - j) + 1 ≤ 1073741824 → w.wf →
      ∃ w', encode_interpolative_loop fuel dbg S j k w = .ok w' ∧ w.grows_to w' := by
  induction fuel with
  | zero =>
    intro j k w _ _ _ hw
    exact ⟨w, rfl, grows_to_refl w hw⟩
  | succ fuel ih =>
    intro j k w hf hk hspan hw
    unfold encode_interpolative_loop
    by_cases hjk : j + 1 < k
    · rw [if_pos hjk]
      have hjm : j < (j + k) / 2 := by omega
      have hmk : (j + k) / 2 < k := by omega
      have g1 := increasing_gap S hinc j ((j + k) / 2 - j) (by omega)
      have g2 := increasing_gap S hinc ((j + k) / 2) (k - (j + k) / 2) (by omega)
      have g0 := increasing_gap S hinc 0 k (by omega)
      rw [Nat.add_sub_cancel' (by omega)] at g1 g2
      rw [Nat.zero_add] at g0
      have hk32 := h32 k hk
      obtain ⟨a1, a2, a3, _, _⟩ := interp_args (S.getD j 0) (S.getD ((j + k) / 2) 0)
        (S.getD k 0) j ((j + k) / 2) k hjm hmk g1 g2 hk32 (by omega)
      rw [vec_at_ok S k hk, ok_bind, vec_at_ok S j (by omega), ok_bind,
        vec_at_ok S ((j + k) / 2) (by omega), ok_bind]
      rw [a1, a2]
      obtain ⟨w1, e1, hw1, hs1, hl1⟩ := encode_spec dbg _ _ w hw (by omega) hspan a3
      rw [e1, ok_bind]
      obtain ⟨w2, e2, hg2⟩ := ih j ((j + k) / 2) w1 (by omega) (by omega) (by omega) hw1
      rw [e2, ok_bind]
      obtain ⟨w3, e3, hg3⟩ := ih ((j + k) / 2) k w2 (by omega) hk (by omega) hg2.1
      refine ⟨w3, e3, ?_⟩
      exact grows_to_trans _ _ _ (encode_grows w w1 _ _ hw hw1 hs1 hl1)
        (grows_to_trans _ _ _ hg2 hg3)
    · rw [if_neg hjk]
      exact ⟨w, rfl, grows_to_refl w hw⟩

/-- The recursive decoder reads back what `encode_interpolative` wrote: it restores the
entries of the sequence between `j` and `k` and ends behind the codes. -/
theorem recursive_round_trip_loop (dbg : Bool) (S : List Nat)
    (h32 : ∀ i, i < S.length → S.getD i 0 < 4294967296)
    (hinc : ∀ a b, a < b → b < S.length → S.getD a 0 < S.getD b 0) (fuel : Nat) :
    ∀ (j k : Nat) (w w' : BitWriter) (P : List Nat) (r : BitReader),
      k - j ≤ fuel → j ≤ k → k < S.length →
      S.getD k 0 - S.getD j 0 - (k - j) + 1 ≤ 1073741824 → w.wf →
      P.length = S.length → P.getD j 0 = S.getD j 0 → P.getD k 0 = S.getD k 0 →
      encode_interpolative_loop fuel dbg S j k w = .ok w' →
      w'.written_in r.buf → r.at_pos w.bit_len → r.no_cursor →
      ∃ P' r', decode_interpolative_loop fuel dbg P j k r = .ok (P', r') ∧
        r'.at_pos w'.bit_len ∧ r'.buf = r.buf ∧ r'.di_stack = r.di_stack ∧
        r'.di_current = r.di_current ∧ P'.length = P.length ∧
        (∀ i, j ≤ i → i ≤ k → P'.getD i 0 = S.getD i 0) ∧
        (∀ i, i < j ∨ k < i → P'.getD i 0 = P.getD i 0) := by
  induction fuel with
  | zero =>
    intro j k w w' P r hf hjk _ _ _ _ hPj _ he _ hr _
    cases he
    refine ⟨P, r, rfl, hr, rfl, rfl, rfl, rfl, ?_, fun _ _ => rfl⟩
    intro i h1 h2
    have : i = j := by omega
    rw [this]; exact hPj
  | succ fuel ih =>
    intro j k w w' P r hf hjk' hk hspan hw hlen hPj hPk he hb hr hnc
    unfold decode_interpolative_loop
    unfold encode_interpolative_loop at he
    by_cases hjk : j + 1 < k
    · rw [if_pos hjk] at he ⊢
      have hjm : j < (j + k) / 2 := by omega
      have hmk : (j + k) / 2 < k := by omega
      have g1 := increasing_gap S hinc j ((j + k) / 2 - j) (by omega)
      have g2 := increasing_gap S hinc ((j + k) / 2) (k - (j + k) / 2) (by omega)
      have g0 := increasing_gap S hinc 0 k (by omega)
      rw [Nat.add_sub_cancel' (by omega)] at g1 g2
      rw [Nat.zero_add] at g0
      have hk32 := h32 k hk
      obtain ⟨a1, a2, a3, a4, _⟩ := interp_args (S.getD j 0) (S.getD ((j + k) / 2) 0)
        (S.getD k 0) j ((j + k) / 2) k hjm hmk g1 g2 hk32 (by omega)
      rw [vec_at_ok S k hk, ok_bind, vec_at_ok S j (by omega), ok_bind,
        vec_at_ok S ((j + k) / 2) (by omega), ok_bind] at he
      rw [a1, a2] at he
      obtain ⟨w1, e1, hw1, hs1, hl1⟩ := encode_spec dbg _ _ w hw (by omega) hspan a3
      rw [e1, ok_bind] at he
      obtain ⟨w2, e2, hg2⟩ := encode_interpolative_loop_ok dbg S h32 hinc fuel j ((j + k) / 2)
        w1 (by omega) (by omega) (by omega) hw1
      rw [e2, ok_bind] at he
      obtain ⟨w3, e3, hg3⟩ := encode_interpolative_loop_ok dbg S h32 hinc fuel ((j + k) / 2) k
        w2 (by omega) hk (by omega) hg2.1
      have hw3 : w3 = w' := by rw [e3] at he; cases he; rfl
      subst hw3
      have hb2 : w2.written_in r.buf := written_in_of_grows _ _ _ hg3 hb
      have hb1 : w1.written_in r.buf := written_in_of_grows _ _ _ hg2 hb2
      rw [vec_at_ok P k (by omega), ok_bind, vec_at_ok P j (by omega), ok_bind, hPj, hPk]
      dsimp only
      rw [a1]
      obtain ⟨r1, d1, hr1, hbuf1, hst1, hcur1⟩ := round_trip_step dbg _ _ false w w1 r hw
        (by omega) hspan a3 e1 hb1 hr (no_cursor_assert dbg r hnc)
      rw [d1, ok_bind]
      dsimp only
      rw [a4, if_pos (by omega)]
      have hnc1 : r1.no_cursor := by unfold BitReader.no_cursor at hnc ⊢; rw [hcur1]; exact hnc
      have hassert : Assert dbg (!r1.di_current.is_initialized) = .ok () := by
        have := no_cursor_assert dbg r1 hnc1
        simpa using this
      rw [hassert, ok_bind]
      obtain ⟨P2, r2, d2, hr2, hbuf2, hst2, hcur2, hlen2, hin2, hout2⟩ :=
        ih j ((j + k) / 2) w1 w2 (P.set ((j + k) / 2) (S.getD ((j + k) / 2) 0)) r1
          (by omega) (by omega) (by omega) (by omega) hw1
          (by rw [List.length_set]; exact hlen)
          (by rw [getD_set_ne _ _ _ _ (by omega)]; exact hPj)
          (by rw [getD_set_eq _ _ _ (by omega)])
          e2 (by rw [hbuf1]; exact hb2) hr1 hnc1
      rw [d2, ok_bind]
      dsimp only
      have hnc2 : r2.no_cursor := by
        unfold BitReader.no_cursor at hnc1 ⊢; rw [hcur2]; exact hnc1
      obtain ⟨P3, r3, d3, hr3, hbuf3, hst3, hcur3, hlen3, hin3, hout3⟩ :=
        ih ((j + k) / 2) k w2 w3 P2 r2 (by omega) (by omega) hk (by omega) hg2.1
          (by rw [hlen2, List.length_set]; exact hlen)
          (hin2 _ (by omega) (Nat.le_refl _))
          (by rw [hout2 k (Or.inr hmk), getD_set_ne _ _ _ _ (by omega)]; exact hPk)
          e3 (by rw [hbuf2, hbuf1]; exact hb) hr2 hnc2
      refine ⟨P3, r3, d3, hr3, by rw [hbuf3, hbuf2, hbuf1], by rw [hst3, hst2, hst1],
        by rw [hcur3, hcur2, hcur1], by rw [hlen3, hlen2, List.length_set], ?_, ?_⟩
      · intro i hi1 hi2
        by_cases hi : (j + k) / 2 ≤ i
        · exact hin3 i hi hi2
        · rw [hout3 i (Or.inl (by omega))]
          exact hin2 i hi1 (by omega)
      · intro i hi
        rw [hout3 i (by omega), hout2 i (by omega), getD_set_ne _ _ _ _ (by omega)]
    · rw [if_neg hjk] at he ⊢
      cases he
      refine ⟨P, r, rfl, hr, rfl, rfl, rfl, rfl, ?_, fun _ _ => rfl⟩
      intro i h1 h2
      by_cases hij : i = j
      · rw [hij]; exact hPj
      · have : i = k := by omega
        rw [this]; exact hPk

/-! ## C2: sequence round trip -/


theorem init_at_pos (buf : List Nat) : (BitReader.init buf).at_pos 0 := by
  refine ⟨⟨show 0 < 8 by decide, show 0 < 2 ^ 0 by decide, Nat.zero_le _⟩, ?_, ?_⟩
  · show 0 + 8 * (buf.length - 0) + 0 = 8 * buf.length
    omega
  · show 0 + 2 ^ 0 * bytes_value (buf.drop 0) = bytes_value buf / 2 ^ 0
    simp

theorem list_eq_of_getD (a b : List Nat) (hl : a.length = b.length)
    (h : ∀ i, i < a.length → a.getD i 0 = b.getD i 0) : a = b := by
  apply List.ext_getElem hl
  intro i h1 h2
  have := h i h1
  rwa [List.getD_eq_getElem _ _ h1, List.getD_eq_getElem _ _ h2] at this

theorem pairwise_getD (S : List Nat) (h : S.Pairwise (· < ·)) :
    ∀ a b, a < b → b < S.length → S.getD a 0 < S.getD b 0 := by
  intro a b hab hb
  rw [List.getD_eq_getElem _ _ (by omega : a < S.length), List.getD_eq_getElem _ _ hb]
  exact List.pairwise_iff_getElem.mp h a b (by omega) hb hab

theorem forall_mem_getD (S : List Nat) (h : ∀ x ∈ S, x < 2 ^ 32) :
    ∀ i, i < S.length → S.getD i 0 < 4294967296 := by
  intro i hi
  rw [List.getD_eq_getElem _ _ hi]
  have := h S[i] (List.getElem_mem hi)
  norm_num at this
  exact this

/-- The part of C2 that the code meets: for every strictly increasing sequence `S` of `n ≥ 2` values of type
`termpos` (below `2^32`) whose top-level range `S[n-1] - S[0] - (n-1) + 1` is at most
`2^30`, `encode_interpolative(S, 0, n-1)` on a fresh writer returns, and the recursive
`decode_interpolative(S', 0, n-1)` on a fresh reader of the flushed buffer, for every
`S'` of the same length with the same first and last entry, returns with `S'` equal to
`S`, so `S'[i] = S[i]` at every interior index. -/
theorem interpolative_round_trip (dbg : Bool) (S S' : List Nat) (hn : 2 ≤ S.length)
    (h32 : ∀ x ∈ S, x < 2 ^ 32) (hinc : S.Pairwise (· < ·))
    (hspan : S.getD (S.length - 1) 0 - S.getD 0 0 - (S.length - 1) + 1 ≤ 2 ^ 30)
    (hlen : S'.length = S.length) (hfirst : S'.getD 0 0 = S.getD 0 0)
    (hlast : S'.getD (S.length - 1) 0 = S.getD (S.length - 1) 0) :
    ∃ w, BitWriter.init.encode_interpolative dbg S 0 (S.length - 1) = .ok w ∧
      ∃ r, (BitReader.init w.freeze).decode_interpolative dbg S' 0 (S.length - 1) =
        .ok (S, r) := by
  have h32' := forall_mem_getD S h32
  have hinc' := pairwise_getD S hinc
  have hspan' : S.getD (S.length - 1) 0 - S.getD 0 0 - (S.length - 1 - 0) + 1 ≤ 1073741824 := by
    norm_num at hspan; simpa using hspan
  have hw0 : BitWriter.init.wf := ⟨by decide, by decide⟩
  obtain ⟨w, e, hg⟩ := encode_interpolative_loop_ok dbg S h32' hinc' (S.length - 1 - 0) 0
    (S.length - 1) BitWriter.init (Nat.le_refl _) (by omega) hspan' hw0
  refine ⟨w, e, ?_⟩
  have hnc : (BitReader.init w.freeze).no_cursor := by rfl
  obtain ⟨P, r, d, _, _, _, _, hl, hin, _⟩ := recursive_round_trip_loop dbg S h32' hinc'
    (S.length - 1 - 0) 0 (S.length - 1) BitWriter.init w S' (BitReader.init w.freeze)
    (Nat.le_refl _) (Nat.zero_le _) (by omega) hspan' hw0 hlen hfirst hlast e
    (freeze_written w hg.1) (init_at_pos _) hnc
  refine ⟨r, ?_⟩
  unfold BitReader.decode_interpolative
  have hassert : Assert dbg (!(BitReader.init w.freeze).di_current.is_initialized) = .ok () :=
    assert_true dbg _ rfl
  rw [hassert, ok_bind, d]
  have hPS : P = S := by
    apply list_eq_of_getD
    · rw [hl, hlen]
    · intro i hi
      exact hin i (Nat.zero_le _) (by rw [hl, hlen] at hi; omega)
  rw [hPS]

/-- An instance of the sequence round trip: a sequence of five positions with the end points 10 and 20. -/
theorem interpolative_round_trip_witness :
    2 ≤ [10, 12, 13, 17, 20].length ∧ (∀ x ∈ [10, 12, 13, 17, 20], x < 2 ^ 32) ∧
    [10, 12, 13, 17, 20].Pairwise (· < ·) ∧
    ∃ w, BitWriter.init.encode_interpolative true [10, 12, 13, 17, 20] 0
        ([10, 12, 13, 17, 20].length - 1) = .ok w ∧
      ∃ r, (BitReader.init w.freeze).decode_interpolative true [10, 0, 0, 0, 20] 0
        ([10, 12, 13, 17, 20].length - 1) = .ok ([10, 12, 13, 17, 20], r) :=
  ⟨by decide, by decide, by decide,
    interpolative_round_trip true [10, 12, 13, 17, 20] [10, 0, 0, 0, 20] (by decide)
      (by decide) (by decide) (by decide) (by decide) (by decide) (by decide)⟩

/-- The sequence round trip fails for sequences with a large range.  With `S = [0, 1, 2^31 + 5]`
the range is `2^31 + 4`, the width is 32 and `encode_interpolative` has no defined
result.  With `S = [0, 6, 9, 2^30 + 3]` the range is `2^30 + 1`: the first code has 31
bits of which the decoder consumes 30, and the recursive decoder stores 11, not 9, at
index 2. -/
theorem interpolative_round_trip_large_range :
    (¬ ∃ w, BitWriter.init.encode_interpolative true [0, 1, 2147483653] 0 2 = .ok w) ∧
    ¬ ∃ w, BitWriter.init.encode_interpolative true [0, 6, 9, 1073741827] 0 3 = .ok w ∧
      ∃ r, (BitReader.init w.freeze).decode_interpolative true [0, 0, 0, 1073741827] 0 3 =
        .ok ([0, 6, 9, 1073741827], r) := by
  constructor
  · rintro ⟨w, h⟩
    have e : BitWriter.init.encode_interpolative true [0, 1, 2147483653] 0 2 =
        .error .undefined := by rfl
    rw [e] at h
    cases h
  · rintro ⟨w, he, r, hd⟩
    have e : BitWriter.init.encode_interpolative true [0, 6, 9, 1073741827] 0 3 =
        .ok ⟨[5, 0, 0, 0, 1, 0, 0], 5, 0⟩ := by rfl
    rw [e] at he
    cases he
    have e2 : (BitReader.init (BitWriter.mk [5, 0, 0, 0, 1, 0, 0] 5 0).freeze).decode_interpolative
        true [0, 0, 0, 1073741827] 0 3 =
        .ok ([0, 6, 11, 1073741827], ⟨[5, 0, 0, 0, 1, 0, 0, 0], 8, 4, 0, [], Frame.set 0 0 0 0⟩) := by
      rfl
    rw [e2] at hd
    cases hd

/-! ## The incremental decoder -/


theorem map_ok {ε α β : Type} (f : α → β) (a : α) :
    Except.map f (Except.ok a : Except ε α) = Except.ok (f a) := rfl

theorem map_error {ε α β : Type} (f : α → β) (e : ε) :
    Except.map f (Except.error e : Except ε α) = Except.error e := rfl

/-- The loop of `read_bits` neither reads nor changes the cursor. -/
theorem fill_acc_with_cursor (dbg : Bool) (count : Nat) (s : List Frame) (c : Frame)
    (fuel : Nat) : ∀ r : BitReader,
    fill_acc fuel dbg count (r.with_cursor s c) =
      (fill_acc fuel dbg count r).map fun r' => r'.with_cursor s c := by
  induction fuel with
  | zero => intro r; rfl
  | succ fuel ih =>
    intro r
    unfold fill_acc
    show (if r.n_bits < count then _ else _) = _
    by_cases hlt : r.n_bits < count
    · rw [if_pos hlt, if_pos hlt]
      show (Assert dbg (decide (r.idx < r.buf.length)) >>= fun _ =>
        match r.buf[r.idx]? with
        | none => Except.error Fault.undefined
        | some b => fill_acc fuel dbg count _) = _
      cases hA : Assert dbg (decide (r.idx < r.buf.length)) with
      | error e => rfl
      | ok u =>
        rw [ok_bind, ok_bind]
        cases hb : r.buf[r.idx]? with
        | none => rfl
        | some b =>
          exact ih { r with acc := u32 (r.acc ||| u32 ((b % 256) <<< r.n_bits)),
                            idx := r.idx + 1, n_bits := r.n_bits + 8 }
    · rw [if_neg hlt, if_neg hlt]
      rfl

theorem read_bits_small_with_cursor (dbg : Bool) (count : Nat) (s : List Frame) (c : Frame)
    (r : BitReader) :
    read_bits_small dbg count (r.with_cursor s c) =
      (read_bits_small dbg count r).map fun x => (x.1, x.2.with_cursor s c) := by
  unfold read_bits_small
  rw [fill_acc_with_cursor]
  cases fill_acc count dbg count r with
  | error e => rfl
  | ok r1 => rfl

theorem read_bits_fuel_with_cursor (dbg : Bool) (s : List Frame) (c : Frame) (fuel : Nat) :
    ∀ (count : Nat) (r : BitReader),
    read_bits_fuel fuel dbg count (r.with_cursor s c) =
      (read_bits_fuel fuel dbg count r).map fun x => (x.1, x.2.with_cursor s c) := by
  induction fuel with
  | zero => intro count r; exact read_bits_small_with_cursor dbg count s c r
  | succ fuel ih =>
    intro count r
    unfold read_bits_fuel
    by_cases h : count > 25
    · rw [if_pos h, if_pos h]
      cases Assert dbg (decide (count ≤ 32)) with
      | error e => rfl
      | ok u =>
        rw [ok_bind, ok_bind, read_bits_small_with_cursor]
        cases read_bits_small dbg 16 r with
        | error e => rfl
        | ok x =>
          rw [map_ok, ok_bind, ok_bind]
          dsimp only
          rw [ih]
          cases read_bits_fuel fuel dbg (count - 16) x.2 with
          | error e => rfl
          | ok y => rfl
    · rw [if_neg h, if_neg h]
      exact read_bits_small_with_cursor dbg count s c r

theorem read_bits_with_cursor (dbg : Bool) (count : Nat) (s : List Frame) (c : Frame)
    (r : BitReader) :
    (r.with_cursor s c).read_bits dbg count =
      (r.read_bits dbg count).map fun x => (x.1, x.2.with_cursor s c) :=
  read_bits_fuel_with_cursor dbg s c count count r

/-- Without assertions `decode` neither reads nor changes the cursor, and `force` has no
effect. -/
theorem decode_with_cursor (outof : Nat) (f1 f2 : Bool) (s : List Frame) (c : Frame)
    (r : BitReader) :
    (r.with_cursor s c).decode false outof f1 =
      (r.decode false outof f2).map fun x => (x.1, x.2.with_cursor s c) := by
  unfold BitReader.decode
  rw [assert_release, assert_release, ok_bind, ok_bind]
  dsimp only
  cases shl1_int (my_fls (sub32 (u32 outof) 1)) with
  | error e => rfl
  | ok one =>
    rw [ok_bind, ok_bind]
    by_cases hs : sub32 one (u32 outof) ≠ 0
    · rw [if_pos hs, if_pos hs, read_bits_with_cursor]
      cases r.read_bits false (my_fls (sub32 (u32 outof) 1) - 1) with
      | error e => rfl
      | ok x =>
        rw [map_ok, ok_bind, ok_bind]
        dsimp only
        by_cases hp : x.1 < sub64 (u32 outof) (sub32 one (u32 outof)) / 2
        · rw [if_pos hp, if_pos hp, read_bits_with_cursor]
          cases x.2.read_bits false 1 with
          | error e => rfl
          | ok y => rfl
        · rw [if_neg hp, if_neg hp]
          rfl
    · rw [if_neg hs, if_neg hs, read_bits_with_cursor]
      cases r.read_bits false (my_fls (sub32 (u32 outof) 1)) with
      | error e => rfl
      | ok x => rfl

theorem bind_eq_ok {ε α β : Type} (x : Except ε α) (f : α → Except ε β) (b : β)
    (h : (x >>= f) = .ok b) : ∃ a, x = .ok a ∧ f a = .ok b := by
  cases x with
  | error e => cases h
  | ok a => exact ⟨a, rfl, h⟩

/-- The vector that the recursive decoder leaves holds, between `j` and `k`, the values
of `interp_values`, and is unchanged elsewhere. -/
theorem decode_interpolative_loop_values (dbg : Bool) (fuel : Nat) :
    ∀ (j k : Nat) (P : List Nat) (r : BitReader) (P' : List Nat) (r' : BitReader),
      k - j ≤ fuel → k < P.length →
      decode_interpolative_loop fuel dbg P j k r = .ok (P', r') →
      ∃ vals, interp_values fuel dbg j k (P.getD j 0) (P.getD k 0) r = .ok (vals, r') ∧
        vals.length = k - j - 1 ∧ P'.length = P.length ∧
        (∀ i, i < k - j - 1 → P'.getD (j + 1 + i) 0 = vals.getD i 0) ∧
        (∀ i, i ≤ j ∨ k ≤ i → P'.getD i 0 = P.getD i 0) := by
  induction fuel with
  | zero =>
    intro j k P r P' r' hf _ h
    cases h
    exact ⟨[], rfl, by simp; omega, rfl, fun i hi => by omega, fun _ _ => rfl⟩
  | succ fuel ih =>
    intro j k P r P' r' hf hk h
    unfold decode_interpolative_loop at h
    unfold interp_values
    by_cases hjk : j + 1 < k
    · rw [if_pos hjk] at h ⊢
      have hjm : j < (j + k) / 2 := by omega
      have hmk : (j + k) / 2 < k := by omega
      rw [vec_at_ok P k hk, ok_bind, vec_at_ok P j (by omega), ok_bind] at h
      obtain ⟨⟨p, r1⟩, e1, h1⟩ := bind_eq_ok _ _ _ h
      clear h
      dsimp only at h1
      rw [if_pos (by omega)] at h1
      obtain ⟨_, _, h2⟩ := bind_eq_ok _ _ _ h1
      clear h1
      obtain ⟨⟨P2, r2⟩, e2, h⟩ := bind_eq_ok _ _ _ h2
      clear h2
      dsimp only at h
      rw [e1, ok_bind]
      dsimp only
      generalize hpm : u32 (add64 p (sub64 (add64 (P.getD j 0) ((j + k) / 2)) j)) = pm at *
      obtain ⟨vl, el, hll, hl2, hil, hol⟩ := ih j ((j + k) / 2) _ r1 P2 r2 (by omega)
        (by rw [List.length_set]; omega) e2
      rw [getD_set_ne _ _ _ _ (by omega), getD_set_eq _ _ _ (by omega)] at el
      rw [List.length_set] at hl2
      have hP2m : P2.getD ((j + k) / 2) 0 = pm := by
        rw [hol _ (Or.inr (Nat.le_refl _)), getD_set_eq _ _ _ (by omega)]
      have hP2k : P2.getD k 0 = P.getD k 0 := by
        rw [hol _ (Or.inr (by omega)), getD_set_ne _ _ _ _ (by omega)]
      obtain ⟨vr, er, hlr, hr2, hir, hor⟩ := ih ((j + k) / 2) k P2 r2 P' r' (by omega)
        (by omega) h
      rw [hP2m, hP2k] at er
      rw [el, ok_bind]
      dsimp only
      rw [er, ok_bind]
      refine ⟨_, rfl, ?_, by rw [hr2, hl2], ?_, ?_⟩
      · rw [List.length_append, List.length_cons, hll, hlr]; omega
      · intro i hi
        by_cases c1 : i < (j + k) / 2 - j - 1
        · rw [List.getD_append _ _ _ _ (by omega), hor _ (Or.inl (by omega)), hil i c1]
        · rw [List.getD_append_right _ _ _ _ (by omega), hll]
          by_cases c2 : i = (j + k) / 2 - j - 1
          · have e0 : i - ((j + k) / 2 - j - 1) = 0 := by omega
            have e3 : j + 1 + i = (j + k) / 2 := by omega
            rw [e0, e3, List.getD_cons_zero, hor _ (Or.inl (Nat.le_refl _)), hP2m]
          · obtain ⟨t, ht⟩ : ∃ t, i - ((j + k) / 2 - j - 1) = t + 1 :=
              ⟨i - ((j + k) / 2 - j - 1) - 1, by omega⟩
            rw [ht, List.getD_cons_succ]
            have e3 : j + 1 + i = (j + k) / 2 + 1 + t := by omega
            rw [e3]
            exact hir t (by omega)
      · intro i hi
        rw [hor i (by omega), hol i (by omega), getD_set_ne _ _ _ _ (by omega)]
    · rw [if_neg hjk] at h ⊢
      cases h
      exact ⟨[], rfl, by simp; omega, rfl, fun i hi => by omega, fun _ _ => rfl⟩

/-- More fuel than the span of the current frame does not change the loop of
`decode_interpolative_next`. -/
theorem next_loop_fuel (dbg : Bool) (f : Nat) : ∀ (f' : Nat) (r : BitReader),
    r.di_current.k - r.di_current.j < f → r.di_current.k - r.di_current.j < f' →
    next_loop f dbg r = next_loop f' dbg r := by
  induction f with
  | zero => intro f' r h _; omega
  | succ f ih =>
    intro f' r h h'
    obtain ⟨g, hg⟩ : ∃ g, f' = g + 1 := ⟨f' - 1, by omega⟩
    subst hg
    unfold next_loop
    by_cases hc : (!r.di_stack.isEmpty || r.di_current.is_next) = true
    · rw [if_pos hc, if_pos hc]
      by_cases hn : r.di_current.is_next = true
      · rw [if_pos hn, if_pos hn]
        dsimp only
        cases hd : BitReader.decode dbg
            (interp_outof r.di_current.pos_j r.di_current.pos_k r.di_current.j r.di_current.k)
            true { r with di_stack := r.di_stack ++ [r.di_current] } with
        | error e => rfl
        | ok x =>
          rw [ok_bind, ok_bind]
          have hspan : r.di_current.k - r.di_current.j > 1 := by
            unfold Frame.is_next at hn; simpa using hn
          apply ih
          · show (r.di_current.j + r.di_current.k) / 2 - r.di_current.j < f
            omega
          · show (r.di_current.j + r.di_current.k) / 2 - r.di_current.j < g
            omega
      · rw [if_neg hn, if_neg hn]
    · rw [if_neg hc, if_neg hc]

theorem frame_set_eq (j k pj pk : Nat) (h1 : pj < 4294967296) (h2 : pk < 4294967296) :
    Frame.set j k pj pk = ⟨j, k, pj, pk⟩ := by
  unfold Frame.set u32
  rw [Nat.mod_eq_of_lt h1, Nat.mod_eq_of_lt h2]

theorem next_loop_descend (dbg : Bool) (f : Nat) (r : BitReader)
    (hn : r.di_current.is_next = true) :
    next_loop (f + 1) dbg r =
      ((BitReader.decode dbg
          (interp_outof r.di_current.pos_j r.di_current.pos_k r.di_current.j r.di_current.k)
          true { r with di_stack := r.di_stack ++ [r.di_current] }) >>= fun x =>
        next_loop f dbg (x.2.with_cursor x.2.di_stack
          (Frame.set r.di_current.j ((r.di_current.j + r.di_current.k) / 2) r.di_current.pos_j
            (add32 x.1 (sub32 (add32 r.di_current.pos_j
              ((r.di_current.j + r.di_current.k) / 2)) r.di_current.j))))) := by
  conv_lhs => unfold next_loop
  rw [if_pos (by rw [hn]; simp), if_pos hn]
  rfl

theorem next_loop_emit (f : Nat) (r : BitReader) (stack : List Frame) (top : Frame)
    (hn : r.di_current.is_next = false) (hs : r.di_stack = stack ++ [top]) :
    next_loop (f + 1) false r =
      .ok (r.di_current.pos_k, { r with
        di_stack := stack,
        di_current :=
          if stack.isEmpty &&
              !(Frame.set ((top.j + top.k) / 2) top.k r.di_current.pos_k top.pos_k).is_next
          then Frame.set 0 0 0 0
          else Frame.set ((top.j + top.k) / 2) top.k r.di_current.pos_k top.pos_k }) := by
  conv_lhs => unfold next_loop
  have hs' : r.di_stack.isEmpty = false := by rw [hs]; simp
  rw [if_pos (by rw [hs']; simp), if_neg (by rw [hn]; simp), assert_release, ok_bind]
  rw [hs, List.getLast?_concat]
  dsimp only
  rw [List.dropLast_concat]
  rfl

/-- A call of `decode_interpolative_next` on a frame with interior entries decodes the
entry midway and goes on as a call on the left half, the frame pushed on the stack. -/
theorem next_descend (ρ ρ1 : BitReader) (stack : List Frame) (j k pj pk p : Nat)
    (hjk : j + 1 < k) (hpj : pj < 4294967296)
    (hd : ρ.decode false (interp_outof pj pk j k) false = .ok (p, ρ1)) :
    (ρ.with_cursor stack ⟨j, k, pj, pk⟩).decode_interpolative_next false =
      (ρ1.with_cursor (stack ++ [⟨j, k, pj, pk⟩])
        ⟨j, (j + k) / 2, pj, u32 (add64 p (sub64 (add64 pj ((j + k) / 2)) j))⟩
        ).decode_interpolative_next false := by
  have hpm : u32 (add32 p (sub32 (add32 pj ((j + k) / 2)) j)) =
      u32 (add64 p (sub64 (add64 pj ((j + k) / 2)) j)) := by
    unfold u32 add32 sub32 add64 sub64 u32 u64
    omega
  have e2 : Frame.set j ((j + k) / 2) pj (add32 p (sub32 (add32 pj ((j + k) / 2)) j)) =
      ⟨j, (j + k) / 2, pj, u32 (add64 p (sub64 (add64 pj ((j + k) / 2)) j))⟩ := by
    unfold Frame.set
    rw [hpm]
    have : u32 pj = pj := by unfold u32; exact Nat.mod_eq_of_lt hpj
    rw [this]
  have hn : (BitReader.with_cursor ρ stack ⟨j, k, pj, pk⟩).di_current.is_next = true := by
    show decide (k - j > 1) = true
    simp; omega
  have hd' := decode_with_cursor (interp_outof pj pk j k) true false
    (stack ++ [⟨j, k, pj, pk⟩]) ⟨j, k, pj, pk⟩ ρ
  rw [hd, map_ok] at hd'
  have hL : (ρ.with_cursor stack ⟨j, k, pj, pk⟩).decode_interpolative_next false =
      next_loop (k - j + 1) false (ρ.with_cursor stack ⟨j, k, pj, pk⟩) := rfl
  have hR : (ρ1.with_cursor (stack ++ [⟨j, k, pj, pk⟩])
        ⟨j, (j + k) / 2, pj, u32 (add64 p (sub64 (add64 pj ((j + k) / 2)) j))⟩
        ).decode_interpolative_next false =
      next_loop ((j + k) / 2 - j + 1) false (ρ1.with_cursor (stack ++ [⟨j, k, pj, pk⟩])
        ⟨j, (j + k) / 2, pj, u32 (add64 p (sub64 (add64 pj ((j + k) / 2)) j))⟩) := rfl
  rw [hL, hR, next_loop_descend false (k - j) _ hn]
  have hd2 : BitReader.decode false
      (interp_outof (ρ.with_cursor stack ⟨j, k, pj, pk⟩).di_current.pos_j
        (ρ.with_cursor stack ⟨j, k, pj, pk⟩).di_current.pos_k
        (ρ.with_cursor stack ⟨j, k, pj, pk⟩).di_current.j
        (ρ.with_cursor stack ⟨j, k, pj, pk⟩).di_current.k) true
      { ρ.with_cursor stack ⟨j, k, pj, pk⟩ with
        di_stack := (ρ.with_cursor stack ⟨j, k, pj, pk⟩).di_stack ++
          [(ρ.with_cursor stack ⟨j, k, pj, pk⟩).di_current] } =
      .ok (p, ρ1.with_cursor (stack ++ [⟨j, k, pj, pk⟩]) ⟨j, k, pj, pk⟩) := hd'
  rw [hd2, ok_bind]
  have e3 : (ρ1.with_cursor (stack ++ [⟨j, k, pj, pk⟩]) ⟨j, k, pj, pk⟩).with_cursor
      (ρ1.with_cursor (stack ++ [⟨j, k, pj, pk⟩]) ⟨j, k, pj, pk⟩).di_stack
      (Frame.set j ((j + k) / 2) pj (add32 p (sub32 (add32 pj ((j + k) / 2)) j))) =
      ρ1.with_cursor (stack ++ [⟨j, k, pj, pk⟩])
        ⟨j, (j + k) / 2, pj, u32 (add64 p (sub64 (add64 pj ((j + k) / 2)) j))⟩ := by
    rw [e2]; rfl
  have e4 : next_loop (k - j) false
      ((p, ρ1.with_cursor (stack ++ [⟨j, k, pj, pk⟩]) ⟨j, k, pj, pk⟩).2.with_cursor
        (p, ρ1.with_cursor (stack ++ [⟨j, k, pj, pk⟩]) ⟨j, k, pj, pk⟩).2.di_stack
        (Frame.set (ρ.with_cursor stack ⟨j, k, pj, pk⟩).di_current.j
          (((ρ.with_cursor stack ⟨j, k, pj, pk⟩).di_current.j +
            (ρ.with_cursor stack ⟨j, k, pj, pk⟩).di_current.k) / 2)
          (ρ.with_cursor stack ⟨j, k, pj, pk⟩).di_current.pos_j
          (add32 (p, ρ1.with_cursor (stack ++ [⟨j, k, pj, pk⟩]) ⟨j, k, pj, pk⟩).1
            (sub32 (add32 (ρ.with_cursor stack ⟨j, k, pj, pk⟩).di_current.pos_j
              (((ρ.with_cursor stack ⟨j, k, pj, pk⟩).di_current.j +
                (ρ.with_cursor stack ⟨j, k, pj, pk⟩).di_current.k) / 2))
              (ρ.with_cursor stack ⟨j, k, pj, pk⟩).di_current.j)))) =
      next_loop (k - j) false (ρ1.with_cursor (stack ++ [⟨j, k, pj, pk⟩])
        ⟨j, (j + k) / 2, pj, u32 (add64 p (sub64 (add64 pj ((j + k) / 2)) j))⟩) :=
    congrArg (next_loop (k - j) false) e3
  refine Eq.trans e4 ?_
  exact next_loop_fuel false _ _ _ (by show (j + k) / 2 - j < k - j; omega)
    (by show (j + k) / 2 - j < (j + k) / 2 - j + 1; omega)

/-- A call of `decode_interpolative_next` on a frame without interior entries returns
its high value and goes to the right half of the frame on top of the stack. -/
theorem next_emit (ρ : BitReader) (stack : List Frame) (a b va vb : Nat) (top : Frame)
    (hab : ¬ (b - a > 1)) :
    (ρ.with_cursor (stack ++ [top]) ⟨a, b, va, vb⟩).decode_interpolative_next false =
      .ok (vb, ρ.with_cursor stack
        (if stack.isEmpty && !(Frame.set ((top.j + top.k) / 2) top.k vb top.pos_k).is_next
         then Frame.set 0 0 0 0
         else Frame.set ((top.j + top.k) / 2) top.k vb top.pos_k)) := by
  have hn : (BitReader.with_cursor ρ (stack ++ [top]) ⟨a, b, va, vb⟩).di_current.is_next
      = false := by
    show decide (b - a > 1) = false
    simp; omega
  have hL : (ρ.with_cursor (stack ++ [top]) ⟨a, b, va, vb⟩).decode_interpolative_next false =
      next_loop (b - a + 1) false (ρ.with_cursor (stack ++ [top]) ⟨a, b, va, vb⟩) := rfl
  rw [hL, next_loop_emit (b - a) _ stack top hn rfl]
  rfl

theorem next_n_append (dbg : Bool) (a : Nat) : ∀ (b : Nat) (r r1 r2 : BitReader)
    (v1 v2 : List Nat), next_n dbg a r = .ok (v1, r1) → next_n dbg b r1 = .ok (v2, r2) →
    next_n dbg (a + b) r = .ok (v1 ++ v2, r2) := by
  induction a with
  | zero =>
    intro b r r1 r2 v1 v2 h1 h2
    cases h1
    rw [Nat.zero_add]; exact h2
  | succ a ih =>
    intro b r r1 r2 v1 v2 h1 h2
    have e : a + 1 + b = (a + b) + 1 := by omega
    rw [e]
    unfold next_n at h1 ⊢
    obtain ⟨⟨v, ra⟩, e1, h3⟩ := bind_eq_ok _ _ _ h1
    obtain ⟨⟨vs, rb⟩, e2, h4⟩ := bind_eq_ok _ _ _ h3
    cases h4
    rw [e1, ok_bind]
    dsimp only
    rw [ih b ra r1 r2 vs v2 e2 h2, ok_bind]
    rfl

theorem next_n_first (dbg : Bool) (c : Nat) (r r' : BitReader)
    (h : r.decode_interpolative_next dbg = r'.decode_interpolative_next dbg) :
    next_n dbg (c + 1) r = next_n dbg (c + 1) r' := by
  unfold next_n
  rw [h]

theorem next_n_one (dbg : Bool) (r r' : BitReader) (v : Nat)
    (h : r.decode_interpolative_next dbg = .ok (v, r')) :
    next_n dbg 1 r = .ok ([v], r') := by
  unfold next_n
  rw [h, ok_bind]
  rfl

theorem getLastD_append_cons (l l' : List Nat) (a d : Nat) :
    (l ++ a :: l').getLastD d = l'.getLastD a := by
  induction l generalizing d with
  | nil => exact List.getLastD_cons d a l'
  | cons x l ih =>
    rw [List.cons_append, List.getLastD_cons]
    exact ih x

theorem interp_values_leaf (fuel : Nat) (dbg : Bool) (j k pj pk : Nat) (r : BitReader)
    (h : ¬ j + 1 < k) : interp_values fuel dbg j k pj pk r = .ok ([], r) := by
  cases fuel with
  | zero => rfl
  | succ fuel => unfold interp_values; rw [if_neg h]

theorem u32_lt (x : Nat) : u32 x < 4294967296 := by
  unfold u32; omega

/-- Without assertions, the calls of `decode_interpolative_next` on a frame return the
values of `interp_values` for this frame, one by one, reading the same bits; they end
on the last leaf of the frame, or on the marker when the stack is empty. -/
theorem next_n_values (fuel : Nat) :
    ∀ (j k pj pk : Nat) (ρ ρ' : BitReader) (vals : List Nat) (stack : List Frame),
      k - j ≤ fuel → j < k → pj < 4294967296 → pk < 4294967296 →
      interp_values fuel false j k pj pk ρ = .ok (vals, ρ') →
      next_n false (k - j - 1) (ρ.with_cursor stack ⟨j, k, pj, pk⟩) =
        .ok (vals, ρ'.with_cursor stack
          (if stack.isEmpty && decide (j + 1 < k) then Frame.set 0 0 0 0
           else ⟨k - 1, k, vals.getLastD pj, pk⟩)) := by
  induction fuel with
  | zero => intro j k pj pk ρ ρ' vals stack hf hjk; omega
  | succ fuel ih =>
    intro j k pj pk ρ ρ' vals stack hf hjk hpj hpk h
    by_cases hn : j + 1 < k
    · unfold interp_values at h
      rw [if_pos hn] at h
      obtain ⟨⟨p, ρ1⟩, e1, h1⟩ := bind_eq_ok _ _ _ h
      clear h
      dsimp only at h1
      obtain ⟨⟨vl, ρ2⟩, el, h2⟩ := bind_eq_ok _ _ _ h1
      clear h1
      dsimp only at h2
      obtain ⟨⟨vr, ρ3⟩, er, h3⟩ := bind_eq_ok _ _ _ h2
      clear h2
      cases h3
      have hjm : j < (j + k) / 2 := by omega
      have hmk : (j + k) / 2 < k := by omega
      have hpm := u32_lt (add64 p (sub64 (add64 pj ((j + k) / 2)) j))
      generalize hpmdef : u32 (add64 p (sub64 (add64 pj ((j + k) / 2)) j)) = pm at *
      -- the first call descends to the left half
      obtain ⟨c, hc⟩ : ∃ c, k - j - 1 = c + 1 := ⟨k - j - 2, by omega⟩
      have hA := next_n_first false c _ _
        (next_descend ρ ρ1 stack j k pj pk p hn hpj e1)
      rw [hpmdef, ← hc] at hA
      rw [hA]
      -- the calls for the left half
      have hB := ih j ((j + k) / 2) pj pm ρ1 ρ2 vl (stack ++ [⟨j, k, pj, pk⟩]) (by omega)
        hjm hpj hpm el
      have hne : (stack ++ [(⟨j, k, pj, pk⟩ : Frame)]).isEmpty = false := by simp
      rw [hne, Bool.false_and, if_neg (by simp)] at hB
      -- the call that returns the entry midway
      have hC := next_emit ρ2 stack ((j + k) / 2 - 1) ((j + k) / 2) (vl.getLastD pj) pm
        ⟨j, k, pj, pk⟩ (by omega)
      rw [frame_set_eq _ _ _ _ hpm hpk] at hC
      have hC1 := next_n_one false _ _ _ hC
      -- the calls for the right half
      have hsplit : k - j - 1 = ((j + k) / 2 - j - 1) + (1 + (k - (j + k) / 2 - 1)) := by
        omega
      rw [hsplit]
      by_cases hr : (j + k) / 2 + 1 < k
      · have hD := ih ((j + k) / 2) k pm pk ρ2 ρ3 vr stack (by omega) hmk hpm hpk er
        have hnext : (⟨(j + k) / 2, k, pm, pk⟩ : Frame).is_next = true := by
          show decide (k - (j + k) / 2 > 1) = true
          simp; omega
        rw [hnext] at hC1
        simp only [Bool.not_true, Bool.and_false, Bool.false_eq_true, ↓reduceIte] at hC1
        have hCD := next_n_append false 1 _ _ _ _ _ _ hC1 hD
        have hall := next_n_append false _ _ _ _ _ _ _ hB hCD
        rw [hall]
        have hd1 : decide ((j + k) / 2 + 1 < k) = true := by simp; omega
        have hd2 : decide (j + 1 < k) = true := by simp; omega
        rw [hd1, hd2, getLastD_append_cons]
        rfl
      · rw [interp_values_leaf fuel false _ _ _ _ _ hr] at er
        cases er
        have hnext : (⟨(j + k) / 2, k, pm, pk⟩ : Frame).is_next = false := by
          show decide (k - (j + k) / 2 > 1) = false
          simp; omega
        rw [hnext] at hC1
        have hzero : k - (j + k) / 2 - 1 = 0 := by omega
        rw [hzero]
        have hall := next_n_append false _ 1 _ _ _ _ _ hB hC1
        rw [hall]
        have hd2 : decide (j + 1 < k) = true := by simp; omega
        have hk1 : k - 1 = (j + k) / 2 := by omega
        rw [hd2, getLastD_append_cons, hk1]
        simp only [Bool.not_false, Bool.and_true, List.getLastD_nil]
    · have hk : k = j + 1 := by omega
      rw [interp_values_leaf _ false _ _ _ _ _ hn] at h
      cases h
      subst hk
      have hd2 : decide (j + 1 < j + 1) = false := by simp
      rw [hd2, Bool.and_false, if_neg (by simp)]
      have : j + 1 - j - 1 = 0 := by omega
      rw [this]
      rfl

theorem next_n_append_error (dbg : Bool) (a : Nat) : ∀ (b : Nat) (r : BitReader) (e : Fault),
    next_n dbg a r = .error e → next_n dbg (a + b) r = .error e := by
  induction a with
  | zero => intro b r e h; cases h
  | succ a ih =>
    intro b r e h
    have e1 : a + 1 + b = (a + b) + 1 := by omega
    rw [e1]
    unfold next_n at h ⊢
    cases hc : r.decode_interpolative_next dbg with
    | error e' =>
      rw [hc, error_bind] at h
      rw [error_bind]
      exact h
    | ok x =>
      rw [hc, ok_bind] at h
      rw [ok_bind]
      dsimp only at h ⊢
      cases hn : next_n dbg a x.2 with
      | error e' =>
        rw [hn, error_bind] at h
        rw [ih b x.2 e' hn, error_bind]
        exact h
      | ok y =>
        rw [hn, ok_bind] at h
        cases h

theorem next_n_append_ok_error (dbg : Bool) (a : Nat) : ∀ (b : Nat) (r r1 : BitReader)
    (v1 : List Nat) (e : Fault), next_n dbg a r = .ok (v1, r1) →
    next_n dbg b r1 = .error e → next_n dbg (a + b) r = .error e := by
  induction a with
  | zero =>
    intro b r r1 v1 e h1 h2
    cases h1
    rw [Nat.zero_add]; exact h2
  | succ a ih =>
    intro b r r1 v1 e h1 h2
    have e1 : a + 1 + b = (a + b) + 1 := by omega
    rw [e1]
    unfold next_n at h1 ⊢
    obtain ⟨⟨v, ra⟩, e1, h3⟩ := bind_eq_ok _ _ _ h1
    obtain ⟨⟨vs, rb⟩, e2, h4⟩ := bind_eq_ok _ _ _ h3
    cases h4
    rw [e1, ok_bind]
    dsimp only
    rw [ih b ra r1 vs e e2 h2, error_bind]

/-- Without assertions, where the recursive decoding of a frame fails, the calls of
`decode_interpolative_next` fail in the same way. -/
theorem next_n_values_error (fuel : Nat) :
    ∀ (j k pj pk : Nat) (ρ : BitReader) (e : Fault) (stack : List Frame),
      k - j ≤ fuel → j < k → pj < 4294967296 → pk < 4294967296 →
      interp_values fuel false j k pj pk ρ = .error e →
      next_n false (k - j - 1) (ρ.with_cursor stack ⟨j, k, pj, pk⟩) = .error e := by
  induction fuel with
  | zero => intro j k pj pk ρ e stack hf hjk; omega
  | succ fuel ih =>
    intro j k pj pk ρ e stack hf hjk hpj hpk h
    by_cases hn : j + 1 < k
    · unfold interp_values at h
      rw [if_pos hn] at h
      have hjm : j < (j + k) / 2 := by omega
      have hmk : (j + k) / 2 < k := by omega
      obtain ⟨c, hc⟩ : ∃ c, k - j - 1 = c + 1 := ⟨k - j - 2, by omega⟩
      cases e1 : ρ.decode false (interp_outof pj pk j k) false with
      | error e' =>
        rw [e1, error_bind] at h
        cases h
        rw [hc]
        unfold next_n
        have hnx : (BitReader.with_cursor ρ stack ⟨j, k, pj, pk⟩).di_current.is_next = true := by
          show decide (k - j > 1) = true
          simp; omega
        have hL : (ρ.with_cursor stack ⟨j, k, pj, pk⟩).decode_interpolative_next false =
            next_loop (k - j + 1) false (ρ.with_cursor stack ⟨j, k, pj, pk⟩) := rfl
        have hd' := decode_with_cursor (interp_outof pj pk j k) true false
          (stack ++ [⟨j, k, pj, pk⟩]) ⟨j, k, pj, pk⟩ ρ
        rw [e1, map_error] at hd'
        have hd2 : BitReader.decode false
            (interp_outof (ρ.with_cursor stack ⟨j, k, pj, pk⟩).di_current.pos_j
              (ρ.with_cursor stack ⟨j, k, pj, pk⟩).di_current.pos_k
              (ρ.with_cursor stack ⟨j, k, pj, pk⟩).di_current.j
              (ρ.with_cursor stack ⟨j, k, pj, pk⟩).di_current.k) true
            { ρ.with_cursor stack ⟨j, k, pj, pk⟩ with
              di_stack := (ρ.with_cursor stack ⟨j, k, pj, pk⟩).di_stack ++
                [(ρ.with_cursor stack ⟨j, k, pj, pk⟩).di_current] } =
            .error e := hd'
        rw [hL, next_loop_descend false (k - j) _ hnx, hd2, error_bind, error_bind]
      | ok x =>
        obtain ⟨p, ρ1⟩ := x
        rw [e1, ok_bind] at h
        dsimp only at h
        have hpm := u32_lt (add64 p (sub64 (add64 pj ((j + k) / 2)) j))
        generalize hpmdef : u32 (add64 p (sub64 (add64 pj ((j + k) / 2)) j)) = pm at *
        have hA := next_n_first false c _ _
          (next_descend ρ ρ1 stack j k pj pk p hn hpj e1)
        rw [hpmdef, ← hc] at hA
        rw [hA]
        have hsplit : k - j - 1 = ((j + k) / 2 - j - 1) + (1 + (k - (j + k) / 2 - 1)) := by
          omega
        rw [hsplit]
        cases el : interp_values fuel false j ((j + k) / 2) pj pm ρ1 with
        | error e' =>
          rw [el, error_bind] at h
          cases h
          exact next_n_append_error false _ _ _ _
            (ih j ((j + k) / 2) pj pm ρ1 e (stack ++ [⟨j, k, pj, pk⟩]) (by omega) hjm hpj
              hpm el)
        | ok y =>
          obtain ⟨vl, ρ2⟩ := y
          rw [el, ok_bind] at h
          dsimp only at h
          have hB := next_n_values fuel j ((j + k) / 2) pj pm ρ1 ρ2 vl
            (stack ++ [⟨j, k, pj, pk⟩]) (by omega) hjm hpj hpm el
          have hne : (stack ++ [(⟨j, k, pj, pk⟩ : Frame)]).isEmpty = false := by simp
          rw [hne, Bool.false_and, if_neg (by simp)] at hB
          have hC := next_emit ρ2 stack ((j + k) / 2 - 1) ((j + k) / 2) (vl.getLastD pj) pm
            ⟨j, k, pj, pk⟩ (by omega)
          rw [frame_set_eq _ _ _ _ hpm hpk] at hC
          have hC1 := next_n_one false _ _ _ hC
          cases er : interp_values fuel false ((j + k) / 2) k pm pk ρ2 with
          | ok z =>
            rw [er, ok_bind] at h
            cases h
          | error e' =>
            rw [er, error_bind] at h
            cases h
            have hr : (j + k) / 2 + 1 < k := by
              by_contra hr
              rw [interp_values_leaf fuel false _ _ _ _ _ hr] at er
              cases er
            have hD := ih ((j + k) / 2) k pm pk ρ2 e stack (by omega) hmk hpm hpk er
            have hnext : (⟨(j + k) / 2, k, pm, pk⟩ : Frame).is_next = true := by
              show decide (k - (j + k) / 2 > 1) = true
              simp; omega
            rw [hnext] at hC1
            simp only [Bool.not_true, Bool.and_false, Bool.false_eq_true, ↓reduceIte] at hC1
            have hCD := next_n_append_ok_error false 1 _ _ _ _ _ hC1 hD
            exact next_n_append_ok_error false _ _ _ _ _ _ hB hCD
    · rw [interp_values_leaf _ false _ _ _ _ _ hn] at h
      cases h

/-- Without assertions, a cursor that has returned `k - j - 1` values is exhausted: it
has read what the recursive decoder reads, its frame has no interior entries, and the
stack is the one the cursor was started on. -/
theorem next_n_exhausted (j k pj pk : Nat) (r r2 : BitReader) (vals : List Nat)
    (hjk : j < k) (hpj : pj < 4294967296) (hpk : pk < 4294967296)
    (h : next_n false (k - j - 1) (r.with_cursor r.di_stack ⟨j, k, pj, pk⟩) = .ok (vals, r2)) :
    r2.di_stack = r.di_stack ∧ r2.di_current.is_next = false ∧
    ∃ ρ', interp_values (k - j) false j k pj pk r = .ok (vals, ρ') ∧
      r2 = ρ'.with_cursor r.di_stack r2.di_current := by
  cases hv : interp_values (k - j) false j k pj pk r with
  | error e =>
    rw [next_n_values_error (k - j) j k pj pk r e r.di_stack (Nat.le_refl _) hjk hpj hpk hv] at h
    cases h
  | ok x =>
    obtain ⟨vals', ρ'⟩ := x
    rw [next_n_values (k - j) j k pj pk r ρ' vals' r.di_stack (Nat.le_refl _) hjk hpj hpk hv] at h
    cases h
    refine ⟨rfl, ?_, ρ', rfl, rfl⟩
    show (if r.di_stack.isEmpty && decide (j + 1 < k) then Frame.set 0 0 0 0
      else (⟨k - 1, k, vals.getLastD pj, pk⟩ : Frame)).is_next = false
    split
    · rfl
    · show decide (k - (k - 1) > 1) = false
      simp; omega

/-- In a build with assertions every call of `decode_interpolative_next` faults: on a
frame with interior entries at the entry check of `decode(outof, true)`, on a frame
without at the assertion of the emit branch, which requires an empty stack where the
loop has just found the stack not empty, and on an exhausted cursor at the entry check
or at `Assert(false)`. -/
theorem next_faults_with_assertions (r : BitReader) :
    r.decode_interpolative_next true = .error .assertion := by
  unfold BitReader.decode_interpolative_next
  cases hinit : Assert true r.di_current.is_initialized with
  | error e =>
    rw [error_bind]
    unfold Assert at hinit
    split at hinit
    · cases hinit; rfl
    · cases hinit
  | ok u =>
    rw [ok_bind]
    by_cases hc : (!r.di_stack.isEmpty || r.di_current.is_next) = true
    · by_cases hn : r.di_current.is_next = true
      · rw [next_loop_descend true _ r hn, forced_decode_faults, error_bind]
      · conv_lhs => unfold next_loop
        rw [if_pos hc, if_neg hn]
        have hs : r.di_stack.isEmpty = false := by
          cases h : r.di_stack.isEmpty with
          | false => rfl
          | true => rw [h] at hc; simp at hc; exact absurd hc hn
        rw [assert_false _ (by rw [hs]; rfl), error_bind]
    · conv_lhs => unfold next_loop
      rw [if_neg hc, assert_false _ rfl, error_bind]

/-! ## C3 and C4: the incremental decoder against the recursive one, exhaustion -/


/-- Without assertions the incremental decoder agrees with the recursive decoder: if the
recursive `decode_interpolative(pos, j, k)` returns, then after
`decode_interpolative(j, k, pos[j], pos[k])` on the same reader the first `k - j - 1`
calls of `decode_interpolative_next()` return the values stored at `j+1, ..., k-1`, in
this order, and both decoders leave the same position in the stream. -/
theorem incremental_equals_recursive_release (j k pj pk : Nat) (P P' : List Nat)
    (r r' : BitReader) (hjk : j < k) (hk : k < P.length) (hpj : P.getD j 0 = pj)
    (hpk : P.getD k 0 = pk) (h32j : pj < 2 ^ 32) (h32k : pk < 2 ^ 32)
    (h : r.decode_interpolative false P j k = .ok (P', r')) :
    ∃ rc vals r'', r.decode_interpolative_cursor false j k pj pk = .ok rc ∧
      next_n false (k - j - 1) rc = .ok (vals, r'') ∧ vals.length = k - j - 1 ∧
      (∀ i, i < k - j - 1 → vals.getD i 0 = P'.getD (j + 1 + i) 0) ∧
      r''.buf = r'.buf ∧ r''.idx = r'.idx ∧ r''.n_bits = r'.n_bits ∧ r''.acc = r'.acc := by
  have h1 : pj < 4294967296 := by norm_num at h32j; exact h32j
  have h2 : pk < 4294967296 := by norm_num at h32k; exact h32k
  have hloop : decode_interpolative_loop (k - j) false P j k r = .ok (P', r') := h
  obtain ⟨vals, ev, hlen, _, hidx, _⟩ := decode_interpolative_loop_values false (k - j) j k P r
    P' r' (Nat.le_refl _) hk hloop
  rw [hpj, hpk] at ev
  have hL := next_n_values (k - j) j k pj pk r r' vals r.di_stack (Nat.le_refl _) hjk h1 h2 ev
  refine ⟨r.with_cursor r.di_stack ⟨j, k, pj, pk⟩, vals, _, ?_, hL, hlen, ?_, rfl, rfl, rfl, rfl⟩
  · show Except.ok _ = _
    rw [frame_set_eq j k pj pk h1 h2]
    rfl
  · intro i hi
    exact (hidx i hi).symm

/-- C3, the behaviour of the code at a failing input: on the buffer `[57]`, which holds
the codes of the sequence `[10, 12, 13, 17, 20]`, the recursive decoder restores the
sequence, but in a build with assertions the first call of
`decode_interpolative_next()` after `decode_interpolative(0, 4, 10, 20)` faults and
returns no value. -/
theorem incremental_first_call_faults :
    (∃ r', (BitReader.init [57]).decode_interpolative true [10, 0, 0, 0, 20] 0 4 =
      .ok ([10, 12, 13, 17, 20], r')) ∧
    ∃ rc, (BitReader.init [57]).decode_interpolative_cursor true 0 4 10 20 = .ok rc ∧
      rc.decode_interpolative_next true = .error .assertion := by
  constructor
  · exact ⟨_, by rfl⟩
  · exact ⟨_, by rfl, next_faults_with_assertions _⟩

/-- Without assertions a call of `decode_interpolative_next()` on a cursor with an empty
stack and a current frame without interior entries does not enter the loop: it runs
past `Assert(false)`, returns 0 and leaves the reader as it is. -/
theorem next_exhausted_release (r : BitReader) (hs : r.di_stack = [])
    (hn : r.di_current.is_next = false) :
    r.decode_interpolative_next false = .ok (0, r) := by
  unfold BitReader.decode_interpolative_next
  rw [assert_release, ok_bind]
  unfold next_loop
  rw [if_neg (by rw [hs, hn]; simp), assert_release, ok_bind]
  rfl

/-- C4: for every cursor started by `decode_interpolative(j, k, pos_j, pos_k)` with
`j < k` on a reader with an empty frame stack, in either build, once the `k - j - 1`
calls of `decode_interpolative_next()` have returned their values the cursor is
exhausted (empty stack, current frame without interior entries), and the call that
follows, in the same build, does not enter the loop: with assertions it fails an
assertion and returns no value, without assertions it returns 0 and leaves the reader
as it is. -/
theorem next_after_exhaustion (dbg : Bool) (j k pos_j pos_k : Nat) (r0 r1 r2 : BitReader)
    (vals : List Nat) (hjk : j < k) (hpj : pos_j < 2 ^ 32) (hpk : pos_k < 2 ^ 32)
    (hstack : r0.di_stack = [])
    (hstart : r0.decode_interpolative_cursor dbg j k pos_j pos_k = .ok r1)
    (hcalls : next_n dbg (k - j - 1) r1 = .ok (vals, r2)) :
    r2.di_stack = [] ∧ r2.di_current.is_next = false ∧
    r2.decode_interpolative_next dbg =
      (if dbg then .error .assertion else .ok (0, r2)) := by
  have h1 : pos_j < 4294967296 := by norm_num at hpj; exact hpj
  have h2 : pos_k < 4294967296 := by norm_num at hpk; exact hpk
  unfold BitReader.decode_interpolative_cursor at hstart
  obtain ⟨_, _, hs⟩ := bind_eq_ok _ _ _ hstart
  cases hs
  rw [frame_set_eq j k pos_j pos_k h1 h2] at hcalls
  cases dbg with
  | true =>
    refine ⟨?_, ?_, next_faults_with_assertions r2⟩
    · by_cases hn : j + 1 < k
      · obtain ⟨c, hc⟩ : ∃ c, k - j - 1 = c + 1 := ⟨k - j - 2, by omega⟩
        rw [hc] at hcalls
        unfold next_n at hcalls
        rw [next_faults_with_assertions, error_bind] at hcalls
        cases hcalls
      · have hz : k - j - 1 = 0 := by omega
        rw [hz] at hcalls
        cases hcalls
        exact hstack
    · by_cases hn : j + 1 < k
      · obtain ⟨c, hc⟩ : ∃ c, k - j - 1 = c + 1 := ⟨k - j - 2, by omega⟩
        rw [hc] at hcalls
        unfold next_n at hcalls
        rw [next_faults_with_assertions, error_bind] at hcalls
        cases hcalls
      · have hz : k - j - 1 = 0 := by omega
        rw [hz] at hcalls
        cases hcalls
        show decide (k - j > 1) = false
        simp; omega
  | false =>
    obtain ⟨a, b, _⟩ := next_n_exhausted j k pos_j pos_k r0 r2 vals hjk h1 h2 hcalls
    have a' : r2.di_stack = [] := by rw [a, hstack]
    exact ⟨a', b, next_exhausted_release r2 a' b⟩

/-- Witness of C4, each instance within one build: without assertions the cursor
`decode_interpolative(0, 4, 10, 20)` on the buffer `[57]` yields 12, 13 and 17 and the
fourth call returns 0; with assertions the cursor `decode_interpolative(3, 4, 17, 20)`
has no interior value and its first call fails `Assert(false)`. -/
theorem next_after_exhaustion_witness :
    (0 < 4 ∧ 10 < 2 ^ 32 ∧ 20 < 2 ^ 32 ∧ (BitReader.init [57]).di_stack = [] ∧
      (BitReader.init [57]).decode_interpolative_cursor false 0 4 10 20 =
        .ok ((BitReader.init [57]).with_cursor [] (Frame.set 0 4 10 20)) ∧
      next_n false (4 - 0 - 1) ((BitReader.init [57]).with_cursor [] (Frame.set 0 4 10 20)) =
        .ok ([12, 13, 17], ⟨[57], 1, 2, 0, [], Frame.set 0 0 0 0⟩) ∧
      ((BitReader.mk [57] 1 2 0 [] (Frame.set 0 0 0 0)).di_stack = [] ∧
       (BitReader.mk [57] 1 2 0 [] (Frame.set 0 0 0 0)).di_current.is_next = false ∧
       (BitReader.mk [57] 1 2 0 [] (Frame.set 0 0 0 0)).decode_interpolative_next false =
        (if false then .error .assertion
         else .ok (0, BitReader.mk [57] 1 2 0 [] (Frame.set 0 0 0 0))))) ∧
    (3 < 4 ∧ 17 < 2 ^ 32 ∧ 20 < 2 ^ 32 ∧ (BitReader.init []).di_stack = [] ∧
      (BitReader.init []).decode_interpolative_cursor true 3 4 17 20 =
        .ok ((BitReader.init []).with_cursor [] (Frame.set 3 4 17 20)) ∧
      next_n true (4 - 3 - 1) ((BitReader.init []).with_cursor [] (Frame.set 3 4 17 20)) =
        .ok ([], (BitReader.init []).with_cursor [] (Frame.set 3 4 17 20)) ∧
      (((BitReader.init []).with_cursor [] (Frame.set 3 4 17 20)).di_stack = [] ∧
       ((BitReader.init []).with_cursor [] (Frame.set 3 4 17 20)).di_current.is_next = false ∧
       ((BitReader.init []).with_cursor [] (Frame.set 3 4 17 20)).decode_interpolative_next
        true =
        (if true then .error .assertion
         else .ok (0, (BitReader.init []).with_cursor [] (Frame.set 3 4 17 20))))) :=
  ⟨⟨by decide, by decide, by decide, by rfl, by rfl, by rfl,
    next_after_exhaustion false 0 4 10 20 (BitReader.init [57]) _ _ [12, 13, 17]
      (by decide) (by decide) (by decide) (by rfl) (by rfl) (by rfl)⟩,
   ⟨by decide, by decide, by decide, by rfl, by rfl, by rfl,
    next_after_exhaustion true 3 4 17 20 (BitReader.init []) _ _ []
      (by decide) (by decide) (by decide) (by rfl) (by rfl) (by rfl)⟩⟩

/-- C4 as stated fails in the build in which the values are yielded: without assertions
the cursor `decode_interpolative(0, 4, 10, 20)` on the buffer `[57]` returns 12, 13 and
17, and the call that follows returns the value 0 instead of faulting. -/
theorem exhausted_call_returns_zero :
    (BitReader.init [57]).decode_interpolative_cursor false 0 4 10 20 =
      .ok ((BitReader.init [57]).with_cursor [] (Frame.set 0 4 10 20)) ∧
    next_n false (4 - 0 - 1) ((BitReader.init [57]).with_cursor [] (Frame.set 0 4 10 20)) =
      .ok ([12, 13, 17], ⟨[57], 1, 2, 0, [], Frame.set 0 0 0 0⟩) ∧
    (BitReader.mk [57] 1 2 0 [] (Frame.set 0 0 0 0)).decode_interpolative_next false =
      .ok (0, ⟨[57], 1, 2, 0, [], Frame.set 0 0 0 0⟩) ∧
    ¬ ∃ e, (BitReader.mk [57] 1 2 0 [] (Frame.set 0 0 0 0)).decode_interpolative_next false =
      .error e := by
  refine ⟨by rfl, by rfl, by rfl, ?_⟩
  rintro ⟨e, h⟩
  have e2 : (BitReader.mk [57] 1 2 0 [] (Frame.set 0 0 0 0)).decode_interpolative_next false =
      .ok (0, ⟨[57], 1, 2, 0, [], Frame.set 0 0 0 0⟩) := by rfl
  rw [e2] at h
  cases h
/-! ## C11: the invariant of the writer -/

/-- Between `2^30` and `2^31` the sign extension of `1 << 31` makes `spare` a huge
number: every value gets the full 31 bits. -/
theorem encode_code_wide (value outof : Nat) (h1 : 1073741824 < outof)
    (h2 : outof ≤ 2147483648) (hv : value < outof) :
    encode_code value outof = .ok (value, 31) := by
  have hfls : my_fls (u32 (sub64 outof 1)) = 31 := by
    have e : u32 (sub64 outof 1) = outof - 1 := by unfold u32 sub64 u64; omega
    rw [e, my_fls_eq_size _ (by omega)]
    exact spec_bits_of_bracket outof 31 (by norm_num; exact h1) (by norm_num; exact h2)
      (by norm_num)
  unfold encode_code
  rw [hfls]
  dsimp only
  have hshl : shl1_int 31 = .ok 2147483648 := by rfl
  rw [hshl, ok_bind]
  have hconv : int_to_size_t 2147483648 = 18446744071562067968 := by rfl
  rw [hconv]
  have hspare : sub64 18446744071562067968 outof = 18446744071562067968 - outof := by
    unfold sub64 u64; omega
  rw [hspare, if_pos (by omega)]
  have hms : sub64 outof (18446744071562067968 - outof) / 2 = outof + 1073741824 := by
    unfold sub64 u64; omega
  rw [hms]
  have hadd : add64 (outof + 1073741824) (18446744071562067968 - outof) =
      18446744072635809792 := by
    unfold add64; omega
  rw [hadd, if_neg (by omega), if_neg (by omega)]

/-- The writer invariant is kept by every `encode` with `outof` up to `2^31`. -/
theorem encode_wf (dbg : Bool) (value outof : Nat) (w : BitWriter) (hw : w.wf)
    (h1 : 1 ≤ outof) (h2 : outof ≤ 2147483648) (hv : value < outof) :
    ∃ w', w.encode dbg value outof = .ok w' ∧ w'.wf ∧ w.bit_len ≤ w'.bit_len ∧
      w'.bit_len ≤ w.bit_len + 31 := by
  by_cases hs : outof ≤ 1073741824
  · obtain ⟨w', he, hwf, _, hl⟩ := encode_spec dbg value outof w hw h1 hs hv
    have hb30 : spec_bits outof ≤ 30 := spec_bits_le outof 30 h1 (by norm_num; exact hs)
    have := (spec_code_lt value outof h1 hv).2
    exact ⟨w', he, hwf, by omega, by omega⟩
  · have hu1 : u64 value = value := by unfold u64; omega
    have hu2 : u64 outof = outof := by unfold u64; omega
    unfold BitWriter.encode
    dsimp only
    rw [hu1, hu2, assert_true dbg _ (by simp [hv]), ok_bind,
      encode_code_wide value outof (by omega) h2 hv, ok_bind]
    have hv31 : value < 2 ^ 31 := by norm_num; omega
    obtain ⟨w', he, hwf, _, hl⟩ := put_bits_spec dbg value 31 w hw (by norm_num) hv31
    exact ⟨w', he, hwf, by omega, by omega⟩

/-- C11: every call `encode(value, outof)` with `value < outof` and `outof` up to `2^31`,
started in a state with fewer than 8 pending bits and no bit of the accumulator above
them, returns and ends in such a state; the initial empty writer is such a state. -/
theorem encode_keeps_invariant (dbg : Bool) (value outof : Nat) (w : BitWriter)
    (hw : w.wf) (h1 : 1 ≤ outof) (h2 : outof ≤ 2 ^ 31) (hv : value < outof) :
    BitWriter.init.wf ∧ ∃ w', w.encode dbg value outof = .ok w' ∧ w'.wf := by
  refine ⟨⟨by decide, by decide⟩, ?_⟩
  obtain ⟨w', he, hwf, _⟩ := encode_wf dbg value outof w hw h1 (by norm_num at h2; exact h2) hv
  exact ⟨w', he, hwf⟩

/-- Witness of C11: the call `encode(5, 2^31)` on the initial writer. -/
theorem encode_keeps_invariant_witness :
    BitWriter.init.wf ∧ 1 ≤ 2147483648 ∧ 2147483648 ≤ 2 ^ 31 ∧ 5 < 2147483648 ∧
    (BitWriter.init.wf ∧ ∃ w', BitWriter.init.encode true 5 2147483648 = .ok w' ∧ w'.wf) :=
  ⟨⟨by decide, by decide⟩, by decide, by decide, by decide,
    encode_keeps_invariant true 5 2147483648 BitWriter.init ⟨by decide, by decide⟩
      (by decide) (by decide) (by decide)⟩

/-- C11 as stated fails above `2^31`: the call `encode(104, 2^32 + 5)` on the initial
writer returns with 3 pending bits and the accumulator 100, which has bits above them;
the call `encode(0, 2^31 + 1)` evaluates `1 << 32` and has no defined result. -/
theorem encode_breaks_invariant :
    BitWriter.init.wf ∧ 104 < 4294967301 ∧
    (∃ w', BitWriter.init.encode true 104 4294967301 = .ok w' ∧ ¬ w'.wf) ∧
    ¬ ∃ w', BitWriter.init.encode true 0 2147483649 = .ok w' := by
  refine ⟨⟨by decide, by decide⟩, by decide, ⟨⟨[], 3, 100⟩, by rfl, ?_⟩, ?_⟩
  · intro h
    have := h.2
    revert this
    decide
  · rintro ⟨w', h⟩
    have e : BitWriter.init.encode true 0 2147483649 = .error .undefined := by rfl
    rw [e] at h
    cases h

/-! ## C12: the split write against the reference writer -/

theorem flush_bytes_fuel (f : Nat) : ∀ (f' : Nat) (w : BitWriter), w.n_bits ≤ f →
    w.n_bits ≤ f' → flush_bytes f w = flush_bytes f' w := by
  induction f with
  | zero =>
    intro f' w h1 _
    have h0 : w.n_bits = 0 := by omega
    cases f' with
    | zero => rfl
    | succ f' =>
      show w = flush_bytes (f' + 1) w
      unfold flush_bytes
      rw [if_neg (by omega)]
  | succ f ih =>
    intro f' w h1 h2
    cases f' with
    | zero =>
      have h0 : w.n_bits = 0 := by omega
      show flush_bytes (f + 1) w = w
      unfold flush_bytes
      rw [if_neg (by omega)]
    | succ f' =>
      unfold flush_bytes
      by_cases h8 : w.n_bits ≥ 8
      · rw [if_pos h8, if_pos h8]
        exact ih f' _ (by simp only []; omega) (by simp only []; omega)
      · rw [if_neg h8, if_neg h8]

/-- The 32-bit accumulator with its split write leaves the writer in the state of the
reference writer. -/
theorem put_bits_eq_ref (dbg : Bool) (v bits : Nat) (w : BitWriter) (hw : w.wf)
    (hb : bits ≤ 32) (hv : v < 2 ^ bits) :
    put_bits dbg v bits w = .ok (ref_put_bits v bits w) := by
  obtain ⟨hn, hacc⟩ := hw
  have hv32 : v < 2 ^ 32 := lt_of_lt_of_le hv (Nat.pow_le_pow_right (by norm_num) hb)
  have hT := add_shift_lt w.acc v w.n_bits bits hacc hv
  have hor := or_shiftLeft w.acc v w.n_bits hacc
  have hT40 : w.acc + 2 ^ w.n_bits * v < 2 ^ 40 :=
    lt_of_lt_of_le hT (Nat.pow_le_pow_right (by norm_num) (by omega))
  have hu64 : u64 (v <<< w.n_bits) = v <<< w.n_bits := by
    unfold u64
    apply Nat.mod_eq_of_lt
    rw [Nat.shiftLeft_eq]
    have : v * 2 ^ w.n_bits ≤ w.acc + 2 ^ w.n_bits * v := by rw [Nat.mul_comm]; omega
    norm_num at hT40 ⊢; omega
  unfold put_bits ref_put_bits
  by_cases hc : add64 bits w.n_bits > 32
  · rw [if_pos hc]
    have hA : Assert dbg (decide (bits ≤ 32)) = .ok () := by
      unfold Assert; simp [hb]
    simp only [bind_assoc, hA, ok_bind, pure_bind, hu64, hor]
    generalize hTdef : w.acc + 2 ^ w.n_bits * v = T at *
    have hc' : bits + w.n_bits > 32 := by unfold add64 at hc; omega
    have hsub : sub64 bits 8 = bits - 8 := by unfold sub64 u64; omega
    have hu64b : u64 ((v >>> 8) <<< w.n_bits) = (v >>> 8) <<< w.n_bits := by
      unfold u64
      apply Nat.mod_eq_of_lt
      rw [Nat.shiftLeft_eq, Nat.shiftRight_eq_div_pow]
      have h1 : v / 2 ^ 8 ≤ v := Nat.div_le_self _ _
      have h2 : 2 ^ w.n_bits ≤ 2 ^ 8 := Nat.pow_le_pow_right (by norm_num) (by omega)
      have h3 : v / 2 ^ 8 * 2 ^ w.n_bits ≤ v * 2 ^ 8 := Nat.mul_le_mul h1 h2
      norm_num at hv32 h3 ⊢; omega
    have hsplit := split_write_acc w.acc v w.n_bits hn hacc
    rw [hor] at hsplit
    have hacc3 : u32 (u32 T >>> 8 ||| u64 ((v >>> 8) <<< w.n_bits)) = T >>> 8 := by
      rw [hu64b]
      have e32 : u32 T = T % 2 ^ 32 := by unfold u32; norm_num
      rw [e32, hsplit, Nat.shiftRight_eq_div_pow]
      unfold u32
      apply Nat.mod_eq_of_lt
      norm_num at hT40 ⊢; omega
    rw [hsub, hacc3]
    have hbyte : u32 T % 256 = T % 256 := by unfold u32; omega
    rw [hbyte]
    obtain ⟨m, hm⟩ : ∃ m, w.n_bits + bits = m + 1 := ⟨w.n_bits + bits - 1, by omega⟩
    rw [hm]
    conv_rhs => unfold flush_bytes
    rw [if_pos (by simp only []; omega)]
    have e8 : m + 1 - 8 = w.n_bits + (bits - 8) := by omega
    simp only [e8]
    show Except.ok _ = Except.ok _
    rw [flush_bytes_fuel (w.n_bits + (bits - 8)) m _ (Nat.le_refl _) (by simp only []; omega)]
  · rw [if_neg hc]
    simp only [pure_bind, hu64, hor]
    have hc' : bits + w.n_bits ≤ 32 := by unfold add64 at hc; omega
    have hT32 : w.acc + 2 ^ w.n_bits * v < 2 ^ 32 :=
      lt_of_lt_of_le hT (Nat.pow_le_pow_right (by norm_num) (by omega))
    have hacc1 : u32 (w.acc + 2 ^ w.n_bits * v) = w.acc + 2 ^ w.n_bits * v := by
      unfold u32; apply Nat.mod_eq_of_lt; norm_num at hT32 ⊢; omega
    rw [hacc1]
    rfl


theorem writer_bits_length (w : BitWriter) : w.bits.length = w.bit_len := by
  unfold BitWriter.bits BitWriter.bit_len
  simp [bits_of_bytes_length]

theorem writer_bits_value (w : BitWriter) (hw : w.wf) : bits_value w.bits = w.stream := by
  unfold BitWriter.bits BitWriter.stream
  rw [bits_value_append, bits_of_bytes_value, bits_of_bytes_length, bits_value_testBits,
    Nat.mod_eq_of_lt hw.2]

theorem code_bits_length (v bits : Nat) : (code_bits v bits).length = bits := by
  unfold code_bits; simp

/-- One code, written through the 32-bit accumulator, adds its bits, least significant
bit first, after the bits the writer already holds. -/
theorem put_bits_bits (dbg : Bool) (v bits : Nat) (w : BitWriter) (hw : w.wf)
    (hb : bits ≤ 32) (hv : v < 2 ^ bits) :
    ∃ w', put_bits dbg v bits w = .ok w' ∧ w'.wf ∧ w'.bits = w.bits ++ code_bits v bits := by
  obtain ⟨w', he, hwf, hs, hl⟩ := put_bits_spec dbg v bits w hw hb hv
  refine ⟨w', he, hwf, ?_⟩
  apply bits_value_inj
  · rw [List.length_append, writer_bits_length, writer_bits_length, code_bits_length, hl]
  · rw [bits_value_append, writer_bits_value w' hwf, writer_bits_value w hw,
      writer_bits_length, hs]
    unfold code_bits
    rw [bits_value_testBits, Nat.mod_eq_of_lt hv]

/-- A sequence of calls whose codes fit their widths of at most 32 bits: the writer
holds the packing of the codes and is in the state of the reference writer. -/
theorem encode_all_pack (dbg : Bool) : ∀ (calls codes : List (Nat × Nat)) (w : BitWriter),
    w.wf →
    List.Forall₂ (fun call code => call.1 < call.2 ∧ call.2 < 2 ^ 64 ∧
      encode_code call.1 call.2 = .ok code ∧ code.2 ≤ 32 ∧ code.1 < 2 ^ code.2) calls codes →
    ∃ w', encode_all dbg calls w = .ok w' ∧ w'.wf ∧ w'.bits = w.bits ++ pack_codes codes ∧
      ref_encode_all calls w = .ok w' := by
  intro calls
  induction calls with
  | nil =>
    intro codes w hw h
    cases h
    exact ⟨w, rfl, hw, by simp [pack_codes], rfl⟩
  | cons call rest ih =>
    intro codes w hw h
    cases h with
    | cons hhead htail =>
      rename_i code codes'
      obtain ⟨hlt, h64, hcode, hb, hv⟩ := hhead
      have h64' : call.2 < 18446744073709551616 := by norm_num at h64; exact h64
      have hu1 : u64 call.1 = call.1 := by unfold u64; omega
      have hu2 : u64 call.2 = call.2 := by unfold u64; omega
      obtain ⟨w1, he1, hwf1, hbits1⟩ := put_bits_bits dbg code.1 code.2 w hw hb hv
      have hr1 := put_bits_eq_ref dbg code.1 code.2 w hw hb hv
      rw [he1] at hr1
      have henc : w.encode dbg call.1 call.2 = .ok w1 := by
        unfold BitWriter.encode
        dsimp only
        rw [hu1, hu2, assert_true dbg _ (by simp [hlt]), ok_bind, hcode, ok_bind]
        exact he1
      have href : ref_encode call.1 call.2 w = .ok w1 := by
        unfold ref_encode
        rw [hu1, hu2, hcode, ok_bind]
        exact hr1.symm
      obtain ⟨w', he, hwf, hbits, hr⟩ := ih codes' w1 hwf1 htail
      refine ⟨w', ?_, hwf, ?_, ?_⟩
      · show (w.encode dbg call.1 call.2 >>= fun w => encode_all dbg rest w) = _
        rw [henc, ok_bind]; exact he
      · rw [hbits, hbits1, List.append_assoc]; rfl
      · show (ref_encode call.1 call.2 w >>= fun w => ref_encode_all rest w) = _
        rw [href, ok_bind]; exact hr

/-- C12: for every sequence of calls of `encode` whose codes fit their widths of at most
32 bits, started in a state that satisfies the writer invariant, the bits of the buffer
followed by the pending bits of the accumulator are the bits held before followed by
the packing of the codes, least significant bit first; and the writer is in the very
state of the reference writer with an unbounded accumulator and no split write. -/
theorem split_write_format (dbg : Bool) (calls codes : List (Nat × Nat)) (w : BitWriter)
    (hw : w.wf)
    (hcodes : List.Forall₂ (fun call code => call.1 < call.2 ∧ call.2 < 2 ^ 64 ∧
      encode_code call.1 call.2 = .ok code ∧ code.2 ≤ 32 ∧ code.1 < 2 ^ code.2)
      calls codes) :
    ∃ w', encode_all dbg calls w = .ok w' ∧ w'.wf ∧ w'.bits = w.bits ++ pack_codes codes ∧
      ref_encode_all calls w = .ok w' :=
  encode_all_pack dbg calls codes w hw hcodes

/-- Witness of C12: the calls `encode(6, 7)`, `encode(2^29 + 5, 2^30)` and
`encode(1, 2)` on the initial writer; the second call finds 3 pending bits and adds 30,
so it takes the split write. -/
theorem split_write_format_witness :
    BitWriter.init.wf ∧
    List.Forall₂ (fun call code => call.1 < call.2 ∧ call.2 < 2 ^ 64 ∧
      encode_code call.1 call.2 = .ok code ∧ code.2 ≤ 32 ∧ code.1 < 2 ^ code.2)
      [(6, 7), (536870917, 1073741824), (1, 2)] [(6, 3), (536870917, 30), (1, 1)] ∧
    ∃ w', encode_all true [(6, 7), (536870917, 1073741824), (1, 2)] BitWriter.init = .ok w' ∧
      w'.wf ∧
      w'.bits = BitWriter.init.bits ++ pack_codes [(6, 3), (536870917, 30), (1, 1)] ∧
      ref_encode_all [(6, 7), (536870917, 1073741824), (1, 2)] BitWriter.init = .ok w' :=
  ⟨⟨by decide, by decide⟩,
   .cons ⟨by decide, by decide, by rfl, by decide, by decide⟩
    (.cons ⟨by decide, by decide, by rfl, by decide, by decide⟩
      (.cons ⟨by decide, by decide, by rfl, by decide, by decide⟩ .nil)),
   split_write_format true [(6, 7), (536870917, 1073741824), (1, 2)]
    [(6, 3), (536870917, 30), (1, 1)] BitWriter.init ⟨by decide, by decide⟩
    (.cons ⟨by decide, by decide, by rfl, by decide, by decide⟩
      (.cons ⟨by decide, by decide, by rfl, by decide, by decide⟩
        (.cons ⟨by decide, by decide, by rfl, by decide, by decide⟩ .nil)))⟩
/-! ## C13 and C14: the assertions and the life cycle of the incremental decoder -/


/-- C13, the behaviour of the code at a failing input: the cursor
`decode_interpolative(0, 4, 10, 20)` on the buffer `[57]` is valid and the stream holds
enough bits (without assertions the three calls return 12, 13 and 17), but in a build
with assertions the first call faults.  In the state in which the first call reaches
the emit branch (after two passes of the loop) the frame stack is not empty, so the pop
is defined and the pass returns 12 without assertions, while with assertions the check
of the emit branch fails. -/
theorem valid_next_call_faults :
    (∃ r', next_n false 3 ((BitReader.init [57]).with_cursor [] (Frame.set 0 4 10 20)) =
      .ok ([12, 13, 17], r')) ∧
    (∃ rc, (BitReader.init [57]).decode_interpolative_cursor true 0 4 10 20 = .ok rc ∧
      rc.decode_interpolative_next true = .error .assertion) ∧
    run_passes false 2 ((BitReader.init [57]).with_cursor [] (Frame.set 0 4 10 20)) =
      .ok ⟨[57], 1, 4, 3, [⟨0, 4, 10, 20⟩, ⟨0, 2, 10, 13⟩], ⟨0, 1, 10, 12⟩⟩ ∧
    next_pass false ⟨[57], 1, 4, 3, [⟨0, 4, 10, 20⟩, ⟨0, 2, 10, 13⟩], ⟨0, 1, 10, 12⟩⟩ =
      .ok (some 12, ⟨[57], 1, 4, 3, [⟨0, 4, 10, 20⟩], ⟨1, 2, 12, 13⟩⟩) ∧
    next_pass true ⟨[57], 1, 4, 3, [⟨0, 4, 10, 20⟩, ⟨0, 2, 10, 13⟩], ⟨0, 1, 10, 12⟩⟩ =
      .error .assertion := by
  refine ⟨⟨_, by rfl⟩, ⟨_, by rfl, next_faults_with_assertions _⟩, by rfl, by rfl, by rfl⟩

/-- C14, the behaviour of the code at a failing input: the cursor
`decode_interpolative(3, 4, 17, 20)` has no interior value, so no call of
`decode_interpolative_next()` is due, yet the current frame is `(3, 4, 17, 20)` and not
the marker `set(0, 0, 0, 0)`: the cursor is not exhausted, a plain `decode` fails the
entry check, and without assertions a call of `decode_interpolative_next()` returns 0
and leaves the frame in place, so the reader never returns to plain decoding. -/
theorem cursor_without_interior_stays_active :
    (BitReader.init []).decode_interpolative_cursor true 3 4 17 20 =
      .ok ((BitReader.init []).with_cursor [] ⟨3, 4, 17, 20⟩) ∧
    next_n false (4 - 3 - 1) ((BitReader.init []).with_cursor [] ⟨3, 4, 17, 20⟩) =
      .ok ([], (BitReader.init []).with_cursor [] ⟨3, 4, 17, 20⟩) ∧
    ¬ ((BitReader.init []).with_cursor [] ⟨3, 4, 17, 20⟩).exhausted ∧
    ((BitReader.init []).with_cursor [] ⟨3, 4, 17, 20⟩).di_current.is_initialized = true ∧
    ((BitReader.init []).with_cursor [] ⟨3, 4, 17, 20⟩).decode true 1 false =
      .error .assertion ∧
    ((BitReader.init []).with_cursor [] ⟨3, 4, 17, 20⟩).decode_interpolative_next false =
      .ok (0, (BitReader.init []).with_cursor [] ⟨3, 4, 17, 20⟩) := by
  refine ⟨by rfl, by rfl, ?_, by rfl, by rfl, by rfl⟩
  intro h
  have := h.2
  revert this
  decide
/-! ## C15 and C16: the calls of the interpolative encoder -/


/-- The loop of the encoder is its generic form with `BitWriter::encode` as the callee. -/
theorem gen_encode (dbg : Bool) (pos : List Nat) (fuel : Nat) : ∀ (j k : Nat) (w : BitWriter),
    encode_interpolative_gen (fun v o w => BitWriter.encode dbg v o w) fuel pos j k w =
      encode_interpolative_loop fuel dbg pos j k w := by
  induction fuel with
  | zero => intro j k w; rfl
  | succ fuel ih =>
    intro j k w
    unfold encode_interpolative_gen encode_interpolative_loop
    simp only [ih]

theorem encode_all_append (dbg : Bool) : ∀ (a b : List (Nat × Nat)) (w : BitWriter),
    encode_all dbg (a ++ b) w = (encode_all dbg a w >>= fun w' => encode_all dbg b w') := by
  intro a
  induction a with
  | nil => intro b w; rfl
  | cons c a ih =>
    intro b w
    show (w.encode dbg c.1 c.2 >>= fun w' => encode_all dbg (a ++ b) w') =
      ((w.encode dbg c.1 c.2 >>= fun w' => encode_all dbg a w') >>= fun w' => encode_all dbg b w')
    cases h : w.encode dbg c.1 c.2 with
    | error e => rfl
    | ok w1 =>
      rw [ok_bind, ok_bind]
      exact ih b w1

/-- The splits of a range lie inside the range. -/
theorem ref_splits_range (fuel : Nat) : ∀ (j k : Nat) (s : Nat × Nat × Nat),
    s ∈ ref_splits fuel j k →
    j ≤ s.1 ∧ s.1 + 1 < s.2.2 ∧ s.2.2 ≤ k ∧ s.2.1 = (s.1 + s.2.2) / 2 := by
  induction fuel with
  | zero => intro j k s h; cases h
  | succ fuel ih =>
    intro j k s h
    unfold ref_splits at h
    by_cases hjk : k - j > 1
    · rw [if_pos hjk] at h
      rcases List.mem_cons.1 h with h | h
      · subst h
        exact ⟨Nat.le_refl _, by dsimp only; omega, Nat.le_refl _, rfl⟩
      · rcases List.mem_append.1 h with h | h
        · obtain ⟨a, b, c, d⟩ := ih _ _ s h
          exact ⟨a, b, by omega, d⟩
        · obtain ⟨a, b, c, d⟩ := ih _ _ s h
          exact ⟨by omega, b, c, d⟩
    · rw [if_neg hjk] at h; cases h

/-- The reference recursion does not depend on the fuel, once there is enough. -/
theorem ref_splits_fuel (f : Nat) : ∀ (f' j k : Nat), k - j ≤ f → k - j ≤ f' →
    ref_splits f j k = ref_splits f' j k := by
  induction f with
  | zero =>
    intro f' j k h _
    cases f' with
    | zero => rfl
    | succ f' =>
      unfold ref_splits
      rw [if_neg (by omega)]
  | succ f ih =>
    intro f' j k h h'
    cases f' with
    | zero =>
      unfold ref_splits
      rw [if_neg (by omega)]
    | succ f' =>
      unfold ref_splits
      by_cases hjk : k - j > 1
      · rw [if_pos hjk, if_pos hjk, ih f' j ((j + k) / 2) (by omega) (by omega),
          ih f' ((j + k) / 2) k (by omega) (by omega)]
      · rw [if_neg hjk, if_neg hjk]

/-- The reference recursion has one split for every interior index. -/
theorem ref_splits_length (fuel : Nat) : ∀ (j k : Nat), k - j ≤ fuel →
    (ref_splits fuel j k).length = k - j - 1 := by
  induction fuel with
  | zero => intro j k h; show 0 = _; omega
  | succ fuel ih =>
    intro j k h
    unfold ref_splits
    by_cases hjk : k - j > 1
    · rw [if_pos hjk, List.length_cons, List.length_append, ih _ _ (by omega),
        ih _ _ (by omega)]
      omega
    · rw [if_neg hjk]; show 0 = _; omega

/-- The entries that the splits of a range encode are the interior indices of the
range, each of them once. -/
theorem ref_splits_mids (fuel : Nat) : ∀ (j k : Nat), k - j ≤ fuel →
    ((ref_splits fuel j k).map fun s => s.2.1).Perm (List.range' (j + 1) (k - j - 1)) := by
  induction fuel with
  | zero =>
    intro j k h
    have : k - j - 1 = 0 := by omega
    rw [this]; exact List.Perm.refl _
  | succ fuel ih =>
    intro j k h
    unfold ref_splits
    by_cases hjk : k - j > 1
    · rw [if_pos hjk, List.map_cons, List.map_append]
      have h1 := ih j ((j + k) / 2) (by omega)
      have h2 := ih ((j + k) / 2) k (by omega)
      have e : k - j - 1 = ((k - (j + k) / 2 - 1) + 1) + ((j + k) / 2 - j - 1) := by omega
      rw [e, ← List.range'_append_1 (j + 1) ((j + k) / 2 - j - 1) ((k - (j + k) / 2 - 1) + 1)]
      have e2 : j + 1 + ((j + k) / 2 - j - 1) = (j + k) / 2 := by omega
      rw [e2, ← List.range'_append_1 ((j + k) / 2) 1 (k - (j + k) / 2 - 1)]
      show List.Perm _ (_ ++ ((j + k) / 2 :: List.range' ((j + k) / 2 + 1) (k - (j + k) / 2 - 1)))
      refine List.Perm.trans (List.perm_middle.symm) ?_
      apply List.Perm.append h1
      exact List.Perm.cons _ h2
    · rw [if_neg hjk]
      have : k - j - 1 = 0 := by omega
      rw [this]; exact List.Perm.refl _

/-- The calls that the loop of the encoder makes are the calls of the reference
recursion, in the same order. -/
theorem gen_log (pos : List Nat) (fuel : Nat) : ∀ (j k : Nat) (log : List (Nat × Nat)),
    k < pos.length →
    encode_interpolative_gen log_call fuel pos j k log =
      .ok (log ++ (ref_splits fuel j k).map (interp_call pos)) := by
  induction fuel with
  | zero => intro j k log _; simp [encode_interpolative_gen, ref_splits]
  | succ fuel ih =>
    intro j k log hk
    unfold encode_interpolative_gen ref_splits
    by_cases hjk : j + 1 < k
    · rw [if_pos hjk, if_pos (by omega)]
      rw [vec_at_ok pos k hk, ok_bind, vec_at_ok pos j (by omega), ok_bind,
        vec_at_ok pos ((j + k) / 2) (by omega), ok_bind]
      have e : ∀ v o, log_call v o log = .ok (log ++ [(v, o)]) := fun _ _ => rfl
      rw [e, ok_bind, ih j ((j + k) / 2) _ (by omega), ok_bind, ih ((j + k) / 2) k _ hk]
      simp [interp_call]
    · rw [if_neg hjk, if_neg (by omega)]
      simp

/-- The loop of the encoder performs the calls of the reference recursion on the
writer, in order. -/
theorem loop_encode_all (dbg : Bool) (pos : List Nat) (fuel : Nat) :
    ∀ (j k : Nat) (w : BitWriter), k < pos.length →
    encode_interpolative_loop fuel dbg pos j k w =
      encode_all dbg ((ref_splits fuel j k).map (interp_call pos)) w := by
  induction fuel with
  | zero => intro j k w _; rfl
  | succ fuel ih =>
    intro j k w hk
    unfold encode_interpolative_loop ref_splits
    by_cases hjk : j + 1 < k
    · rw [if_pos hjk, if_pos (by omega)]
      rw [vec_at_ok pos k hk, ok_bind, vec_at_ok pos j (by omega), ok_bind,
        vec_at_ok pos ((j + k) / 2) (by omega), ok_bind]
      rw [List.map_cons, List.map_append]
      show _ = (w.encode dbg _ _ >>= fun w' => encode_all dbg _ w')
      have e : (interp_call pos (j, (j + k) / 2, k)) =
          (sub64 (pos.getD ((j + k) / 2) 0) (sub64 (add64 (pos.getD j 0) ((j + k) / 2)) j),
           interp_outof (pos.getD j 0) (pos.getD k 0) j k) := rfl
      rw [e]
      dsimp only
      cases h : w.encode dbg (sub64 (pos.getD ((j + k) / 2) 0)
          (sub64 (add64 (pos.getD j 0) ((j + k) / 2)) j))
          (interp_outof (pos.getD j 0) (pos.getD k 0) j k) with
      | error e => rfl
      | ok w1 =>
        rw [ok_bind, ok_bind, encode_all_append, ih j ((j + k) / 2) w1 (by omega)]
        cases h2 : encode_all dbg (List.map (interp_call pos) (ref_splits fuel j ((j + k) / 2))) w1 with
        | error e => rfl
        | ok w2 =>
          rw [ok_bind, ok_bind]
          exact ih ((j + k) / 2) k w2 hk
    · rw [if_neg hjk, if_neg (by omega)]
      rfl

/-- C15: for every sequence `pos` and indices `j`, `k` inside it,
`encode_interpolative(pos, j, k)`, a loop that calls itself for the left half and goes on
with the right half, makes exactly the calls of `encode` of the reference recursion of
section 4.3 of the spec, in the same order (the entry midway, then the left half, then
the right half): the recorded calls are the calls of the reference splits, the writer
ends as after these calls, and there are `k - j - 1` of them (none when `k - j ≤ 1`),
one for each interior index. -/
theorem encoder_follows_recursion (dbg : Bool) (pos : List Nat) (j k : Nat) (w : BitWriter)
    (hjk : j ≤ k) (hk : k < pos.length) :
    encode_interpolative_calls pos j k =
      .ok ((ref_splits (k - j) j k).map (interp_call pos)) ∧
    w.encode_interpolative dbg pos j k =
      encode_all dbg ((ref_splits (k - j) j k).map (interp_call pos)) w ∧
    ref_splits (k - j) j k =
      (if k - j > 1 then
        (j, (j + k) / 2, k) :: (ref_splits ((j + k) / 2 - j) j ((j + k) / 2) ++
          ref_splits (k - (j + k) / 2) ((j + k) / 2) k)
       else []) ∧
    (ref_splits (k - j) j k).length = k - j - 1 ∧
    ((ref_splits (k - j) j k).map fun s => s.2.1).Perm (List.range' (j + 1) (k - j - 1)) := by
  refine ⟨?_, loop_encode_all dbg pos (k - j) j k w hk, ?_, ref_splits_length _ j k (Nat.le_refl _),
    ref_splits_mids _ j k (Nat.le_refl _)⟩
  · unfold encode_interpolative_calls
    rw [gen_log pos (k - j) j k [] hk]
    rfl
  · by_cases h : k - j > 1
    · obtain ⟨f, hf⟩ : ∃ f, k - j = f + 1 := ⟨k - j - 1, by omega⟩
      rw [if_pos h, hf]
      conv_lhs => unfold ref_splits
      rw [if_pos h, ref_splits_fuel f ((j + k) / 2 - j) j ((j + k) / 2) (by omega) (Nat.le_refl _),
        ref_splits_fuel f (k - (j + k) / 2) ((j + k) / 2) k (by omega) (Nat.le_refl _)]
    · rw [if_neg h]
      have := ref_splits_length (k - j) j k (Nat.le_refl _)
      exact List.eq_nil_of_length_eq_zero (by omega)

/-- Witness of C15: the sequence `[10, 12, 13, 17, 20]` with `j = 0` and `k = 4`. -/
theorem encoder_follows_recursion_witness :
    0 ≤ 4 ∧ 4 < [10, 12, 13, 17, 20].length ∧
    (encode_interpolative_calls [10, 12, 13, 17, 20] 0 4 =
      .ok ((ref_splits (4 - 0) 0 4).map (interp_call [10, 12, 13, 17, 20])) ∧
    BitWriter.init.encode_interpolative true [10, 12, 13, 17, 20] 0 4 =
      encode_all true ((ref_splits (4 - 0) 0 4).map (interp_call [10, 12, 13, 17, 20]))
        BitWriter.init ∧
    ref_splits (4 - 0) 0 4 =
      (if 4 - 0 > 1 then
        (0, (0 + 4) / 2, 4) :: (ref_splits ((0 + 4) / 2 - 0) 0 ((0 + 4) / 2) ++
          ref_splits (4 - (0 + 4) / 2) ((0 + 4) / 2) 4)
       else []) ∧
    (ref_splits (4 - 0) 0 4).length = 4 - 0 - 1 ∧
    ((ref_splits (4 - 0) 0 4).map fun s => s.2.1).Perm (List.range' (0 + 1) (4 - 0 - 1))) :=
  ⟨by decide, by decide,
    encoder_follows_recursion true [10, 12, 13, 17, 20] 0 4 BitWriter.init (by decide)
      (by decide)⟩

/-- Above `2^31` the width is 32, and `1 << 32` has no defined result. -/
theorem encode_code_undefined (value outof : Nat) (h1 : 2147483648 < outof)
    (h2 : outof ≤ 4294967296) : encode_code value outof = .error .undefined := by
  have hfls : my_fls (u32 (sub64 outof 1)) = 32 := by
    have e : u32 (sub64 outof 1) = outof - 1 := by unfold u32 sub64 u64; omega
    rw [e, my_fls_eq_size _ (by omega)]
    exact spec_bits_of_bracket outof 32 (by norm_num; exact h1) (by norm_num; exact h2)
      (by norm_num)
  unfold encode_code
  rw [hfls]
  rfl

/-- A call of `encode` that satisfies the precondition fails no assertion: it returns,
or it stops at the shift `1 << 32`. -/
theorem encode_no_assert (value outof : Nat) (w : BitWriter) (hw : w.wf) (h1 : 1 ≤ outof)
    (h2 : outof ≤ 4294967296) (hv : value < outof) :
    (∃ w', w.encode true value outof = .ok w' ∧ w'.wf) ∨
    w.encode true value outof = .error .undefined := by
  by_cases hs : outof ≤ 2147483648
  · obtain ⟨w', he, hwf, _⟩ := encode_wf true value outof w hw h1 hs hv
    exact Or.inl ⟨w', he, hwf⟩
  · right
    have hu1 : u64 value = value := by unfold u64; omega
    have hu2 : u64 outof = outof := by unfold u64; omega
    unfold BitWriter.encode
    dsimp only
    rw [hu1, hu2, assert_true true _ (by simp [hv]), ok_bind,
      encode_code_undefined value outof (by omega) h2, error_bind]

theorem encode_all_no_assert : ∀ (calls : List (Nat × Nat)) (w : BitWriter), w.wf →
    (∀ c ∈ calls, 1 ≤ c.2 ∧ c.2 ≤ 4294967296 ∧ c.1 < c.2) →
    (∃ w', encode_all true calls w = .ok w' ∧ w'.wf) ∨
    encode_all true calls w = .error .undefined := by
  intro calls
  induction calls with
  | nil => intro w hw _; exact Or.inl ⟨w, rfl, hw⟩
  | cons c rest ih =>
    intro w hw h
    obtain ⟨a1, a2, a3⟩ := h c (List.mem_cons_self _ _)
    show (∃ w', (w.encode true c.1 c.2 >>= fun w' => encode_all true rest w') = .ok w' ∧ w'.wf) ∨
      (w.encode true c.1 c.2 >>= fun w' => encode_all true rest w') = .error .undefined
    rcases encode_no_assert c.1 c.2 w hw a1 a2 a3 with ⟨w1, he, hwf⟩ | he
    · rw [he, ok_bind]
      exact ih w1 hwf fun c' hc' => h c' (List.mem_cons_of_mem _ hc')
    · rw [he]; exact Or.inr rfl

/-- On a strictly increasing sequence of 32-bit values the arguments of the call for a
split are computed without wrapping, and the value is below `outof`. -/
theorem interp_call_args (S : List Nat)
    (h32 : ∀ i, i < S.length → S.getD i 0 < 4294967296)
    (hinc : ∀ a b, a < b → b < S.length → S.getD a 0 < S.getD b 0)
    (s : Nat × Nat × Nat) (hjk : s.1 + 1 < s.2.2) (hk : s.2.2 < S.length)
    (hm : s.2.1 = (s.1 + s.2.2) / 2) :
    S.getD s.1 0 + (s.2.1 - s.1) ≤ S.getD s.2.1 0 ∧
    S.getD s.1 0 + (s.2.2 - s.1) ≤ S.getD s.2.2 0 ∧
    interp_call S s = (S.getD s.2.1 0 - (S.getD s.1 0 + (s.2.1 - s.1)),
      S.getD s.2.2 0 - S.getD s.1 0 - (s.2.2 - s.1) + 1) ∧
    (interp_call S s).1 < (interp_call S s).2 ∧ 1 ≤ (interp_call S s).2 ∧
    (interp_call S s).2 ≤ 4294967296 := by
  obtain ⟨j, mid, k⟩ := s
  simp only at hjk hk hm ⊢
  subst hm
  have hjm : j < (j + k) / 2 := by omega
  have hmk : (j + k) / 2 < k := by omega
  have g1 := increasing_gap S hinc j ((j + k) / 2 - j) (by omega)
  have g2 := increasing_gap S hinc ((j + k) / 2) (k - (j + k) / 2) (by omega)
  have g0 := increasing_gap S hinc 0 k (by omega)
  rw [Nat.add_sub_cancel' (by omega)] at g1 g2
  rw [Nat.zero_add] at g0
  have hk32 := h32 k hk
  obtain ⟨a1, a2, a3, _, _⟩ := interp_args (S.getD j 0) (S.getD ((j + k) / 2) 0)
    (S.getD k 0) j ((j + k) / 2) k hjm hmk g1 g2 hk32 (by omega)
  have e : interp_call S (j, (j + k) / 2, k) =
      (sub64 (S.getD ((j + k) / 2) 0) (sub64 (add64 (S.getD j 0) ((j + k) / 2)) j),
       interp_outof (S.getD j 0) (S.getD k 0) j k) := rfl
  rw [e, a1, a2]
  refine ⟨g1, by omega, ?_, a3, by omega, by dsimp only; omega⟩
  congr 1
  omega

/-- The calls of the encoder on a strictly increasing sequence satisfy the precondition
of `encode`, and the encoder fails no assertion. -/
theorem interp_calls_precondition (S : List Nat) (j k : Nat) (w : BitWriter)
    (h32 : ∀ i, i < S.length → S.getD i 0 < 4294967296)
    (hinc : ∀ a b, a < b → b < S.length → S.getD a 0 < S.getD b 0)
    (hk : k < S.length) (hw : w.wf) :
    (∀ s ∈ ref_splits (k - j) j k,
      S.getD s.1 0 + (s.2.1 - s.1) ≤ S.getD s.2.1 0 ∧
      S.getD s.1 0 + (s.2.2 - s.1) ≤ S.getD s.2.2 0 ∧
      interp_call S s = (S.getD s.2.1 0 - (S.getD s.1 0 + (s.2.1 - s.1)),
        S.getD s.2.2 0 - S.getD s.1 0 - (s.2.2 - s.1) + 1)) ∧
    (∀ call ∈ (ref_splits (k - j) j k).map (interp_call S), 1 ≤ call.2 ∧ call.1 < call.2) ∧
    w.encode_interpolative true S j k ≠ .error .assertion := by
  have hall : ∀ s ∈ ref_splits (k - j) j k, _ := fun s hs =>
    interp_call_args S h32 hinc s (ref_splits_range _ j k s hs).2.1
      (lt_of_le_of_lt (ref_splits_range _ j k s hs).2.2.1 hk) (ref_splits_range _ j k s hs).2.2.2
  refine ⟨fun s hs => ⟨(hall s hs).1, (hall s hs).2.1, (hall s hs).2.2.1⟩, ?_, ?_⟩
  · intro call hc
    obtain ⟨s, hs, rfl⟩ := List.mem_map.1 hc
    exact ⟨(hall s hs).2.2.2.2.1, (hall s hs).2.2.2.1⟩
  · have e : w.encode_interpolative true S j k = _ := loop_encode_all true S (k - j) j k w hk
    rw [e]
    have := encode_all_no_assert ((ref_splits (k - j) j k).map (interp_call S)) w hw (by
      intro call hc
      obtain ⟨s, hs, rfl⟩ := List.mem_map.1 hc
      exact ⟨(hall s hs).2.2.2.2.1, (hall s hs).2.2.2.2.2, (hall s hs).2.2.2.1⟩)
    rcases this with ⟨w', he, _⟩ | he
    · rw [he]; intro h; cases h
    · rw [he]; intro h; cases h

/-- C16: for every strictly increasing sequence `pos` of values of type
`Xapian::termpos` and indices `j`, `k` inside it, every call `encode(value, outof)`
that `encode_interpolative(pos, j, k)` makes has `outof ≥ 1` and `value < outof`, the
subtraction `pos[mid] - lowest` does not wrap, and in a build with assertions
`encode_interpolative` fails no assertion. -/
theorem encoder_respects_precondition (pos : List Nat) (j k : Nat) (w : BitWriter)
    (h32 : ∀ x ∈ pos, x < 2 ^ 32) (hinc : pos.Pairwise (· < ·))
    (hk : k < pos.length) (hw : w.wf) :
    ∃ calls, encode_interpolative_calls pos j k = .ok calls ∧
      (∀ call ∈ calls, 1 ≤ call.2 ∧ call.1 < call.2) ∧
      (∀ s ∈ ref_splits (k - j) j k,
        pos.getD s.1 0 + (s.2.1 - s.1) ≤ pos.getD s.2.1 0 ∧
        pos.getD s.1 0 + (s.2.2 - s.1) ≤ pos.getD s.2.2 0 ∧
        interp_call pos s = (pos.getD s.2.1 0 - (pos.getD s.1 0 + (s.2.1 - s.1)),
          pos.getD s.2.2 0 - pos.getD s.1 0 - (s.2.2 - s.1) + 1)) ∧
      w.encode_interpolative true pos j k ≠ .error .assertion := by
  obtain ⟨a, b, c⟩ := interp_calls_precondition pos j k w (forall_mem_getD pos h32)
    (pairwise_getD pos hinc) hk hw
  refine ⟨_, ?_, b, a, c⟩
  unfold encode_interpolative_calls
  rw [gen_log pos (k - j) j k [] hk]
  rfl

/-- Witness of C16: the sequence `[10, 12, 13, 17, 20]` with `j = 0` and `k = 4` on the
initial writer. -/
theorem encoder_respects_precondition_witness :
    (∀ x ∈ [10, 12, 13, 17, 20], x < 2 ^ 32) ∧ [10, 12, 13, 17, 20].Pairwise (· < ·) ∧
    4 < [10, 12, 13, 17, 20].length ∧ BitWriter.init.wf ∧
    ∃ calls, encode_interpolative_calls [10, 12, 13, 17, 20] 0 4 = .ok calls ∧
      (∀ call ∈ calls, 1 ≤ call.2 ∧ call.1 < call.2) ∧
      (∀ s ∈ ref_splits (4 - 0) 0 4,
        [10, 12, 13, 17, 20].getD s.1 0 + (s.2.1 - s.1) ≤ [10, 12, 13, 17, 20].getD s.2.1 0 ∧
        [10, 12, 13, 17, 20].getD s.1 0 + (s.2.2 - s.1) ≤ [10, 12, 13, 17, 20].getD s.2.2 0 ∧
        interp_call [10, 12, 13, 17, 20] s =
          ([10, 12, 13, 17, 20].getD s.2.1 0 - ([10, 12, 13, 17, 20].getD s.1 0 + (s.2.1 - s.1)),
          [10, 12, 13, 17, 20].getD s.2.2 0 - [10, 12, 13, 17, 20].getD s.1 0 -
            (s.2.2 - s.1) + 1)) ∧
      BitWriter.init.encode_interpolative true [10, 12, 13, 17, 20] 0 4 ≠ .error .assertion :=
  ⟨by decide, by decide, by decide, ⟨by decide, by decide⟩,
    encoder_respects_precondition [10, 12, 13, 17, 20] 0 4 BitWriter.init (by decide)
      (by decide) (by decide) ⟨by decide, by decide⟩⟩
/-! ## C17: the value of `decode` is below `outof` -/


/-- A read of at most 25 bits returns a number of that many bits, whatever the state of
the reader. -/
theorem read_bits_small_lt (dbg : Bool) (count : Nat) (r r' : BitReader) (v : Nat)
    (hc : count ≤ 25) (h : read_bits_small dbg count r = .ok (v, r')) : v < 2 ^ count := by
  unfold read_bits_small at h
  obtain ⟨r1, _, h2⟩ := bind_eq_ok _ _ _ h
  cases h2
  have hP : 2 ^ count ≤ 2 ^ 25 := Nat.pow_le_pow_right (by norm_num) hc
  have hpos : 0 < 2 ^ count := Nat.pow_pos (by norm_num)
  have e : sub32 (1 <<< count) 1 = 2 ^ count - 1 := by
    rw [Nat.one_shiftLeft]
    unfold sub32 u32
    norm_num at hP
    omega
  rw [e]
  have := @Nat.and_le_right r1.acc (2 ^ count - 1)
  omega

/-- The method `read_bits(count)` returns a number of `count` bits, whatever the state of
the reader. -/
theorem read_bits_lt (dbg : Bool) (count : Nat) (r r' : BitReader) (v : Nat)
    (hc : count ≤ 32) (h : r.read_bits dbg count = .ok (v, r')) : v < 2 ^ count := by
  unfold BitReader.read_bits at h
  by_cases h25 : count ≤ 25
  · rw [read_bits_fuel_small _ _ _ _ h25] at h
    exact read_bits_small_lt dbg count r r' v h25 h
  · obtain ⟨n, hn⟩ : ∃ n, count = n + 1 := ⟨count - 1, by omega⟩
    rw [hn] at h
    unfold read_bits_fuel at h
    rw [← hn, if_pos (by omega)] at h
    obtain ⟨_, _, h1⟩ := bind_eq_ok _ _ _ h
    obtain ⟨x1, e1, h2⟩ := bind_eq_ok _ _ _ h1
    dsimp only at h2
    rw [read_bits_fuel_small _ _ _ _ (show count - 16 ≤ 25 by omega)] at h2
    obtain ⟨x2, e2, h3⟩ := bind_eq_ok _ _ _ h2
    cases h3
    have hlo := read_bits_small_lt dbg 16 r x1.2 x1.1 (by omega) e1
    have hhi := read_bits_small_lt dbg (count - 16) x1.2 x2.2 x2.1 (by omega) e2
    have hsplit : 2 ^ count = 2 ^ 16 * 2 ^ (count - 16) := by
      rw [← Nat.pow_add, Nat.add_sub_cancel' (by omega)]
    have hs : u32 (x2.1 <<< 16) < 2 ^ count := by
      have : u32 (x2.1 <<< 16) ≤ x2.1 * 2 ^ 16 := by
        rw [← Nat.shiftLeft_eq]; unfold u32; exact Nat.mod_le _ _
      rw [hsplit]
      have h4 : (x2.1 + 1) * 2 ^ 16 ≤ 2 ^ (count - 16) * 2 ^ 16 := Nat.mul_le_mul_right _ hhi
      rw [Nat.add_mul] at h4
      rw [Nat.mul_comm (2 ^ 16)]
      omega
    exact Nat.or_lt_two_pow
      (lt_of_lt_of_le hlo (Nat.pow_le_pow_right (by norm_num) (by omega))) hs

/-- A call of `decode(outof)` that returns, returns a value below `outof`, whatever the
state of the reader and whatever the bits. -/
theorem decode_ok_lt (dbg : Bool) (outof : Nat) (force : Bool) (r r' : BitReader) (p : Nat)
    (h1 : 1 ≤ outof) (h2 : outof ≤ 2147483648)
    (h : r.decode dbg outof force = .ok (p, r')) : p < outof := by
  have hb31 : spec_bits outof ≤ 31 := spec_bits_le outof 31 h1 (by norm_num; exact h2)
  have hu : u32 outof = outof := by unfold u32; omega
  have hfls : my_fls (sub32 outof 1) = spec_bits outof := by
    have e : sub32 outof 1 = outof - 1 := by unfold sub32 u32; omega
    rw [e, my_fls_eq_size _ (by omega)]; rfl
  obtain ⟨hle, hge⟩ := spec_bits_bracket outof h1
  have hP := pow_le_pow_31 _ hb31
  have hshl : shl1_int (spec_bits outof) = .ok (2 ^ spec_bits outof) := by
    unfold shl1_int; rw [if_pos (by omega)]
  have hspare : sub32 (2 ^ spec_bits outof) outof = 2 ^ spec_bits outof - outof := by
    unfold sub32 u32; omega
  unfold BitReader.decode at h
  obtain ⟨_, _, h⟩ := bind_eq_ok _ _ _ h
  dsimp only at h
  rw [hu, hfls, hshl, ok_bind, hspare] at h
  by_cases hs : 2 ^ spec_bits outof - outof = 0
  · simp only [hs, ↓reduceIte, ne_eq, not_true_eq_false] at h
    obtain ⟨x1, e1, h⟩ := bind_eq_ok _ _ _ h
    obtain ⟨_, _, h⟩ := bind_eq_ok _ _ _ h
    cases h
    have := read_bits_lt dbg _ r x1.2 x1.1 (by omega) e1
    omega
  · have h2' : 2 ≤ outof := by
      by_contra hc
      have : outof = 1 := by omega
      subst this
      rw [spec_bits_one] at hs; simp at hs
    obtain ⟨hb1, hQ, hPQ⟩ := hge h2'
    simp only [hs, ↓reduceIte, ne_eq, not_false_eq_true] at h
    have hms : sub64 outof (2 ^ spec_bits outof - outof) / 2 =
        (outof - (2 ^ spec_bits outof - outof)) / 2 := by
      unfold sub64 u64; omega
    rw [hms] at h
    obtain ⟨x1, e1, h⟩ := bind_eq_ok _ _ _ h
    have hp := read_bits_lt dbg _ r x1.2 x1.1 (by omega) e1
    by_cases hlow : x1.1 < (outof - (2 ^ spec_bits outof - outof)) / 2
    · simp only [hlow, ↓reduceIte] at h
      obtain ⟨x2, e2, h⟩ := bind_eq_ok _ _ _ h
      obtain ⟨_, _, h⟩ := bind_eq_ok _ _ _ h
      cases h
      by_cases hb : x2.1 ≠ 0
      · rw [if_pos hb]
        have : u32 (add64 x1.1 (add64 ((outof - (2 ^ spec_bits outof - outof)) / 2)
            (2 ^ spec_bits outof - outof))) =
            x1.1 + (outof - (2 ^ spec_bits outof - outof)) / 2 +
              (2 ^ spec_bits outof - outof) := by
          unfold u32 add64; omega
        rw [this]; omega
      · rw [if_neg hb]; omega
    · simp only [hlow, ↓reduceIte] at h
      obtain ⟨_, _, h⟩ := bind_eq_ok _ _ _ h
      cases h
      omega

/-- C17: for every `outof` with `1 ≤ outof ≤ 2^31`, on every reader that holds enough
bits for the code at the head of its stream, whatever these bits are,
`BitReader::decode(outof)` returns a value `p < outof`, in a build with assertions too,
so the assertion `p < outof` holds; and a call of `decode` that returns, from any state
whatever, returns a value below `outof`. -/
theorem decode_post_condition (dbg : Bool) (outof : Nat) (r : BitReader) (h1 : 1 ≤ outof)
    (h2 : outof ≤ 2 ^ 31) (hr : r.valid) (hnc : r.no_cursor)
    (hun : spec_decode_width outof r.stream ≤ r.unread) :
    (∃ p r', r.decode dbg outof false = .ok (p, r') ∧ p < outof) ∧
    (∀ (r0 r' : BitReader) (force : Bool) (p : Nat),
      r0.decode dbg outof force = .ok (p, r') → p < outof) := by
  have h2' : outof ≤ 2147483648 := by norm_num at h2; exact h2
  constructor
  · obtain ⟨r', he, _, hlt⟩ := decode_spec dbg outof false r hr (no_cursor_assert dbg r hnc)
      h1 h2' hun
    exact ⟨_, r', he, hlt⟩
  · intro r0 r' force p h
    exact decode_ok_lt dbg outof force r0 r' p h1 h2' h

/-- Witness of C17: `decode(7)` on the buffer `[3]` in a build with assertions. -/
theorem decode_post_condition_witness :
    1 ≤ 7 ∧ 7 ≤ 2 ^ 31 ∧ (BitReader.init [3]).valid ∧ (BitReader.init [3]).no_cursor ∧
    spec_decode_width 7 (BitReader.init [3]).stream ≤ (BitReader.init [3]).unread ∧
    ((∃ p r', (BitReader.init [3]).decode true 7 false = .ok (p, r') ∧ p < 7) ∧
    (∀ (r0 r' : BitReader) (force : Bool) (p : Nat),
      r0.decode true 7 force = .ok (p, r') → p < 7)) :=
  ⟨by decide, by decide, ⟨by decide, by decide, by decide⟩, by rfl,
    by simp [spec_decode_width, spec_spare, spec_mid_start, spec_bits, Nat.size,
      Nat.binaryRec, BitReader.init, BitReader.stream, BitReader.unread, bytes_value],
    decode_post_condition true 7 (BitReader.init [3]) (by decide) (by decide)
      ⟨by decide, by decide, by decide⟩ (by rfl)
      (by simp [spec_decode_width, spec_spare, spec_mid_start, spec_bits, Nat.size,
        Nat.binaryRec, BitReader.init, BitReader.stream, BitReader.unread, bytes_value])⟩
/-! ## C18: the recursive decoder yields strictly increasing sequences -/


theorem spec_decode_width_le (outof x : Nat) : spec_decode_width outof x ≤ spec_bits outof := by
  unfold spec_decode_width
  split
  · exact Nat.le_refl _
  · split
    · exact Nat.le_refl _
    · exact Nat.sub_le _ _

/-- On any stream with enough bits the recursive decoder returns, and the entries it
stores keep the sequence strictly increasing between `j` and `k`. -/
theorem decode_interpolative_increasing (dbg : Bool) (B : Nat) (fuel : Nat) :
    ∀ (j k : Nat) (P : List Nat) (r : BitReader),
      k - j ≤ fuel → j < k → k < P.length → k < 4294967296 → P.getD k 0 < 4294967296 →
      P.getD j 0 + (k - j) ≤ P.getD k 0 →
      P.getD k 0 - P.getD j 0 - (k - j) + 1 ≤ 2 ^ B →
      P.getD k 0 - P.getD j 0 - (k - j) + 1 ≤ 2147483648 →
      r.valid → r.no_cursor → (k - j - 1) * B ≤ r.unread →
      ∃ P' r' c, decode_interpolative_loop fuel dbg P j k r = .ok (P', r') ∧
        r.advanced r' c ∧ c ≤ (k - j - 1) * B ∧ P'.length = P.length ∧
        (∀ a b, j ≤ a → a < b → b ≤ k → P'.getD a 0 < P'.getD b 0) ∧
        P'.getD j 0 = P.getD j 0 ∧ P'.getD k 0 = P.getD k 0 ∧
        (∀ i, i < j ∨ k < i → P'.getD i 0 = P.getD i 0) := by
  induction fuel with
  | zero =>
    intro j k P r hf hjk
    omega
  | succ fuel ih =>
    intro j k P r hf hjk' hk hk32 hpk hgap hB h31 hr hnc hun
    have hadv0 : r.advanced r 0 := ⟨hr, rfl, rfl, rfl, by simp, by omega⟩
    unfold decode_interpolative_loop
    by_cases hjk : j + 1 < k
    · rw [if_pos hjk]
      have hjm : j < (j + k) / 2 := by omega
      have hmk : (j + k) / 2 < k := by omega
      obtain ⟨a1, _, _, _, _⟩ := interp_args (P.getD j 0) (P.getD j 0 + ((j + k) / 2 - j))
        (P.getD k 0) j ((j + k) / 2) k hjm hmk (Nat.le_refl _) (by omega) hpk hk32
      rw [vec_at_ok P k hk, ok_bind, vec_at_ok P j (by omega), ok_bind]
      dsimp only
      rw [a1]
      generalize hO : P.getD k 0 - P.getD j 0 - (k - j) + 1 = outof at *
      have hwB : spec_decode_width outof r.stream ≤ B :=
        le_trans (spec_decode_width_le _ _) (spec_bits_le outof B (by omega) hB)
      have hsplit : (k - j - 1) * B =
          B + ((j + k) / 2 - j - 1) * B + (k - (j + k) / 2 - 1) * B := by
        have : k - j - 1 = 1 + ((j + k) / 2 - j - 1) + (k - (j + k) / 2 - 1) := by omega
        rw [this]; ring
      obtain ⟨r1, d1, adv1, hlt⟩ := decode_spec dbg outof false r hr
        (no_cursor_assert dbg r hnc) (by omega) h31 (by omega)
      generalize hp : spec_decode_value outof r.stream = p at *
      generalize hw : spec_decode_width outof r.stream = wd at *
      rw [d1, ok_bind]
      dsimp only
      obtain ⟨_, _, _, a4, _⟩ := interp_args (P.getD j 0) (p + P.getD j 0 + ((j + k) / 2 - j))
        (P.getD k 0) j ((j + k) / 2) k hjm hmk (by omega) (by omega) hpk hk32
      have hpe : p + P.getD j 0 + ((j + k) / 2 - j) - P.getD j 0 - ((j + k) / 2 - j) = p := by
        omega
      rw [hpe] at a4
      rw [a4, if_pos (by omega)]
      have hnc1 : r1.no_cursor := by
        unfold BitReader.no_cursor at hnc ⊢; rw [adv1.2.2.2.1]; exact hnc
      have hassert : Assert dbg (!r1.di_current.is_initialized) = .ok () := by
        have := no_cursor_assert dbg r1 hnc1
        simpa using this
      rw [hassert, ok_bind]
      have hun1 := adv1.2.2.2.2.2
      generalize hpm : p + P.getD j 0 + ((j + k) / 2 - j) = pm at *
      have hP1j : (P.set ((j + k) / 2) pm).getD j 0 = P.getD j 0 :=
        getD_set_ne _ _ _ _ (by omega)
      have hP1m : (P.set ((j + k) / 2) pm).getD ((j + k) / 2) 0 = pm :=
        getD_set_eq _ _ _ (by omega)
      have hP1k : (P.set ((j + k) / 2) pm).getD k 0 = P.getD k 0 :=
        getD_set_ne _ _ _ _ (by omega)
      have hB1 : pm - P.getD j 0 - ((j + k) / 2 - j) + 1 ≤ outof := by omega
      obtain ⟨P2, r2, c2, d2, adv2, hc2, hlen2, hinc2, hj2, hk2, hout2⟩ :=
        ih j ((j + k) / 2) (P.set ((j + k) / 2) pm) r1 (by omega) hjm
          (by rw [List.length_set]; omega) (by omega) (by rw [hP1m]; omega)
          (by rw [hP1j, hP1m]; omega)
          (by rw [hP1j, hP1m]; exact le_trans hB1 hB)
          (by rw [hP1j, hP1m]; omega) adv1.1 hnc1 (by omega)
      rw [d2, ok_bind]
      dsimp only
      have hnc2 : r2.no_cursor := by
        unfold BitReader.no_cursor at hnc1 ⊢; rw [adv2.2.2.2.1]; exact hnc1
      have hun2 := adv2.2.2.2.2.2
      have hP2m : P2.getD ((j + k) / 2) 0 = pm := by rw [hk2, hP1m]
      have hP2k : P2.getD k 0 = P.getD k 0 := by rw [hout2 k (Or.inr hmk), hP1k]
      have hP2j : P2.getD j 0 = P.getD j 0 := by rw [hj2, hP1j]
      have hB2 : P.getD k 0 - pm - (k - (j + k) / 2) + 1 ≤ outof := by omega
      obtain ⟨P3, r3, c3, d3, adv3, hc3, hlen3, hinc3, hj3, hk3, hout3⟩ :=
        ih ((j + k) / 2) k P2 r2 (by omega) hmk
          (by rw [hlen2, List.length_set]; exact hk) hk32 (by rw [hP2k]; exact hpk)
          (by rw [hP2m, hP2k]; omega)
          (by rw [hP2m, hP2k]; exact le_trans hB2 hB)
          (by rw [hP2m, hP2k]; omega) adv2.1 hnc2 (by omega)
      refine ⟨P3, r3, wd + c2 + c3, d3,
        advanced_trans _ _ _ _ _ (advanced_trans _ _ _ _ _ adv1 adv2) adv3, by omega,
        by rw [hlen3, hlen2, List.length_set], ?_, ?_, ?_, ?_⟩
      · have hlow : ∀ i, i ≤ (j + k) / 2 → P3.getD i 0 = P2.getD i 0 := by
          intro i hi
          by_cases him : i = (j + k) / 2
          · rw [him]; exact hj3
          · exact hout3 i (Or.inl (by omega))
        intro a b ha hab hb
        by_cases hbm : b ≤ (j + k) / 2
        · rw [hlow a (by omega), hlow b hbm]
          exact hinc2 a b ha hab hbm
        · by_cases ham : (j + k) / 2 ≤ a
          · exact hinc3 a b ham hab hb
          · have h1 := hinc2 a ((j + k) / 2) ha (by omega) (Nat.le_refl _)
            have h2 := hinc3 ((j + k) / 2) b (Nat.le_refl _) (by omega) hb
            rw [hlow a (by omega)]
            rw [hj3] at h2
            omega
      · rw [hout3 j (Or.inl hjm), hP2j]
      · rw [hk3, hP2k]
      · intro i hi
        rw [hout3 i (by omega), hout2 i (by omega), getD_set_ne _ _ _ _ (by omega)]
    · rw [if_neg hjk]
      refine ⟨P, r, 0, rfl, hadv0, Nat.zero_le _, rfl, ?_, rfl, rfl, fun _ _ => rfl⟩
      intro a b ha hab hb
      have e1 : a = j := by omega
      have e2 : b = k := by omega
      rw [e1, e2]
      omega

/-- C18: for every stream that holds enough bits, whatever they are, and every
`0 ≤ j < k` inside `pos` with `pos[k] - pos[j] ≥ k - j` and a range
`pos[k] - pos[j] - (k - j) + 1` of at most `2^31`, the recursive
`decode_interpolative(pos, j, k)` returns, the entries `pos[j], ..., pos[k]` are strictly
increasing afterwards, `pos[j]` and `pos[k]` are unchanged and so are the entries outside
`[j, k]`.  Enough bits are `k - j - 1` times the bit length of the range less one. -/
theorem decoded_strictly_increasing (dbg : Bool) (pos : List Nat) (j k : Nat) (r : BitReader)
    (hjk : j < k) (hk : k < pos.length) (hidx : k < 2 ^ 31) (h32 : pos.getD k 0 < 2 ^ 32)
    (hgap : pos.getD j 0 + (k - j) ≤ pos.getD k 0)
    (hspan : pos.getD k 0 - pos.getD j 0 - (k - j) + 1 ≤ 2 ^ 31)
    (hr : r.valid) (hnc : r.no_cursor)
    (hbits : (k - j - 1) * spec_bits (pos.getD k 0 - pos.getD j 0 - (k - j) + 1) ≤ r.unread) :
    ∃ pos' r', r.decode_interpolative dbg pos j k = .ok (pos', r') ∧
      pos'.length = pos.length ∧
      (∀ a b, j ≤ a → a < b → b ≤ k → pos'.getD a 0 < pos'.getD b 0) ∧
      pos'.getD j 0 = pos.getD j 0 ∧ pos'.getD k 0 = pos.getD k 0 ∧
      (∀ i, i < j ∨ k < i → pos'.getD i 0 = pos.getD i 0) := by
  obtain ⟨P', r', c, d, _, _, hlen, hinc, hj, hk', hout⟩ :=
    decode_interpolative_increasing dbg
      (spec_bits (pos.getD k 0 - pos.getD j 0 - (k - j) + 1)) (k - j) j k pos r
      (Nat.le_refl _) hjk hk (by norm_num at hidx; omega) (lt_of_lt_of_le h32 (by norm_num)) hgap
      (spec_bits_bracket _ (by omega)).1 (le_trans hspan (by norm_num)) hr hnc hbits
  refine ⟨P', r', ?_, hlen, hinc, hj, hk', hout⟩
  unfold BitReader.decode_interpolative
  have hassert : Assert dbg (!r.di_current.is_initialized) = .ok () := by
    have := no_cursor_assert dbg r hnc
    simpa using this
  rw [hassert, ok_bind]
  exact d

/-- Witness of C18: the vector `[10, 0, 0, 0, 20]` and the buffer `[57, 0]` in a build
with assertions. -/
theorem decoded_strictly_increasing_witness :
    0 < 4 ∧ 4 < [10, 0, 0, 0, 20].length ∧ 4 < 2 ^ 31 ∧ [10, 0, 0, 0, 20].getD 4 0 < 2 ^ 32 ∧
    [10, 0, 0, 0, 20].getD 0 0 + (4 - 0) ≤ [10, 0, 0, 0, 20].getD 4 0 ∧
    [10, 0, 0, 0, 20].getD 4 0 - [10, 0, 0, 0, 20].getD 0 0 - (4 - 0) + 1 ≤ 2 ^ 31 ∧
    (BitReader.init [57, 0]).valid ∧ (BitReader.init [57, 0]).no_cursor ∧
    (4 - 0 - 1) * spec_bits ([10, 0, 0, 0, 20].getD 4 0 - [10, 0, 0, 0, 20].getD 0 0 -
      (4 - 0) + 1) ≤ (BitReader.init [57, 0]).unread ∧
    ∃ pos' r', (BitReader.init [57, 0]).decode_interpolative true [10, 0, 0, 0, 20] 0 4 =
        .ok (pos', r') ∧
      pos'.length = [10, 0, 0, 0, 20].length ∧
      (∀ a b, 0 ≤ a → a < b → b ≤ 4 → pos'.getD a 0 < pos'.getD b 0) ∧
      pos'.getD 0 0 = [10, 0, 0, 0, 20].getD 0 0 ∧
      pos'.getD 4 0 = [10, 0, 0, 0, 20].getD 4 0 ∧
      (∀ i, i < 0 ∨ 4 < i → pos'.getD i 0 = [10, 0, 0, 0, 20].getD i 0) :=
  ⟨by decide, by decide, by decide, by decide, by decide, by decide,
    ⟨by decide, by decide, by decide⟩, by rfl,
    by simp [spec_bits, Nat.size, Nat.binaryRec, BitReader.init, BitReader.unread],
    decoded_strictly_increasing true [10, 0, 0, 0, 20] 0 4 (BitReader.init [57, 0])
      (by decide) (by decide) (by decide) (by decide) (by decide) (by decide)
      ⟨by decide, by decide, by decide⟩ (by rfl)
      (by simp [spec_bits, Nat.size, Nat.binaryRec, BitReader.init, BitReader.unread])⟩

/-- C18 as stated fails for a range above `2^31`: with `pos[0] = 0` and
`pos[2] = 2^31 + 5` the range is `2^31 + 4`, `decode` evaluates `1 << 32`, and
`decode_interpolative(pos, 0, 2)` has no defined result, with and without assertions,
on a stream of 64 bits. -/
theorem decode_interpolative_large_range :
    0 < 2 ∧ 2 < [0, 0, 2147483653].length ∧
    [0, 0, 2147483653].getD 0 0 + (2 - 0) ≤ [0, 0, 2147483653].getD 2 0 ∧
    (¬ ∃ pos' r', (BitReader.init [0, 0, 0, 0, 0, 0, 0, 0]).decode_interpolative true
      [0, 0, 2147483653] 0 2 = .ok (pos', r')) ∧
    ¬ ∃ pos' r', (BitReader.init [0, 0, 0, 0, 0, 0, 0, 0]).decode_interpolative false
      [0, 0, 2147483653] 0 2 = .ok (pos', r') := by
  refine ⟨by decide, by decide, by decide, ?_, ?_⟩
  · rintro ⟨pos', r', h⟩
    have e : (BitReader.init [0, 0, 0, 0, 0, 0, 0, 0]).decode_interpolative true
      [0, 0, 2147483653] 0 2 = .error .undefined := by rfl
    rw [e] at h
    cases h
  · rintro ⟨pos', r', h⟩
    have e : (BitReader.init [0, 0, 0, 0, 0, 0, 0, 0]).decode_interpolative false
      [0, 0, 2147483653] 0 2 = .error .undefined := by rfl
    rw [e] at h
    cases h
/-! ## The passes of the loop of `decode_interpolative_next` -/


theorem next_pass_descend (dbg : Bool) (r : BitReader) (hn : r.di_current.is_next = true) :
    next_pass dbg r =
      ((BitReader.decode dbg
          (interp_outof r.di_current.pos_j r.di_current.pos_k r.di_current.j r.di_current.k)
          true { r with di_stack := r.di_stack ++ [r.di_current] }) >>= fun x =>
        .ok (none, x.2.with_cursor x.2.di_stack
          (Frame.set r.di_current.j ((r.di_current.j + r.di_current.k) / 2) r.di_current.pos_j
            (add32 x.1 (sub32 (add32 r.di_current.pos_j
              ((r.di_current.j + r.di_current.k) / 2)) r.di_current.j))))) := by
  unfold next_pass
  rw [if_pos hn]
  rfl

theorem next_pass_emit (r : BitReader) (stack : List Frame) (top : Frame)
    (hn : r.di_current.is_next = false) (hs : r.di_stack = stack ++ [top]) :
    next_pass false r =
      .ok (some r.di_current.pos_k, { r with
        di_stack := stack,
        di_current :=
          if stack.isEmpty &&
              !(Frame.set ((top.j + top.k) / 2) top.k r.di_current.pos_k top.pos_k).is_next
          then Frame.set 0 0 0 0
          else Frame.set ((top.j + top.k) / 2) top.k r.di_current.pos_k top.pos_k }) := by
  unfold next_pass
  rw [if_neg (by rw [hn]; simp), assert_release, ok_bind]
  rw [hs, List.getLast?_concat]
  dsimp only
  rw [List.dropLast_concat]
  rfl

/-- In a build with assertions no pass of the loop ends. -/
theorem next_pass_faults (r : BitReader)
    (hc : (!r.di_stack.isEmpty || r.di_current.is_next) = true) :
    next_pass true r = .error .assertion := by
  by_cases hn : r.di_current.is_next = true
  · rw [next_pass_descend true r hn, forced_decode_faults, error_bind]
  · unfold next_pass
    rw [if_neg hn]
    have hs : r.di_stack.isEmpty = false := by
      cases h : r.di_stack.isEmpty with
      | false => rfl
      | true => rw [h] at hc; simp at hc; exact absurd hc hn
    rw [assert_false _ (by rw [hs]; rfl), error_bind]

/-- The loop of `decode_interpolative_next` is the iteration of `next_pass`. -/
theorem next_loop_pass (dbg : Bool) (f : Nat) (r : BitReader) :
    next_loop (f + 1) dbg r =
      if (!r.di_stack.isEmpty || r.di_current.is_next) = true then
        next_pass dbg r >>= fun x =>
          match x.1 with
          | some v => .ok (v, x.2)
          | none => next_loop f dbg x.2
      else Assert dbg false >>= fun _ => .ok (0, r) := by
  conv_lhs => unfold next_loop
  by_cases hc : (!r.di_stack.isEmpty || r.di_current.is_next) = true
  · rw [if_pos hc, if_pos hc]
    by_cases hn : r.di_current.is_next = true
    · rw [if_pos hn, next_pass_descend dbg r hn]
      dsimp only
      cases hd : BitReader.decode dbg
          (interp_outof r.di_current.pos_j r.di_current.pos_k r.di_current.j r.di_current.k)
          true { r with di_stack := r.di_stack ++ [r.di_current] } with
      | error e => rfl
      | ok x => rfl
    · rw [if_neg hn]
      unfold next_pass
      rw [if_neg hn]
      dsimp only
      cases ha : Assert dbg (r.di_stack.isEmpty && !r.di_current.is_next) with
      | error e => rfl
      | ok u =>
        rw [ok_bind, ok_bind]
        cases hl : r.di_stack.getLast? with
        | none => rfl
        | some top => rfl
  · rw [if_neg hc, if_neg hc]
    rfl

/-- A property of the reader that every pass of the loop keeps is kept by any number
of passes, by a call of `decode_interpolative_next` and by any number of calls. -/
theorem passes_invariant (dbg : Bool) (Inv : BitReader → Prop)
    (hstep : ∀ (r r' : BitReader) (o : Option Nat),
      (!r.di_stack.isEmpty || r.di_current.is_next) = true → Inv r →
      next_pass dbg r = .ok (o, r') → Inv r') :
    (∀ (n : Nat) (r r' : BitReader), Inv r → run_passes dbg n r = .ok r' → Inv r') ∧
    (∀ (f : Nat) (r r' : BitReader) (v : Nat), Inv r → next_loop f dbg r = .ok (v, r') →
      Inv r') ∧
    (∀ (m : Nat) (r r' : BitReader) (vals : List Nat), Inv r →
      next_n dbg m r = .ok (vals, r') → Inv r') := by
  have hloop : ∀ (f : Nat) (r r' : BitReader) (v : Nat), Inv r →
      next_loop f dbg r = .ok (v, r') → Inv r' := by
    intro f
    induction f with
    | zero => intro r r' v _ h; cases h
    | succ f ih =>
      intro r r' v hI h
      rw [next_loop_pass] at h
      by_cases hc : (!r.di_stack.isEmpty || r.di_current.is_next) = true
      · rw [if_pos hc] at h
        obtain ⟨x, hx, h2⟩ := bind_eq_ok _ _ _ h
        have hI2 := hstep r x.2 x.1 hc hI hx
        cases ho : x.1 with
        | some v' =>
          rw [ho] at h2
          cases h2
          exact hI2
        | none =>
          rw [ho] at h2
          exact ih x.2 r' v hI2 h2
      · rw [if_neg hc] at h
        obtain ⟨_, _, h2⟩ := bind_eq_ok _ _ _ h
        cases h2
        exact hI
  refine ⟨?_, hloop, ?_⟩
  · intro n
    induction n with
    | zero => intro r r' hI h; cases h; exact hI
    | succ n ih =>
      intro r r' hI h
      unfold run_passes at h
      by_cases hc : (!r.di_stack.isEmpty || r.di_current.is_next) = true
      · rw [if_pos hc] at h
        obtain ⟨x, hx, h2⟩ := bind_eq_ok _ _ _ h
        exact ih x.2 r' (hstep r x.2 x.1 hc hI hx) h2
      · rw [if_neg hc] at h
        cases h
        exact hI
  · intro m
    induction m with
    | zero => intro r r' vals hI h; cases h; exact hI
    | succ m ih =>
      intro r r' vals hI h
      unfold next_n at h
      obtain ⟨x, hx, h2⟩ := bind_eq_ok _ _ _ h
      obtain ⟨y, hy, h3⟩ := bind_eq_ok _ _ _ h2
      cases h3
      unfold BitReader.decode_interpolative_next at hx
      obtain ⟨_, _, hx2⟩ := bind_eq_ok _ _ _ hx
      exact ih x.2 y.2 y.1 (hloop _ r x.2 x.1 hI hx2) hy

/-! ## C19: the invariant of the frames -/


/-- A call of `decode` leaves the frames of the cursor as they are. -/
theorem decode_keeps_cursor (outof : Nat) (force : Bool) (r r' : BitReader) (p : Nat)
    (h : r.decode false outof force = .ok (p, r')) :
    r'.di_stack = r.di_stack ∧ r'.di_current = r.di_current := by
  have hc := decode_with_cursor outof force force r.di_stack r.di_current r
  have e : r.with_cursor r.di_stack r.di_current = r := rfl
  rw [e, h, map_ok] at hc
  have h2 : r' = r'.with_cursor r.di_stack r.di_current := congrArg Prod.snd (Except.ok.inj hc)
  have h3 : r'.di_stack = (r'.with_cursor r.di_stack r.di_current).di_stack :=
    congrArg BitReader.di_stack h2
  have h4 : r'.di_current = (r'.with_cursor r.di_stack r.di_current).di_current :=
    congrArg BitReader.di_current h2
  exact ⟨h3, h4⟩

/-- Above `2^31` the width is 32, and `decode` stops at the shift `1 << 32`. -/
theorem decode_wide_undefined (outof : Nat) (force : Bool) (r : BitReader)
    (h1 : 2147483648 < outof) (h2 : outof < 4294967296) :
    r.decode false outof force = .error .undefined := by
  have hu : u32 outof = outof := by unfold u32; omega
  have hfls : my_fls (sub32 outof 1) = 32 := by
    have e : sub32 outof 1 = outof - 1 := by unfold sub32 u32; omega
    rw [e, my_fls_eq_size _ (by omega)]
    exact spec_bits_of_bracket outof 32 (by norm_num; exact h1) (by norm_num; omega)
      (by norm_num)
  unfold BitReader.decode
  rw [assert_release, ok_bind]
  dsimp only
  rw [hu, hfls]
  rfl

theorem sentinel_not_next : (Frame.set 0 0 0 0).is_next = false := by rfl

/-- Every pass of the loop keeps the invariant of the frames, until the cursor is
exhausted. -/
theorem pass_frames_ok (dbg : Bool) (r r' : BitReader) (o : Option Nat)
    (hc : (!r.di_stack.isEmpty || r.di_current.is_next) = true)
    (hI : r.exhausted ∨ r.frames_ok) (h : next_pass dbg r = .ok (o, r')) :
    r'.exhausted ∨ r'.frames_ok := by
  cases dbg with
  | true => rw [next_pass_faults r hc] at h; cases h
  | false =>
    rcases hI with ⟨hs, hcur⟩ | ⟨hall, hchain⟩
    · rw [hs, hcur, sentinel_not_next] at hc
      simp at hc
    · have hcur := hall r.di_current (List.mem_cons_self _ _)
      obtain ⟨⟨hjk, hple, hgap⟩, hpk, hk32⟩ := hcur
      by_cases hn : r.di_current.is_next = true
      · rw [next_pass_descend false r hn] at h
        obtain ⟨x, hd, h2⟩ := bind_eq_ok _ _ _ h
        cases h2
        have hspan : r.di_current.k - r.di_current.j > 1 := by
          unfold Frame.is_next at hn; simpa using hn
        generalize hcj : r.di_current.j = j at *
        generalize hck : r.di_current.k = k at *
        generalize hcpj : r.di_current.pos_j = pj at *
        generalize hcpk : r.di_current.pos_k = pk at *
        have hjm : j < (j + k) / 2 := by omega
        have hmk : (j + k) / 2 < k := by omega
        obtain ⟨a1, _, _, _, _⟩ := interp_args pj (pj + ((j + k) / 2 - j)) pk j ((j + k) / 2) k
          hjm hmk (Nat.le_refl _) (by omega) hpk hk32
        rw [a1] at hd
        have h31 : pk - pj - (k - j) + 1 ≤ 2147483648 := by
          by_contra hcon
          rw [decode_wide_undefined _ _ _ (by omega) (by omega)] at hd
          cases hd
        have hlt := decode_ok_lt false _ true _ x.2 x.1 (by omega) h31 hd
        obtain ⟨hst, _⟩ := decode_keeps_cursor _ _ _ x.2 x.1 hd
        obtain ⟨_, _, _, _, a5⟩ := interp_args pj (x.1 + pj + ((j + k) / 2 - j)) pk j
          ((j + k) / 2) k hjm hmk (by omega) (by omega) hpk hk32
        have hpe : x.1 + pj + ((j + k) / 2 - j) - pj - ((j + k) / 2 - j) = x.1 := by omega
        rw [hpe] at a5
        rw [a5, frame_set_eq _ _ _ _ (by omega) (by omega)]
        right
        have hfr : (x.2.with_cursor x.2.di_stack
            ⟨j, (j + k) / 2, pj, x.1 + pj + ((j + k) / 2 - j)⟩).frames =
            ⟨j, (j + k) / 2, pj, x.1 + pj + ((j + k) / 2 - j)⟩ :: r.frames := by
          show _ :: x.2.di_stack.reverse = _ :: r.di_current :: r.di_stack.reverse
          rw [hst]
          show _ :: (r.di_stack ++ [r.di_current]).reverse = _
          rw [List.reverse_append]
          rfl
        unfold BitReader.frames_ok
        rw [hfr]
        constructor
        · intro f hf
          rcases List.mem_cons.1 hf with hf | hf
          · subst hf
            exact ⟨⟨hjm, by dsimp only; omega, by dsimp only; omega⟩, by dsimp only; omega,
              by dsimp only; omega⟩
          · exact hall f hf
        · have hhead : r.frames = r.di_current :: r.di_stack.reverse := rfl
          rw [hhead]
          apply List.Chain'.cons
          · show x.1 + pj + ((j + k) / 2 - j) +
              (r.di_current.k - (r.di_current.j + r.di_current.k) / 2) ≤ r.di_current.pos_k
            rw [hcj, hck, hcpk]
            omega
          · exact hchain
      · have hn' : r.di_current.is_next = false := by
          cases hb : r.di_current.is_next with
          | true => exact absurd hb hn
          | false => rfl
        have hne : r.di_stack ≠ [] := by
          intro he
          rw [he, hn'] at hc
          simp at hc
        obtain ⟨s, top, hs⟩ : ∃ s top, r.di_stack = s ++ [top] := by
          rcases List.eq_nil_or_concat r.di_stack with he | ⟨s, top, he⟩
          · exact absurd he hne
          · exact ⟨s, top, by rw [he, List.concat_eq_append]⟩
        rw [next_pass_emit r s top hn' hs] at h
        cases h
        have hfr : r.frames = r.di_current :: top :: s.reverse := by
          show r.di_current :: r.di_stack.reverse = _
          rw [hs, List.reverse_append]
          rfl
        rw [hfr] at hall hchain
        obtain ⟨⟨htjk, htple, htgap⟩, htpk, htk32⟩ := hall top (by simp)
        rw [List.chain'_cons] at hchain
        obtain ⟨hin, hchain2⟩ := hchain
        unfold Frame.inside at hin
        rw [frame_set_eq _ _ _ _ hpk htpk]
        split
        · rename_i hcond
          left
          have hse : s = [] := by
            have : s.isEmpty = true := by
              cases hb : s.isEmpty with
              | true => rfl
              | false => rw [hb] at hcond; simp at hcond
            exact List.isEmpty_iff.1 this
          exact ⟨hse, rfl⟩
        · right
          constructor
          · intro f hf
            rcases List.mem_cons.1 hf with hf | hf
            · subst hf
              exact ⟨⟨by dsimp only; omega, by dsimp only; omega, by dsimp only; omega⟩,
                htpk, htk32⟩
            · exact hall f (by simp; right; right; simpa using hf)
          · show List.Chain' Frame.inside (_ :: s.reverse)
            cases hrev : s.reverse with
            | nil => exact List.chain'_singleton _
            | cons t rest =>
              rw [hrev] at hchain2
              rw [List.chain'_cons] at hchain2 ⊢
              exact ⟨hchain2.1, hchain2.2⟩

/-- The frames of a cursor that has just been started. -/
theorem start_frames (dbg : Bool) (j k pos_j pos_k : Nat) (r0 r1 : BitReader)
    (hpj : pos_j < 4294967296) (hpk : pos_k < 4294967296) (hstack : r0.di_stack = [])
    (hstart : r0.decode_interpolative_cursor dbg j k pos_j pos_k = .ok r1) :
    r1.frames = [⟨j, k, pos_j, pos_k⟩] := by
  unfold BitReader.decode_interpolative_cursor at hstart
  obtain ⟨_, _, hs⟩ := bind_eq_ok _ _ _ hstart
  cases hs
  show [_] ++ r0.di_stack.reverse = _
  rw [hstack, frame_set_eq j k pos_j pos_k hpj hpk]
  rfl

/-- C19: for every cursor started by `decode_interpolative(j, k, pos_j, pos_k)` with
`j < k` and `pos_k - pos_j ≥ k - j`, whatever bits the stream contains, after any number
of passes of the loop of `decode_interpolative_next()` and after any number of calls,
either the cursor is exhausted or the current frame and every frame on the stack have
`low_index < high_index`, `low_value ≤ high_value` and
`high_value - low_value ≥ high_index - low_index`. -/
theorem frame_invariant (dbg : Bool) (j k pos_j pos_k : Nat) (r0 r1 : BitReader)
    (hjk : j < k) (hidx : k < 2 ^ 31) (hpk : pos_k < 2 ^ 32) (hgap : pos_j + (k - j) ≤ pos_k)
    (hstack : r0.di_stack = [])
    (hstart : r0.decode_interpolative_cursor dbg j k pos_j pos_k = .ok r1) :
    (∀ (n : Nat) (r : BitReader), run_passes dbg n r1 = .ok r →
      r.exhausted ∨ ∀ f ∈ r.di_current :: r.di_stack, f.ordered) ∧
    (∀ (m : Nat) (vals : List Nat) (r : BitReader), next_n dbg m r1 = .ok (vals, r) →
      r.exhausted ∨ ∀ f ∈ r.di_current :: r.di_stack, f.ordered) := by
  have hpk' : pos_k < 4294967296 := lt_of_lt_of_le hpk (by norm_num)
  have hk' : k < 4294967296 := lt_of_lt_of_le hidx (by norm_num)
  have hfr := start_frames dbg j k pos_j pos_k r0 r1 (by omega) hpk' hstack hstart
  have h1 : r1.exhausted ∨ r1.frames_ok := by
    right
    unfold BitReader.frames_ok
    rw [hfr]
    refine ⟨?_, List.chain'_singleton _⟩
    intro f hf
    rw [List.mem_singleton] at hf
    subst hf
    exact ⟨⟨hjk, by dsimp only; omega, by dsimp only; omega⟩, hpk', hk'⟩
  obtain ⟨hp, _, hn⟩ := passes_invariant dbg (fun r => r.exhausted ∨ r.frames_ok)
    (fun r r' o hc hI h => pass_frames_ok dbg r r' o hc hI h)
  have hout : ∀ r : BitReader, r.exhausted ∨ r.frames_ok →
      r.exhausted ∨ ∀ f ∈ r.di_current :: r.di_stack, f.ordered := by
    intro r h
    rcases h with h | h
    · exact Or.inl h
    · right
      intro f hf
      refine (h.1 f ?_).1
      rcases List.mem_cons.1 hf with hf | hf
      · rw [hf]; exact List.mem_cons_self _ _
      · exact List.mem_cons_of_mem _ (List.mem_reverse.2 hf)
  exact ⟨fun n r h => hout r (hp n r1 r h1 h), fun m vals r h => hout r (hn m r1 r vals h1 h)⟩

/-- Witness of C19: the cursor `decode_interpolative(0, 4, 10, 20)` on the buffer `[57]`,
without assertions; after two passes the stack holds two frames. -/
theorem frame_invariant_witness :
    0 < 4 ∧ 4 < 2 ^ 31 ∧ 20 < 2 ^ 32 ∧ 10 + (4 - 0) ≤ 20 ∧ (BitReader.init [57]).di_stack = [] ∧
    (BitReader.init [57]).decode_interpolative_cursor false 0 4 10 20 =
      .ok ((BitReader.init [57]).with_cursor [] ⟨0, 4, 10, 20⟩) ∧
    run_passes false 2 ((BitReader.init [57]).with_cursor [] ⟨0, 4, 10, 20⟩) =
      .ok ⟨[57], 1, 4, 3, [⟨0, 4, 10, 20⟩, ⟨0, 2, 10, 13⟩], ⟨0, 1, 10, 12⟩⟩ ∧
    ((∀ (n : Nat) (r : BitReader),
      run_passes false n ((BitReader.init [57]).with_cursor [] ⟨0, 4, 10, 20⟩) = .ok r →
      r.exhausted ∨ ∀ f ∈ r.di_current :: r.di_stack, f.ordered) ∧
    (∀ (m : Nat) (vals : List Nat) (r : BitReader),
      next_n false m ((BitReader.init [57]).with_cursor [] ⟨0, 4, 10, 20⟩) = .ok (vals, r) →
      r.exhausted ∨ ∀ f ∈ r.di_current :: r.di_stack, f.ordered)) :=
  ⟨by decide, by decide, by decide, by decide, by rfl, by rfl, by rfl,
    frame_invariant false 0 4 10 20 (BitReader.init [57]) _ (by decide) (by decide)
      (by decide) (by decide) (by rfl) (by rfl)⟩
/-! ## C20: the depth of the frame stack -/


set_option maxRecDepth 100000 in
theorem msb_lut_spec : ∀ m, m < 256 → m ≠ 0 →
    2 ^ msb_lut.getD m 0 ≤ m ∧ m < 2 ^ (msb_lut.getD m 0 + 1) := by
  decide

/-- The loop of `highest_order_bit` over the low `n` bytes finds the position of the
highest bit that is set. -/
theorem highest_order_bit_loop_spec (x : Nat) : ∀ n : Nat, 0 < x → x < 2 ^ (8 * n) →
    2 ^ highest_order_bit_loop x n ≤ x ∧ x < 2 ^ (highest_order_bit_loop x n + 1) := by
  intro n
  induction n with
  | zero => intro h0 h; simp at h; omega
  | succ n ih =>
    intro h0 h
    have hpos : 0 < 2 ^ (8 * n) := Nat.pow_pos (by norm_num)
    have hbyte : (x >>> (n * 8)) &&& 0xff = x / 2 ^ (8 * n) := by
      have e : (0xff : Nat) = 2 ^ 8 - 1 := by norm_num
      rw [e, Nat.and_pow_two_sub_one_eq_mod, Nat.shiftRight_eq_div_pow, Nat.mul_comm n 8]
      apply Nat.mod_eq_of_lt
      apply Nat.div_lt_of_lt_mul
      rw [← Nat.pow_add]
      have : 8 * n + 8 = 8 * (n + 1) := by ring
      rw [this]; exact h
    unfold highest_order_bit_loop
    dsimp only
    rw [hbyte]
    by_cases hb : x / 2 ^ (8 * n) ≠ 0
    · rw [if_pos hb]
      have hlt : x / 2 ^ (8 * n) < 256 := by
        apply Nat.div_lt_of_lt_mul
        have : (256 : Nat) = 2 ^ 8 := by norm_num
        rw [this, ← Nat.pow_add]
        have : 8 * n + 8 = 8 * (n + 1) := by ring
        rw [this]; exact h
      obtain ⟨a, b⟩ := msb_lut_spec _ hlt hb
      have := bracket_scale x (8 * n) (msb_lut.getD (x / 2 ^ (8 * n)) 0 + 1) b
        (by rw [Nat.add_sub_cancel]; exact a) (by omega)
      have e1 : msb_lut.getD (x / 2 ^ (8 * n)) 0 + n * 8 =
          8 * n + (msb_lut.getD (x / 2 ^ (8 * n)) 0 + 1) - 1 := by omega
      have e2 : msb_lut.getD (x / 2 ^ (8 * n)) 0 + n * 8 + 1 =
          8 * n + (msb_lut.getD (x / 2 ^ (8 * n)) 0 + 1) := by omega
      rw [e1]
      refine ⟨this.2, ?_⟩
      rw [← e1, e2]; exact this.1
    · rw [if_neg hb]
      have hz : x / 2 ^ (8 * n) = 0 := by
        by_contra hne; exact hb hne
      exact ih h0 ((Nat.div_eq_zero_iff hpos).1 hz)

/-- For the 32-bit pattern of a non-zero `x`, `highest_order_bit(x)` is
`floor(log2(x))`. -/
theorem highest_order_bit_eq_log (x : Nat) (h0 : 0 < x) (h32 : x < 4294967296) :
    highest_order_bit x = Nat.log 2 x := by
  obtain ⟨a, b⟩ := highest_order_bit_loop_spec x 4 h0 (by norm_num; exact h32)
  exact (Nat.log_eq_of_pow_le_of_lt_pow a b).symm

/-- Every pass of the loop keeps the bound on the depth of the frames. -/
theorem pass_depth_ok (dbg : Bool) (L : Nat) (r r' : BitReader) (o : Option Nat)
    (hc : (!r.di_stack.isEmpty || r.di_current.is_next) = true)
    (hI : depth_ok L r.frames) (h : next_pass dbg r = .ok (o, r')) :
    depth_ok L r'.frames := by
  cases dbg with
  | true => rw [next_pass_faults r hc] at h; cases h
  | false =>
    by_cases hn : r.di_current.is_next = true
    · rw [next_pass_descend false r hn] at h
      obtain ⟨x, hd, h2⟩ := bind_eq_ok _ _ _ h
      cases h2
      have hspan : r.di_current.k - r.di_current.j > 1 := by
        unfold Frame.is_next at hn; simpa using hn
      obtain ⟨hst, _⟩ := decode_keeps_cursor _ _ _ x.2 x.1 hd
      have hfr : (x.2.with_cursor x.2.di_stack
          (Frame.set r.di_current.j ((r.di_current.j + r.di_current.k) / 2)
            r.di_current.pos_j (add32 x.1 (sub32 (add32 r.di_current.pos_j
              ((r.di_current.j + r.di_current.k) / 2)) r.di_current.j)))).frames =
          (Frame.set r.di_current.j ((r.di_current.j + r.di_current.k) / 2)
            r.di_current.pos_j (add32 x.1 (sub32 (add32 r.di_current.pos_j
              ((r.di_current.j + r.di_current.k) / 2)) r.di_current.j))) :: r.frames := by
        show _ :: x.2.di_stack.reverse = _ :: r.di_current :: r.di_stack.reverse
        rw [hst]
        show _ :: (r.di_stack ++ [r.di_current]).reverse = _
        rw [List.reverse_append]
        rfl
      rw [hfr]
      refine ⟨?_, hI⟩
      have hI1 : r.di_stack.reverse.length + Nat.log 2 (r.di_current.k - r.di_current.j) ≤ L :=
        hI.1
      show (r.di_stack.reverse.length + 1) +
        Nat.log 2 ((r.di_current.j + r.di_current.k) / 2 - r.di_current.j) ≤ L
      have e : (r.di_current.j + r.di_current.k) / 2 - r.di_current.j =
          (r.di_current.k - r.di_current.j) / 2 := by omega
      have := Nat.log_of_one_lt_of_le (show 1 < 2 by norm_num)
        (show 2 ≤ r.di_current.k - r.di_current.j by omega)
      rw [e]
      omega
    · have hn' : r.di_current.is_next = false := by
        cases hb : r.di_current.is_next with
        | true => exact absurd hb hn
        | false => rfl
      have hne : r.di_stack ≠ [] := by
        intro he
        rw [he, hn'] at hc
        simp at hc
      obtain ⟨s, top, hs⟩ : ∃ s top, r.di_stack = s ++ [top] := by
        rcases List.eq_nil_or_concat r.di_stack with he | ⟨s, top, he⟩
        · exact absurd he hne
        · exact ⟨s, top, by rw [he, List.concat_eq_append]⟩
      rw [next_pass_emit r s top hn' hs] at h
      cases h
      have hfr : r.frames = r.di_current :: top :: s.reverse := by
        show r.di_current :: r.di_stack.reverse = _
        rw [hs, List.reverse_append]
        rfl
      rw [hfr] at hI
      obtain ⟨_, htop, hrest⟩ := hI
      refine ⟨?_, hrest⟩
      show s.reverse.length + Nat.log 2 _ ≤ L
      split
      · have : Nat.log 2 ((Frame.set 0 0 0 0).k - (Frame.set 0 0 0 0).j) = 0 := by
          show Nat.log 2 (0 - 0) = 0
          simp
        rw [this]; omega
      · show s.reverse.length + Nat.log 2 (top.k - (top.j + top.k) / 2) ≤ L
        have hle : top.k - (top.j + top.k) / 2 ≤ top.k - top.j := by omega
        have := @Nat.log_mono_right 2 _ _ hle
        omega

/-- C20: for every cursor started by `decode_interpolative(j, k, pos_j, pos_k)` with
`k - j ≥ 2` and `pos_k - pos_j ≥ k - j`, after any number of passes of the loop of
`decode_interpolative_next()` and after any number of calls the frame stack holds at
most `floor(log2(k - j))` frames, and a pass that pushes a frame stays within this
bound; the bound is at most `highest_order_bit(pos_k - pos_j)`, which is
`floor(log2(pos_k - pos_j))`, so the stack never exceeds the capacity
`highest_order_bit(pos_k - pos_j) + 1` reserved when the cursor is started. -/
theorem stack_depth_bound (dbg : Bool) (j k pos_j pos_k : Nat) (r0 r1 : BitReader)
    (hjk : j + 2 ≤ k) (hpk : pos_k < 2 ^ 32) (hgap : pos_j + (k - j) ≤ pos_k)
    (hstack : r0.di_stack = [])
    (hstart : r0.decode_interpolative_cursor dbg j k pos_j pos_k = .ok r1) :
    (∀ (n : Nat) (r : BitReader), run_passes dbg n r1 = .ok r →
      r.di_stack.length ≤ Nat.log 2 (k - j) ∧
      (r.di_current.is_next = true → r.di_stack.length + 1 ≤ Nat.log 2 (k - j))) ∧
    (∀ (m : Nat) (vals : List Nat) (r : BitReader), next_n dbg m r1 = .ok (vals, r) →
      r.di_stack.length ≤ Nat.log 2 (k - j)) ∧
    highest_order_bit (sub32 pos_k pos_j) = Nat.log 2 (pos_k - pos_j) ∧
    Nat.log 2 (k - j) ≤ highest_order_bit (sub32 pos_k pos_j) ∧
    Nat.log 2 (k - j) < di_reserve pos_j pos_k := by
  have hpk' : pos_k < 4294967296 := lt_of_lt_of_le hpk (by norm_num)
  have hfr := start_frames dbg j k pos_j pos_k r0 r1 (by omega) hpk' hstack hstart
  have h1 : depth_ok (Nat.log 2 (k - j)) r1.frames := by
    rw [hfr]
    exact ⟨by show 0 + Nat.log 2 (k - j) ≤ _; omega, trivial⟩
  obtain ⟨hp, _, hn⟩ := passes_invariant dbg (fun r => depth_ok (Nat.log 2 (k - j)) r.frames)
    (fun r r' o hc hI h => pass_depth_ok dbg _ r r' o hc hI h)
  have hout : ∀ r : BitReader, depth_ok (Nat.log 2 (k - j)) r.frames →
      r.di_stack.length ≤ Nat.log 2 (k - j) ∧
      (r.di_current.is_next = true → r.di_stack.length + 1 ≤ Nat.log 2 (k - j)) := by
    intro r h
    have h2 : r.di_stack.reverse.length + Nat.log 2 (r.di_current.k - r.di_current.j) ≤
        Nat.log 2 (k - j) := h.1
    rw [List.length_reverse] at h2
    refine ⟨by omega, ?_⟩
    intro hnx
    have hspan : r.di_current.k - r.di_current.j > 1 := by
      unfold Frame.is_next at hnx; simpa using hnx
    have := Nat.log_pos (show 1 < 2 by norm_num)
      (show 2 ≤ r.di_current.k - r.di_current.j by omega)
    omega
  have hsub : sub32 pos_k pos_j = pos_k - pos_j := by unfold sub32 u32; omega
  have hhob := highest_order_bit_eq_log (pos_k - pos_j) (by omega) (by omega)
  have hmono : Nat.log 2 (k - j) ≤ Nat.log 2 (pos_k - pos_j) :=
    Nat.log_mono_right (by omega)
  refine ⟨fun n r h => hout r (hp n r1 r h1 h), fun m vals r h => (hout r (hn m r1 r vals h1 h)).1,
    by rw [hsub]; exact hhob, by rw [hsub, hhob]; exact hmono, ?_⟩
  unfold di_reserve
  rw [hsub, hhob]
  omega

/-- Witness of C20: the cursor `decode_interpolative(0, 4, 10, 20)` on the buffer
`[57]`, without assertions; after two passes the stack holds `floor(log2(4)) = 2`
frames. -/
theorem stack_depth_bound_witness :
    0 + 2 ≤ 4 ∧ 20 < 2 ^ 32 ∧ 10 + (4 - 0) ≤ 20 ∧ (BitReader.init [57]).di_stack = [] ∧
    (BitReader.init [57]).decode_interpolative_cursor false 0 4 10 20 =
      .ok ((BitReader.init [57]).with_cursor [] ⟨0, 4, 10, 20⟩) ∧
    run_passes false 2 ((BitReader.init [57]).with_cursor [] ⟨0, 4, 10, 20⟩) =
      .ok ⟨[57], 1, 4, 3, [⟨0, 4, 10, 20⟩, ⟨0, 2, 10, 13⟩], ⟨0, 1, 10, 12⟩⟩ ∧
    highest_order_bit (sub32 20 10) = 3 ∧ di_reserve 10 20 = 4 ∧
    ((∀ (n : Nat) (r : BitReader),
      run_passes false n ((BitReader.init [57]).with_cursor [] ⟨0, 4, 10, 20⟩) = .ok r →
      r.di_stack.length ≤ Nat.log 2 (4 - 0) ∧
      (r.di_current.is_next = true → r.di_stack.length + 1 ≤ Nat.log 2 (4 - 0))) ∧
    (∀ (m : Nat) (vals : List Nat) (r : BitReader),
      next_n false m ((BitReader.init [57]).with_cursor [] ⟨0, 4, 10, 20⟩) = .ok (vals, r) →
      r.di_stack.length ≤ Nat.log 2 (4 - 0)) ∧
    highest_order_bit (sub32 20 10) = Nat.log 2 (20 - 10) ∧
    Nat.log 2 (4 - 0) ≤ highest_order_bit (sub32 20 10) ∧
    Nat.log 2 (4 - 0) < di_reserve 10 20) :=
  ⟨by decide, by decide, by decide, by rfl, by rfl, by rfl, by rfl, by rfl,
    stack_depth_bound false 0 4 10 20 (BitReader.init [57]) _ (by decide) (by decide)
      (by decide) (by rfl) (by rfl)⟩
/-! ## The life cycle of a cursor without assertions -/


/-- A pass of the loop that returns a value lowers the number of remaining values by
one, a descent leaves it as it is; the frames on the stack have interior entries. -/
theorem pass_remaining (r r' : BitReader) (o : Option Nat)
    (hc : (!r.di_stack.isEmpty || r.di_current.is_next) = true)
    (hS : ∀ f ∈ r.di_stack, f.k - f.j > 1) (h : next_pass false r = .ok (o, r')) :
    (∀ f ∈ r'.di_stack, f.k - f.j > 1) ∧
    r'.remaining + (if o = none then 0 else 1) = r.remaining ∧
    (o = none → r'.di_stack ≠ []) := by
  by_cases hn : r.di_current.is_next = true
  · rw [next_pass_descend false r hn] at h
    obtain ⟨x, hd, h2⟩ := bind_eq_ok _ _ _ h
    cases h2
    have hspan : r.di_current.k - r.di_current.j > 1 := by
      unfold Frame.is_next at hn; simpa using hn
    obtain ⟨hst, _⟩ := decode_keeps_cursor _ _ _ x.2 x.1 hd
    have hst2 : x.2.di_stack = r.di_stack ++ [r.di_current] := hst
    refine ⟨?_, ?_, ?_⟩
    · intro f hf
      have hf2 : f ∈ x.2.di_stack := hf
      rw [hst2] at hf2
      rcases List.mem_append.1 hf2 with hf3 | hf3
      · exact hS f hf3
      · rw [List.mem_singleton] at hf3
        rw [hf3]; exact hspan
    · show ((r.di_current.j + r.di_current.k) / 2 - r.di_current.j - 1) +
        (x.2.di_stack.map fun f => f.k - (f.j + f.k) / 2).sum + 0 = r.remaining
      rw [hst2, List.map_append, List.sum_append]
      unfold BitReader.remaining
      simp only [List.map_cons, List.map_nil, List.sum_cons, List.sum_nil]
      omega
    · intro _ he
      have he2 : x.2.di_stack = [] := he
      rw [hst2] at he2
      simp at he2
  · have hn' : r.di_current.is_next = false := by
      cases hb : r.di_current.is_next with
      | true => exact absurd hb hn
      | false => rfl
    have hne : r.di_stack ≠ [] := by
      intro he
      rw [he, hn'] at hc
      simp at hc
    obtain ⟨s, top, hs⟩ : ∃ s top, r.di_stack = s ++ [top] := by
      rcases List.eq_nil_or_concat r.di_stack with he | ⟨s, top, he⟩
      · exact absurd he hne
      · exact ⟨s, top, by rw [he, List.concat_eq_append]⟩
    rw [next_pass_emit r s top hn' hs] at h
    cases h
    have htop : top.k - top.j > 1 := hS top (by rw [hs]; simp)
    have hcur : r.di_current.k - r.di_current.j - 1 = 0 := by
      unfold Frame.is_next at hn'
      simp at hn'
      omega
    refine ⟨?_, ?_, ?_⟩
    · intro f hf
      have hf2 : f ∈ s := hf
      exact hS f (by rw [hs]; exact List.mem_append_left _ hf2)
    · unfold BitReader.remaining
      rw [hs, List.map_append, List.sum_append, hcur]
      simp only [List.map_cons, List.map_nil, List.sum_cons, List.sum_nil]
      split
      · rename_i hcond
        have hnn : (Frame.set ((top.j + top.k) / 2) top.k r.di_current.pos_k
            top.pos_k).is_next = false := by
          cases hb : (Frame.set ((top.j + top.k) / 2) top.k r.di_current.pos_k
            top.pos_k).is_next with
          | true => rw [hb] at hcond; simp at hcond
          | false => rfl
        have hw : top.k - (top.j + top.k) / 2 ≤ 1 := by
          have : decide (top.k - (top.j + top.k) / 2 > 1) = false := hnn
          simpa using this
        show (0 - 0 - 1) + (s.map fun f => f.k - (f.j + f.k) / 2).sum + 1 = _
        omega
      · show (top.k - (top.j + top.k) / 2 - 1) +
          (s.map fun f => f.k - (f.j + f.k) / 2).sum + 1 = _
        omega
    · intro he; cases he

/-- Without assertions a call of `decode_interpolative_next` on a cursor that has
values left returns one of them. -/
theorem loop_remaining (f : Nat) : ∀ (r r' : BitReader) (v : Nat),
    (∀ g ∈ r.di_stack, g.k - g.j > 1) →
    (!r.di_stack.isEmpty || r.di_current.is_next) = true →
    next_loop f false r = .ok (v, r') →
    (∀ g ∈ r'.di_stack, g.k - g.j > 1) ∧ r'.remaining + 1 = r.remaining := by
  induction f with
  | zero => intro r r' v _ _ h; cases h
  | succ f ih =>
    intro r r' v hS hc h
    rw [next_loop_pass, if_pos hc] at h
    obtain ⟨x, hx, h2⟩ := bind_eq_ok _ _ _ h
    obtain ⟨a, b, c⟩ := pass_remaining r x.2 x.1 hc hS hx
    cases ho : x.1 with
    | some v' =>
      rw [ho] at h2 b
      cases h2
      exact ⟨a, by simpa using b⟩
    | none =>
      rw [ho] at h2 b
      have hne := c ho
      have hc2 : (!x.2.di_stack.isEmpty || x.2.di_current.is_next) = true := by
        have : x.2.di_stack.isEmpty = false := by
          cases hb : x.2.di_stack.isEmpty with
          | true => exact absurd (List.isEmpty_iff.1 hb) hne
          | false => rfl
        rw [this]; rfl
      obtain ⟨a2, b2⟩ := ih x.2 r' v a hc2 h2
      exact ⟨a2, by simp at b; omega⟩

/-- Without assertions each of the first calls lowers the number of remaining values by
one. -/
theorem next_n_remaining (m : Nat) : ∀ (r r' : BitReader) (vals : List Nat),
    (∀ g ∈ r.di_stack, g.k - g.j > 1) → m ≤ r.remaining →
    next_n false m r = .ok (vals, r') →
    (∀ g ∈ r'.di_stack, g.k - g.j > 1) ∧ r'.remaining + m = r.remaining := by
  induction m with
  | zero => intro r r' vals hS _ h; cases h; exact ⟨hS, rfl⟩
  | succ m ih =>
    intro r r' vals hS hm h
    unfold next_n at h
    obtain ⟨x, hx, h2⟩ := bind_eq_ok _ _ _ h
    obtain ⟨y, hy, h3⟩ := bind_eq_ok _ _ _ h2
    cases h3
    unfold BitReader.decode_interpolative_next at hx
    obtain ⟨_, _, hx2⟩ := bind_eq_ok _ _ _ hx
    have hc : (!r.di_stack.isEmpty || r.di_current.is_next) = true := by
      cases hs : r.di_stack with
      | nil =>
        have : r.remaining = r.di_current.k - r.di_current.j - 1 := by
          unfold BitReader.remaining; rw [hs]; simp
        have hn : r.di_current.is_next = true := by
          unfold Frame.is_next; simp; omega
        rw [hn]; simp
      | cons a l => rfl
    obtain ⟨a, b⟩ := loop_remaining _ r x.2 x.1 hS hc hx2
    obtain ⟨a2, b2⟩ := ih x.2 y.2 y.1 a (by omega) hy
    exact ⟨a2, by omega⟩

/-- Without assertions, a cursor started by `decode_interpolative(j, k, pos_j, pos_k)`
with `k - j ≥ 2` is exhausted after the `k - j - 1` calls of
`decode_interpolative_next()` that return the interior values, and after no smaller
number of calls. -/
theorem cursor_lifecycle_release (j k pos_j pos_k : Nat) (r0 r1 : BitReader)
    (hjk : j + 2 ≤ k) (hpj : pos_j < 2 ^ 32) (hpk : pos_k < 2 ^ 32)
    (hstack : r0.di_stack = [])
    (hstart : r0.decode_interpolative_cursor false j k pos_j pos_k = .ok r1) :
    (∀ (vals : List Nat) (r : BitReader), next_n false (k - j - 1) r1 = .ok (vals, r) →
      r.exhausted) ∧
    (∀ (m : Nat) (vals : List Nat) (r : BitReader), m < k - j - 1 →
      next_n false m r1 = .ok (vals, r) → ¬ r.exhausted) := by
  have h1 : pos_j < 4294967296 := lt_of_lt_of_le hpj (by norm_num)
  have h2 : pos_k < 4294967296 := lt_of_lt_of_le hpk (by norm_num)
  unfold BitReader.decode_interpolative_cursor at hstart
  obtain ⟨_, _, hs⟩ := bind_eq_ok _ _ _ hstart
  cases hs
  rw [frame_set_eq j k pos_j pos_k h1 h2]
  constructor
  · intro vals r h
    have h' : next_n false (k - j - 1) (r0.with_cursor r0.di_stack ⟨j, k, pos_j, pos_k⟩) =
        .ok (vals, r) := h
    obtain ⟨_, _, ρ', hv, _⟩ := next_n_exhausted j k pos_j pos_k r0 r vals (by omega) h1 h2 h'
    have hn := next_n_values (k - j) j k pos_j pos_k r0 ρ' vals r0.di_stack (Nat.le_refl _)
      (by omega) h1 h2 hv
    rw [h'] at hn
    have he : r = ρ'.with_cursor r0.di_stack
        (if r0.di_stack.isEmpty && decide (j + 1 < k) then Frame.set 0 0 0 0
         else ⟨k - 1, k, vals.getLastD pos_j, pos_k⟩) :=
      congrArg Prod.snd (Except.ok.inj hn)
    rw [he, hstack]
    have hd : decide (j + 1 < k) = true := by simp; omega
    constructor
    · rfl
    · show (if ([] : List Frame).isEmpty && decide (j + 1 < k) then Frame.set 0 0 0 0
        else _) = Frame.set 0 0 0 0
      rw [hd]; rfl
  · intro m vals r hm h hex
    have hS : ∀ g ∈ ({ r0 with di_current := (⟨j, k, pos_j, pos_k⟩ : Frame) } : BitReader).di_stack,
        g.k - g.j > 1 := by
      intro g hg
      have hg2 : g ∈ r0.di_stack := hg
      rw [hstack] at hg2
      cases hg2
    have hrem : ({ r0 with di_current := (⟨j, k, pos_j, pos_k⟩ : Frame) } : BitReader).remaining =
        k - j - 1 := by
      show (k - j - 1) + (r0.di_stack.map fun f => f.k - (f.j + f.k) / 2).sum = _
      rw [hstack]; simp
    obtain ⟨_, b⟩ := next_n_remaining m _ r vals hS (by rw [hrem]; omega) h
    rw [hrem] at b
    have hz : r.remaining = 0 := by
      unfold BitReader.remaining
      rw [hex.1, hex.2]
      rfl
    omega
/-! ## The sign extension of `1 << 31` in `BitWriter::encode` (C1, C2, C5, C6) -/


/-- The reference quantities of section 4.1 of the spec for `outof = 2^30 + 1`: the
width is 31, `spare` is `2^30 - 1` and `mid_start` is 1. -/
theorem spec_quantities_wide :
    spec_bits 1073741825 = 31 ∧ spec_spare 1073741825 = 1073741823 ∧
    spec_mid_start 1073741825 = 1 := by
  have hb : spec_bits 1073741825 = 31 :=
    spec_bits_of_bracket 1073741825 31 (by norm_num) (by norm_num) (by norm_num)
  have hs : spec_spare 1073741825 = 1073741823 :=
    spec_spare_of_bits _ 31 _ hb (by norm_num)
  exact ⟨hb, hs, spec_mid_start_of_spare _ _ _ hs (by norm_num)⟩

/-- Between `2^30` and `2^31` every call of `encode` emits 31 bits. -/
theorem emitted_wide (dbg : Bool) (value outof : Nat) (w : BitWriter) (hw : w.wf)
    (h1 : 1073741824 < outof) (h2 : outof ≤ 2147483648) (hv : value < outof) :
    w.emitted dbg value outof = some 31 := by
  have hu1 : u64 value = value := by unfold u64; omega
  have hu2 : u64 outof = outof := by unfold u64; omega
  have hv31 : value < 2 ^ 31 := by norm_num; omega
  obtain ⟨w', he, _, _, hl⟩ := put_bits_spec dbg value 31 w hw (by norm_num) hv31
  have henc : w.encode dbg value outof = .ok w' := by
    unfold BitWriter.encode
    dsimp only
    rw [hu1, hu2, assert_true dbg _ (by simp [hv]), ok_bind,
      encode_code_wide value outof h1 h2 hv, ok_bind]
    exact he
  unfold BitWriter.emitted
  rw [henc]
  dsimp only
  rw [hl, Nat.add_sub_cancel_left]

/-- C1, the behaviour of the code at a failing input: `encode(5, 2^30 + 1)` on the
initial writer emits 31 bits, where the code of section 4.1 of the spec for the value 5
has 30 bits; `decode(2^30 + 1)` on the flushed buffer `[5, 0, 0, 0]` returns 5 and
consumes 30 of its 32 bits, so the reader is left one bit before the end of the code
that the writer emitted. -/
theorem encode_decode_sign_extension :
    BitWriter.init.encode true 5 1073741825 = .ok ⟨[5, 0, 0], 7, 0⟩ ∧
    (BitWriter.mk [5, 0, 0] 7 0).bit_len = 31 ∧
    spec_code 5 1073741825 = (5, 30) ∧
    (BitWriter.mk [5, 0, 0] 7 0).freeze = [5, 0, 0, 0] ∧
    (BitReader.init [5, 0, 0, 0]).decode true 1073741825 false =
      .ok (5, ⟨[5, 0, 0, 0], 4, 2, 0, [], Frame.set 0 0 0 0⟩) ∧
    (BitReader.mk [5, 0, 0, 0] 4 2 0 [] (Frame.set 0 0 0 0)).unread + 30 =
      (BitReader.init [5, 0, 0, 0]).unread := by
  obtain ⟨hb, hs, hm⟩ := spec_quantities_wide
  refine ⟨by rfl, by decide, ?_, by rfl, by rfl, by decide⟩
  unfold spec_code
  rw [hs, hm, hb]
  rfl

/-- C2, the behaviour of the code at a failing input: for the strictly increasing
sequence `[0, 6, 9, 2^30 + 3]` the encoder makes the calls `encode(5, 2^30 + 1)` and
`encode(2, 2^30 - 4)`, the first of which emits 31 bits; the recursive decoder reads 30
bits for it and restores `[0, 6, 11, 2^30 + 3]`. -/
theorem interpolative_sign_extension :
    encode_interpolative_calls [0, 6, 9, 1073741827] 0 3 =
      .ok [(5, 1073741825), (2, 1073741820)] ∧
    BitWriter.init.encode_interpolative true [0, 6, 9, 1073741827] 0 3 =
      .ok ⟨[5, 0, 0, 0, 1, 0, 0], 5, 0⟩ ∧
    (BitWriter.mk [5, 0, 0, 0, 1, 0, 0] 5 0).freeze = [5, 0, 0, 0, 1, 0, 0, 0] ∧
    (BitReader.init [5, 0, 0, 0, 1, 0, 0, 0]).decode_interpolative true
      [0, 0, 0, 1073741827] 0 3 =
      .ok ([0, 6, 11, 1073741827], ⟨[5, 0, 0, 0, 1, 0, 0, 0], 8, 4, 0, [], Frame.set 0 0 0 0⟩) := by
  refine ⟨by rfl, by rfl, by rfl, by rfl⟩

/-- C5, the behaviour of the code at a failing input: for `outof = 2^30 + 1` the width is
31 and `spare` is `2^30 - 1`, so `2^30 - 1` values should receive the shorter code of 30
bits, the value 5 among them; `encode` gives 31 bits to the value 5, and no value at all
receives the shorter code. -/
theorem encode_width_sign_extension :
    spec_bits 1073741825 = 31 ∧ spec_spare 1073741825 = 1073741823 ∧
    spec_mid_start 1073741825 ≤ 5 ∧
    5 < spec_mid_start 1073741825 + spec_spare 1073741825 ∧
    BitWriter.init.emitted true 5 1073741825 = some 31 ∧
    ((Finset.range 1073741825).filter fun value =>
      (BitWriter.init.emitted true value 1073741825).map (· + 1) =
        some (spec_bits 1073741825)).card = 0 := by
  obtain ⟨hb, hs, hm⟩ := spec_quantities_wide
  refine ⟨hb, hs, by rw [hm]; norm_num, by rw [hm, hs]; norm_num, by rfl, ?_⟩
  rw [Finset.card_eq_zero, Finset.filter_eq_empty_iff]
  intro value hv
  rw [Finset.mem_range] at hv
  rw [emitted_wide true value 1073741825 BitWriter.init ⟨by decide, by decide⟩ (by norm_num)
    (by norm_num) hv, hb]
  decide

/-- C6, the behaviour of the code at a failing input: for `outof = 2^30 + 1` the value 5
lies in the middle band (`mid_start = 1`, `spare = 2^30 - 1`), whose code is the value
in `bits - 1 = 30` bits; `encode(5, 2^30 + 1)` on the initial writer emits the value 5
in 31 bits. -/
theorem encode_band_sign_extension :
    spec_mid_start 1073741825 ≤ 5 ∧
    5 < spec_mid_start 1073741825 + spec_spare 1073741825 ∧
    spec_bits 1073741825 - 1 = 30 ∧
    encode_code 5 1073741825 = .ok (5, 31) ∧
    BitWriter.init.encode true 5 1073741825 = .ok ⟨[5, 0, 0], 7, 0⟩ ∧
    (BitWriter.mk [5, 0, 0] 7 0).stream = BitWriter.init.stream + 2 ^ BitWriter.init.bit_len * 5 ∧
    (BitWriter.mk [5, 0, 0] 7 0).bit_len = BitWriter.init.bit_len + 31 := by
  obtain ⟨hb, hs, hm⟩ := spec_quantities_wide
  refine ⟨by rw [hm]; norm_num, by rw [hm, hs]; norm_num, by rw [hb], by rfl, by rfl,
    by decide, by decide⟩

end Xapian
